import Mathlib

/-!
Ingen: compiled graphs, the Move event, the MidiNote allocator and buffers.

A shallow embedding of parts of the Ingen engine, with the properties of its
specification stated and settled over it.

Conventions used throughout:
* a `BlockImpl*` is a natural number (the address); a `std::set<BlockImpl*>`
  is a strictly increasing list and iterates in increasing order;
* `assert(...)` has no effect on the state (a build with `NDEBUG`); where a
  property depends on an asserted condition the condition is a hypothesis;
* a C++ exception is an explicit outcome of the result type;
* recursion and loops without a structural bound take a fuel argument, and a
  separate outcome says that the fuel ran out.
-/

namespace Ingen

/-! ## CompiledGraph (src/server/CompiledGraph.cpp) -/

/-- Traversal mark of a block, `BlockImpl::Mark`. -/
inductive Mark where
  | UNVISITED
  | VISITING
  | VISITED
  deriving DecidableEq, Repr

/-- Execution mode of a task, `Task::Mode`. -/
inductive Mode where
  | SINGLE
  | SEQUENTIAL
  | PARALLEL
  deriving DecidableEq, Repr

/-- A task: a mode, the block of a `SINGLE` task, and the child tasks (the
`std::vector<Task>` a task derives from). -/
inductive Task where
  | mk (mode : Mode) (block : Option Nat) (children : List Task)
  deriving Repr

/-- The mode of a task, `Task::mode()`. -/
def Task.mode : Task → Mode
  | .mk m _ _ => m

/-- The children of a task. -/
def Task.children : Task → List Task
  | .mk _ _ cs => cs

/-- Append a child, `std::vector::push_back`. -/
def Task.push_back : Task → Task → Task
  | .mk m b cs, t => .mk m b (cs ++ [t])

/-- `Task(Task::Mode::SINGLE, n)`. -/
def Task.single (n : Nat) : Task := .mk .SINGLE (some n) []

/-- `Task(mode)`: a task without block and without children. -/
def Task.empty (m : Mode) : Task := .mk m none []

mutual
/-- The blocks of a task tree in in-order traversal (the order in which a
single thread runs them). -/
def Task.blocks : Task → List Nat
  | .mk .SINGLE b _ => b.toList
  | .mk .SEQUENTIAL _ cs => Task.blocksList cs
  | .mk .PARALLEL _ cs => Task.blocksList cs
/-- In-order traversal of a list of tasks. -/
def Task.blocksList : List Task → List Nat
  | [] => []
  | t :: ts => t.blocks ++ Task.blocksList ts
end

/-- A graph as the compiler sees it: the blocks in the iteration order of
`graph->blocks()`, and for every block its `providers()` and `dependants()`
in the iteration order of those sets. -/
structure GraphImpl where
  blocks : List Nat
  providers : Nat → List Nat
  dependants : Nat → List Nat

/-- The marks stored in the blocks (`get_mark` / `set_mark`). -/
abbrev Marks := Nat → Mark

/-- The effect of `n->set_mark(v)`. -/
def set_mark (marks : Marks) (n : Nat) (v : Mark) : Marks :=
  fun m => if m = n then v else marks m

/-- `std::set<BlockImpl*>::insert`: insertion into a strictly increasing list. -/
def set_insert (x : Nat) : List Nat → List Nat
  | [] => [x]
  | y :: ys => if x < y then x :: y :: ys else if x = y then y :: ys else y :: set_insert x ys

/-- Outcome of a compilation step: a value, a thrown
`FeedbackException(node, root)`, or exhausted fuel. -/
inductive Res (α : Type) where
  | ok (a : α)
  | feedback (node : Nat) (root : Option Nat)
  | timeout
  deriving DecidableEq, Repr

/-- Sequencing of outcomes (an exception or a timeout ends the computation). -/
def Res.bind {α β : Type} : Res α → (α → Res β) → Res β
  | .ok a, f => f a
  | .feedback n r, _ => .feedback n r
  | .timeout, _ => .timeout

/-- A range-based `for` loop over `xs` whose body may throw. -/
def forEach {σ : Type} (body : Nat → σ → Res σ) : List Nat → σ → Res σ
  | [], s => .ok s
  | x :: xs, s => (body x s).bind (forEach body xs)

/-- The static function `check_feedback(root, dependant)`. -/
def check_feedback (g : GraphImpl) : Nat → Nat → Nat → Marks → Res Marks
  | 0, _, _, _ => .timeout
  | fuel + 1, root, dependant, marks =>
    if dependant = root then .feedback root none
    else
      forEach (fun d marks =>
        let mark := marks d
        (match mark with
          | .UNVISITED => check_feedback g fuel root d (set_mark marks d .VISITING)
          | .VISITING => .feedback d (some root)
          | .VISITED => .ok marks).bind
        fun marks => .ok (set_mark marks d mark))
        (g.dependants dependant) marks

/-- State threaded through the compilation of blocks: the task compiled into,
the working set `k`, and the marks. -/
abbrev CState := Task × List Nat × Marks

/-- The method `CompiledGraph::compile_dependant`; `compile_block` is the
method of that name, passed in because the two are mutually recursive. -/
def compile_dependant (g : GraphImpl) (compile_block : Nat → CState → Res CState)
    (fuel : Nat) (root block : Nat) : CState → Res CState
  | (task, k, marks) =>
    if (g.providers block).length > 1 then
      (check_feedback g fuel root block marks).bind fun marks =>
        .ok (task, set_insert block k, marks)
    else if task.mode = .PARALLEL then
      (compile_block block (Task.empty .SEQUENTIAL, k, marks)).bind fun
        | (seq, k, marks) => .ok (task.push_back seq, k, marks)
    else
      compile_block block (task, k, marks)

/-- The method `CompiledGraph::compile_block`. -/
def compile_block (g : GraphImpl) : Nat → Nat → CState → Res CState
  | 0, _, _ => .timeout
  | fuel + 1, n, (task, k, marks) =>
    match marks n with
    | .UNVISITED =>
      let marks := set_mark marks n .VISITING
      let task := task.push_back (Task.single n)
      if (g.dependants n).length < 2 then
        (forEach (compile_dependant g (compile_block g fuel) fuel n)
            (g.dependants n) (task, k, marks)).bind fun
          | (task, k, marks) => .ok (task, k, set_mark marks n .VISITED)
      else
        (forEach (compile_dependant g (compile_block g fuel) fuel n)
            (g.dependants n) (Task.empty .PARALLEL, k, marks)).bind fun
          | (par, k, marks) => .ok (task.push_back par, k, set_mark marks n .VISITED)
    | .VISITING => .feedback n none
    | .VISITED => .ok (task, k, marks)

/-- The loop body shared by `compile_set` and the `while` loop of
`compile_graph`: each block starts a new sequential task that is appended to
`task`. -/
def compile_seq (g : GraphImpl) (fuel : Nat) (block : Nat) : CState → Res CState
  | (task, k, marks) =>
    (compile_block g fuel block (Task.empty .SEQUENTIAL, k, marks)).bind fun
      | (seq, k, marks) => .ok (task.push_back seq, k, marks)

/-- The method `CompiledGraph::compile_set`. -/
def compile_set (g : GraphImpl) (fuel : Nat) (blocks : List Nat) : CState → Res CState :=
  forEach (compile_seq g fuel) blocks

/-- The `while (!next.empty())` loop of `compile_graph`; the state is the
master task, the set `next` and the marks. -/
def compile_waves (g : GraphImpl) (fuel : Nat) : Nat → CState → Res CState
  | _, (master, [], marks) => .ok (master, [], marks)
  | 0, (_, _ :: _, _) => .timeout
  | w + 1, (master, next, marks) =>
    (forEach (compile_seq g fuel) next (Task.empty .PARALLEL, [], marks)).bind fun
      | (par, blocks, marks) => compile_waves g fuel w (master.push_back par, blocks, marks)

/-- The last loop of `compile_graph`: blocks that were not reached are
compiled into the master task. -/
def compile_unreached (g : GraphImpl) (fuel : Nat) : CState → Res CState :=
  forEach (fun b s => if s.2.2 b = .UNVISITED then compile_block g fuel b s else .ok s) g.blocks

/-- The marks after the first loop of `compile_graph`: every block of the
graph is unvisited, other marks are as they were. -/
def initial_marks (g : GraphImpl) (marks : Marks) : Marks :=
  fun n => if n ∈ g.blocks then .UNVISITED else marks n

/-- The initial working set of `compile_graph`: the blocks without providers. -/
def initial_set (g : GraphImpl) : List Nat :=
  (g.blocks.filter fun b => (g.providers b).isEmpty).foldl (fun s b => set_insert b s) []

/-- Fuel that is enough for every recursion of a compilation (see
`compile_graph_raw_no_timeout`). -/
def compile_fuel (g : GraphImpl) : Nat := g.blocks.length + 1

/-- The method `CompiledGraph::compile_graph` up to (not including) the call
of `_master.simplify()`: the master task and the marks left in the blocks.
`marks` are the marks found in the blocks on entry. -/
def compile_graph_raw (g : GraphImpl) (marks : Marks) : Res (Task × Marks) :=
  (compile_set g (compile_fuel g) (initial_set g)
      (Task.empty .PARALLEL, [], initial_marks g marks)).bind fun
    | (start, next, marks) =>
      (compile_waves g (compile_fuel g) (compile_fuel g)
          ((Task.empty .SEQUENTIAL).push_back start, next, marks)).bind fun
        | (master, next, marks) =>
          (compile_unreached g (compile_fuel g) (master, next, marks)).bind fun
            | (master, _, marks) => .ok (master, marks)

mutual
/-- Modelled from the spec: `Task::simplify` (Task.cpp is not part of the
sources at hand). "Collapse any SEQUENTIAL/PARALLEL node with a single child
to that child; flatten nested tasks of the same mode." -/
def Task.simplify : Task → Task
  | .mk .SINGLE b cs => .mk .SINGLE b cs
  | .mk .SEQUENTIAL b cs =>
    match Task.simplifyList .SEQUENTIAL cs with
    | [t] => t
    | cs' => .mk .SEQUENTIAL b cs'
  | .mk .PARALLEL b cs =>
    match Task.simplifyList .PARALLEL cs with
    | [t] => t
    | cs' => .mk .PARALLEL b cs'
/-- The children of a simplified task of mode `m`: each child is simplified
and a child of the same mode is replaced by its own children. -/
def Task.simplifyList (m : Mode) : List Task → List Task
  | [] => []
  | t :: ts =>
    (if t.simplify.mode = m then t.simplify.children else [t.simplify])
      ++ Task.simplifyList m ts
end

/-- The method `CompiledGraph::compile_graph`: the simplified master task and
the marks left in the blocks. -/
def compile_graph (g : GraphImpl) (marks : Marks) : Res (Task × Marks) :=
  (compile_graph_raw g marks).bind fun
    | (master, marks) => .ok (master.simplify, marks)

/-- The static method `CompiledGraph::compile`: the exception is caught and
an empty pointer (`none`) returned; otherwise the pointer holds the compiled
graph, here its master task. -/
def compile (g : GraphImpl) (marks : Marks) : Res (Option Task) :=
  match compile_graph g marks with
  | .ok (master, _) => .ok (some master)
  | .feedback _ _ => .ok none
  | .timeout => .timeout

/-- Position of the first occurrence of `b` in a traversal. -/
def order_index (order : List Nat) (b : Nat) : Nat := order.indexOf b

/-- A traversal is a topological order of the provider→dependant relation:
it lists every block of the graph, and every provider of a listed block
occurs strictly before each occurrence of the block. -/
def is_topological (g : GraphImpl) (order : List Nat) : Bool :=
  g.blocks.all (fun b => order.contains b) &&
  (List.range order.length).all fun i =>
    (g.providers (order.getD i 0)).all fun p => (order.take i).contains p

/-- Providers and dependants are mutually inverse on the blocks of the graph
and stay inside the graph. -/
def is_consistent (g : GraphImpl) : Bool :=
  g.blocks.all fun b =>
    (g.dependants b).all (fun d => g.blocks.contains d && (g.providers d).contains b) &&
    (g.providers b).all (fun p => g.blocks.contains p && (g.dependants p).contains b)

/-- Every dependant of a block of the graph is a block of the graph. -/
def Closed (g : GraphImpl) : Prop :=
  ∀ b ∈ g.blocks, ∀ d ∈ g.dependants b, d ∈ g.blocks

/-- The list `c` is a directed cycle of the dependency relation of `g`: it is
not empty, its blocks belong to the graph, and each block has the next one
(the first one, after the last) among its dependants. -/
def IsCycle (g : GraphImpl) (c : List Nat) : Prop :=
  c ≠ [] ∧ (∀ b ∈ c, b ∈ g.blocks) ∧
  ∀ i, i < c.length → c.getD ((i + 1) % c.length) 0 ∈ g.dependants (c.getD i 0)

/-- Blocks a, b with arcs a→b and b→a (addresses 0 and 1). -/
def graph_two_cycle : GraphImpl where
  blocks := [0, 1]
  providers := fun n => match n with | 0 => [1] | 1 => [0] | _ => []
  dependants := fun n => match n with | 0 => [1] | 1 => [0] | _ => []

/-- One block that feeds itself. -/
def graph_self_loop : GraphImpl where
  blocks := [0]
  providers := fun n => match n with | 0 => [0] | _ => []
  dependants := fun n => match n with | 0 => [0] | _ => []

/-- An acyclic graph of six blocks, sources 0 and 1, with the arcs 0→2, 1→2,
2→3, 2→4, 3→4, 4→5 and 0→5: block 5 has the providers 0 and 4. The address
of a block is its number. -/
def graph_late_provider : GraphImpl where
  blocks := [0, 1, 2, 3, 4, 5]
  providers := fun n =>
    match n with
    | 2 => [0, 1] | 3 => [2] | 4 => [2, 3] | 5 => [0, 4] | _ => []
  dependants := fun n =>
    match n with
    | 0 => [2, 5] | 1 => [2] | 2 => [3, 4] | 3 => [4] | 4 => [5] | _ => []

/-- The same graph with the addresses in the opposite order: block `i` of
`graph_late_provider` is at address `5 - i`, so every set iterates the other
way round. Block 0 (formerly 5) has the providers 5 and 1 (formerly 0 and 4). -/
def graph_late_provider_rev : GraphImpl where
  blocks := [5, 4, 3, 2, 1, 0]
  providers := fun n =>
    match n with
    | 3 => [4, 5] | 2 => [3] | 1 => [2, 3] | 0 => [1, 5] | _ => []
  dependants := fun n =>
    match n with
    | 5 => [0, 3] | 4 => [3] | 3 => [1, 2] | 2 => [1] | 1 => [0] | _ => []

/-! ### Predicates used to reason about the compiler -/

/-- Marks only move from unvisited to visited. -/
def MarksLe (m m' : Marks) : Prop :=
  ∀ x, m' x = m x ∨ (m x = .UNVISITED ∧ m' x = .VISITED)

/-- Every block of `c` has a dependant in `c`. -/
def HasSuccessors (g : GraphImpl) (c : List Nat) : Prop := ∀ b ∈ c, ∃ s ∈ c, s ∈ g.dependants b

/-- No block of `c` is marked visited. -/
def NoneVisited (c : List Nat) (m : Marks) : Prop := ∀ b ∈ c, m b ≠ .VISITED

/-- The invariant of the top level of `compile_graph` on a graph with a
cycle: no block of the cycle is visited and no block of the graph is being
visited. -/
def CycleInv (g : GraphImpl) (c : List Nat) (m : Marks) : Prop :=
  NoneVisited c m ∧ ∀ b ∈ g.blocks, m b ≠ .VISITING

/-- The number of blocks of the graph (with repetitions) that are unvisited:
the measure that bounds every recursion of the compiler. -/
def unvisited_count (g : GraphImpl) (m : Marks) : Nat :=
  g.blocks.countP fun b => decide (m b = .UNVISITED)

/-- The invariant of a wave: the new working set holds blocks of the graph,
the unvisited blocks did not become more, and became fewer unless the new
working set is still empty. -/
def WaveInv (g : GraphImpl) (m : Marks) (s : CState) : Prop :=
  (∀ x ∈ s.2.1, x ∈ g.blocks) ∧ unvisited_count g s.2.2 ≤ unvisited_count g m ∧
  (s.2.1 = [] ∨ unvisited_count g s.2.2 < unvisited_count g m)


/-! ### Graphs made of linear chains -/

/-- From block `a` on the graph is the linear chain `a, rest`: each block has
the next one as its only dependant and is its only provider, and the last
block has no dependant. -/
def ChainFrom (g : GraphImpl) : Nat → List Nat → Prop
  | a, [] => g.dependants a = []
  | a, b :: rest => g.dependants a = [b] ∧ g.providers b = [a] ∧ ChainFrom g b rest

/-- The blocks `c`, in provider-to-dependant order, are a linear chain of the
graph that starts at a block without provider. -/
def IsChain (g : GraphImpl) : List Nat → Prop
  | [] => False
  | a :: rest => g.providers a = [] ∧ ChainFrom g a rest

/-- The graph is made of the disjoint linear chains `chains` and has no other
blocks and no other arcs. -/
def IsChains (g : GraphImpl) (chains : List (List Nat)) : Prop :=
  chains.flatten.Nodup ∧ (∀ b, b ∈ g.blocks ↔ b ∈ chains.flatten) ∧ ∀ c ∈ chains, IsChain g c

/-- The task of a chain: a `SEQUENTIAL` task that lists the `SINGLE` tasks of
the blocks of the chain in their order. -/
def chain_task (c : List Nat) : Task := .mk .SEQUENTIAL none (c.map Task.single)

/-- The chains in the order of the addresses of their first blocks, the
order in which a `std::set<BlockImpl*>` of the first blocks iterates. -/
def sort_chains (chains : List (List Nat)) : List (List Nat) :=
  chains.insertionSort fun c1 c2 => c1.headD 0 ≤ c2.headD 0

/-- Blocks a, b, c, d at the addresses 0, 1, 2, 3 with the arcs a→b and c→d. -/
def graph_two_chains : GraphImpl where
  blocks := [0, 1, 2, 3]
  providers := fun n => match n with | 1 => [0] | 3 => [2] | _ => []
  dependants := fun n => match n with | 0 => [1] | 2 => [3] | _ => []

/-- Three chains 5→0, 1→4→2 and 3→6, the blocks listed in another order than
their addresses. -/
def graph_three_chains : GraphImpl where
  blocks := [5, 0, 6, 1, 4, 2, 3]
  providers := fun n => match n with | 0 => [5] | 4 => [1] | 2 => [4] | 6 => [3] | _ => []
  dependants := fun n => match n with | 5 => [0] | 1 => [4] | 4 => [2] | 3 => [6] | _ => []

/-- The marks after the blocks `c` were compiled: they are visited, the
other marks are as they were. -/
def visit (marks : Marks) (c : List Nat) : Marks :=
  fun x => if x ∈ c then .VISITED else marks x

/-! ### Reachability in the graph -/

/-- There is an arc from `x` to `y`: `y` is a dependant of `x`. -/
def GraphImpl.arc (g : GraphImpl) (x y : Nat) : Prop := y ∈ g.dependants x

/-- The block `b` is reachable from `a` by following dependants edges (in no
or more steps). -/
def Reachable (g : GraphImpl) (a b : Nat) : Prop := Relation.ReflTransGen g.arc a b

/-- The dependency relation of the graph is acyclic: no block reaches itself
in one or more steps. -/
def Acyclic (g : GraphImpl) : Prop := ∀ a ∈ g.blocks, ¬ Relation.TransGen g.arc a a

/-- Blocks 0 to 4 with the arcs 0→2, 1→2, 2→3, 3→4 and 4→3: the blocks 3 and
4 form a cycle that does not lead back to the blocks 0, 1, 2. -/
def graph_inner_cycle : GraphImpl where
  blocks := [0, 1, 2, 3, 4]
  providers := fun n => match n with | 2 => [0, 1] | 3 => [2, 4] | 4 => [3] | _ => []
  dependants := fun n => match n with | 0 => [2] | 1 => [2] | 2 => [3] | 3 => [4] | 4 => [3] | _ => []

/-- A graph of one block, at address 7, without arcs. -/
def graph_one_block : GraphImpl where
  blocks := [7]
  providers := fun _ => []
  dependants := fun _ => []

/-- The state between the calls of `compile_block` at the top level of
`compile_graph`: the working set holds blocks of the graph and no block of
the graph is being visited. -/
def TopInv (g : GraphImpl) (s : CState) : Prop :=
  (∀ x ∈ s.2.1, x ∈ g.blocks) ∧ ∀ y ∈ g.blocks, s.2.2 y ≠ .VISITING

/-- The blocks `l` were compiled between the marks `m` and `m'`: they are
distinct, were unvisited and are visited, and the marks of all other blocks
are as they were. -/
def Compiled (m m' : Marks) (l : List Nat) : Prop :=
  l.Nodup ∧ (∀ x ∈ l, m x = .UNVISITED ∧ m' x = .VISITED) ∧ ∀ x, x ∉ l → m' x = m x

/-- The state `s'` continues the state `s`: the task has the same mode and
its traversal is the one of `s` followed by blocks that were compiled
between the marks of `s` and the marks of `s'`. -/
def Extends (s s' : CState) : Prop :=
  s'.1.mode = s.1.mode ∧ ∃ l, s'.1.blocks = s.1.blocks ++ l ∧ Compiled s.2.2 s'.2.2 l
/-! ## The Move event (src/server/events/Move.cpp)

`Raul::Path` and the engine store are declared outside the sources at hand.
A path is modelled as its string; the operations used by `Move` follow the
Raul library: `base()` is the string with a trailing slash (the root stays
`/`), `parent()` cuts the string at its last slash, and
`parent.is_parent_of(child)` is `child.is_child_of(parent)`, which compares
the first `parent.base().length()` characters of the child with
`parent.base()`. -/

/-- A `Raul::Path`, as the characters of its string. -/
abbrev Path := List Char

/-- The path written `s`. -/
def Path.of (s : String) : Path := s.toList

/-- The library function `Raul::Path::base()` (Raul is not part of the
repository): the path with a trailing slash; the root is its own base. -/
def Path.base (p : Path) : List Char :=
  if p = ['/'] then p else p ++ ['/']

/-- `std::string::find_last_of(c)`: the index of the last `c`, if any. -/
def find_last_of (c : Char) : List Char → Option Nat
  | [] => none
  | x :: xs =>
    match find_last_of c xs with
    | some i => some (i + 1)
    | none => if x = c then some 0 else none

/-- The library function `Raul::Path::parent()`: the path up to its last
slash, the root for a child of the root and for the root itself. -/
def Path.parent (p : Path) : Path :=
  if p = ['/'] then p
  else
    match find_last_of '/' p with
    | some 0 => ['/']
    | some i => p.take i
    | none => p

/-- The library function `Raul::Path::is_child_of(parent)`:
`substr(0, parent.base().length()) == parent.base()`, a test on the leading
characters, true for every path below `parent`. -/
def Path.is_child_of (p parent : Path) : Bool :=
  p.take parent.base.length == parent.base

/-- The library function `Raul::Path::is_parent_of(child)`:
`child.is_child_of(*this)`. -/
def Path.is_parent_of (p child : Path) : Bool :=
  child.is_child_of p

/-- The library function `Raul::Path::descendant_comparator(parent, child)`:
`child` is `parent` or lies below it. -/
def Path.descendant_comparator (parent child : Path) : Bool :=
  child == parent ||
    (decide (child.length > parent.length) && child.take parent.length == parent &&
      (parent == ['/'] || child.getD parent.length 'x' == '/'))

/-- Order of the keys of the store: the order of the strings. -/
def Path.lt : Path → Path → Bool
  | [], [] => false
  | [], _ :: _ => true
  | _ :: _, [] => false
  | a :: as, b :: bs => decide (a.toNat < b.toNat) || (a == b && Path.lt as bs)

/-- A graph object as far as `Move` is concerned: an identity and the path
it carries (`GraphObject::path()`). -/
structure GraphObject where
  uid : Nat
  path : Path
  deriving DecidableEq, Repr

/-- `GraphObjectImpl::set_path`. For a node, `NodeBase::set_path` also gives
each of its ports the path `new_path.base() + name`; the ports are store
entries below the node and receive exactly that path from the loop of
`Move::pre_process`. -/
def GraphObject.set_path (o : GraphObject) (new_path : Path) : GraphObject :=
  { o with path := new_path }

/-- The table of the engine store: entries `(path, object)` sorted by path. -/
abbrev Store := List (Path × GraphObject)

/-- Modelled from the spec: `EngineStore::find` (EngineStore is not part of
the sources at hand). "Paths are unique in a Store": the position of the
entry with the given path, if there is one. -/
def Store.find (s : Store) (p : Path) : Option Nat :=
  let i := s.findIdx fun e => e.1 == p
  if i < s.length then some i else none

/-- Modelled from the spec: `EngineStore::find_object`, the object stored at
a path, if any. -/
def Store.find_object (s : Store) (p : Path) : Option GraphObject :=
  (s.find? fun e => e.1 == p).map Prod.snd

/-- Modelled from the spec: `EngineStore::remove(iterator)`, which takes the
entry at the iterator out of the store together with the entries that
follow it and are its descendants. The result is the removed table and the
remaining store. -/
def Store.remove (s : Store) (i : Nat) : Store × Store :=
  match s.drop i with
  | [] => ([], s)
  | e :: rest =>
    let below := rest.takeWhile fun d => Path.descendant_comparator e.1 d.1
    (e :: below, s.take i ++ rest.drop below.length)

/-- Insertion of one entry into a sorted table. -/
def Store.insert (e : Path × GraphObject) : Store → Store
  | [] => [e]
  | x :: xs => if Path.lt e.1 x.1 then e :: x :: xs else x :: Store.insert e xs

/-- Modelled from the spec: `EngineStore::add(table)`, which merges a table
into the store. -/
def Store.add (s : Store) (table : Store) : Store :=
  table.foldl (fun acc e => Store.insert e acc) s

/-- The error codes of `Move`. -/
inductive MoveError where
  | NO_ERROR
  | OBJECT_NOT_FOUND
  | OBJECT_EXISTS
  | OBJECT_NOT_RENAMABLE
  | PARENT_DIFFERS
  deriving DecidableEq, Repr

/-- The loop of `Move::pre_process` over the removed table: each entry gets
its new path, as key and in its object. -/
def Move.rename (old_path new_path : Path) (removed : Store) : Store :=
  removed.map fun e =>
    let child_old_path := e.1
    let child_new_path :=
      if child_old_path = old_path then new_path
      else new_path.base ++ child_old_path.drop (old_path.length + 1)
    (child_new_path, e.2.set_path child_new_path)

/-- The method `Move::pre_process`: the store afterwards and the error. -/
def Move.pre_process (store : Store) (old_path new_path : Path) : Store × MoveError :=
  if !(old_path.parent.is_parent_of new_path) then
    (store, .PARENT_DIFFERS)
  else
    match store.find old_path with
    | none => (store, .OBJECT_NOT_FOUND)
    | some it =>
      if (store.find_object new_path).isSome then
        (store, .OBJECT_EXISTS)
      else
        let (removed, rest) := store.remove it
        (Store.add rest (Move.rename old_path new_path removed), .NO_ERROR)

/-- A store with the entities `/`, `/a`, `/a/b`, `/a/x`, `/a/x/in`, `/b`. -/
def store_example : Store :=
  [ (Path.of "/", ⟨0, Path.of "/"⟩), (Path.of "/a", ⟨1, Path.of "/a"⟩),
    (Path.of "/a/b", ⟨2, Path.of "/a/b"⟩), (Path.of "/a/x", ⟨3, Path.of "/a/x"⟩),
    (Path.of "/a/x/in", ⟨4, Path.of "/a/x/in"⟩), (Path.of "/b", ⟨5, Path.of "/b"⟩) ]


/-- A store with the root and two children of the root, `/ab` and `/cb`. -/
def store_root_children : Store :=
  [ (Path.of "/", ⟨0, Path.of "/"⟩), (Path.of "/ab", ⟨1, Path.of "/ab"⟩),
    (Path.of "/cb", ⟨2, Path.of "/cb"⟩) ]

/-- A store with the root and one child of the root, `/foo`. -/
def store_root_child : Store :=
  [ (Path.of "/", ⟨0, Path.of "/"⟩), (Path.of "/foo", ⟨1, Path.of "/foo"⟩) ]

/-- The characters of a path as the spec writes paths: slashes and the
characters of symbols, all of which come after the slash in the order of
the characters. -/
def Path.chars_ok (p : Path) : Prop := ∀ c ∈ p, c = '/' ∨ '/'.toNat < c.toNat

instance (p : Path) : Decidable p.chars_ok := by
  unfold Path.chars_ok
  infer_instance

/-- A path starts with a slash and consists of slashes and characters of
symbols. -/
def Path.Valid (p : Path) : Prop := p.head? = some '/' ∧ p.chars_ok

instance (p : Path) : Decidable p.Valid := by
  unfold Path.Valid
  infer_instance

/-- Every ancestor of an entry of the store is in the store. -/
def Store.ancestors_closed (s : Store) : Bool :=
  s.all fun e => (List.range e.1.length).all fun i =>
    i == 0 || e.1.getD i 'x' != '/' || (s.find_object (e.1.take i)).isSome

/-- A well-formed store: the entries are sorted by path without repetition,
the keys are paths, the root is in the store, and so is every ancestor of an
entry. -/
def Store.WF (s : Store) : Prop :=
  s.Pairwise (fun a b => Path.lt a.1 b.1 = true) ∧ (∀ e ∈ s, e.1.Valid) ∧
  (∃ e ∈ s, e.1 = ['/']) ∧ s.ancestors_closed = true

instance (s : Store) : Decidable s.WF := by
  unfold Store.WF
  infer_instance

/-- The entry `e` of the moved subtree as `Move(old_path, new_path)` leaves
it: the path below `old_path` is put below `new_path`, as key and in the
object. -/
def Move.moved (old_path new_path : Path) (e : Path × GraphObject) : Path × GraphObject :=
  (new_path ++ e.1.drop old_path.length, e.2.set_path (new_path ++ e.1.drop old_path.length))
/-! ## The MidiNote voice allocator (src/libs/engine/MidiNoteNode.cpp)

The arrays `_keys` and `_voices` and the per-voice port buffers are functions
of the index. Times are frame counts. A sample is kept as the expression the
code writes into the buffer (`0.0f`, `1.0f`, `note_to_freq(n)` or
`velocity/127.0`), not as a floating-point number. -/

/-- `MidiNoteNode::Key::State`. -/
inductive KeyState where
  | OFF
  | ON_ASSIGNED
  | ON_UNASSIGNED
  deriving DecidableEq, Repr

/-- `MidiNoteNode::Key`: one for each key of the keyboard. -/
structure Key where
  state : KeyState
  voice : Nat
  time : Nat
  deriving DecidableEq, Repr

/-- `MidiNoteNode::Voice::State`. -/
inductive VoiceState where
  | FREE
  | ACTIVE
  | HOLDING
  deriving DecidableEq, Repr

/-- `MidiNoteNode::Voice`: one for each voice. -/
structure Voice where
  state : VoiceState
  note : Nat
  time : Nat
  deriving DecidableEq, Repr

/-- A value written into an audio buffer. -/
inductive Sample where
  | zero
  | one
  | freq (note : Nat)
  | vel (velocity : Nat)
  deriving DecidableEq, Repr

/-- The samples of an `AudioBuffer`, by frame. -/
abbrev AudioBuffer := Nat → Sample

/-- Modelled from the spec: `AudioBuffer::set(val, start_sample)`
(AudioBuffer is not part of the sources at hand), which sets the buffer to
`val` from `start_sample` to its end ("drop gate low", "leave the gate
high"). -/
def AudioBuffer.set (size : Nat) (buf : AudioBuffer) (val : Sample) (start : Nat) : AudioBuffer :=
  fun i => if start ≤ i ∧ i < size then val else buf i

/-- Modelled from the spec: `AudioBuffer::set(val, start_sample, end_sample)`,
which sets the inclusive range of samples to `val` ("a single-sample
pulse"). -/
def AudioBuffer.set_range (buf : AudioBuffer) (val : Sample) (start stop : Nat) : AudioBuffer :=
  fun i => if start ≤ i ∧ i ≤ stop then val else buf i

/-- The part of a `ProcessContext` the allocator reads. -/
structure ProcessContext where
  start : Nat
  stop : Nat
  deriving DecidableEq, Repr

/-- The state of a `MidiNoteNode`. -/
structure MidiNoteNode where
  _keys : Nat → Key
  _voices : Nat → Voice
  _polyphony : Nat
  _sustain : Bool
  _buffer_size : Nat
  _freq_port : Nat → AudioBuffer
  _vel_port : Nat → AudioBuffer
  _gate_port : Nat → AudioBuffer
  _trig_port : Nat → AudioBuffer

/-- Replace entry `i` of an array. -/
def upd {α : Type} (f : Nat → α) (i : Nat) (v : α) : Nat → α :=
  fun j => if j = i then v else f j

/-- Unsigned 32-bit subtraction (`time - context.start()`). -/
def sub32 (a b : Nat) : Nat := (a + 2 ^ 32 - b % 2 ^ 32) % 2 ^ 32

/-- A loop `for (i = start; i < start + count; ++i) body`. -/
def loop_range {σ : Type} (body : Nat → σ → σ) : Nat → Nat → σ → σ
  | 0, _, s => s
  | count + 1, i, s => loop_range body count (i + 1) (body i s)

/-- The first loop of `note_on` from index `i` on, `count` voices to go: the
lowest free voice, if any. -/
def find_free_from (voices : Nat → Voice) : Nat → Nat → Option Nat
  | 0, _ => none
  | count + 1, i =>
    if (voices i).state = .FREE then some i else find_free_from voices count (i + 1)

/-- The first loop of `note_on`. -/
def find_free_voice (voices : Nat → Voice) (polyphony : Nat) : Option Nat :=
  find_free_from voices polyphony 0

/-- The second loop of `note_on`: starting from voice 0, a later voice
replaces the choice when its time is strictly smaller. The result is the
chosen voice and its time. -/
def find_oldest_voice (voices : Nat → Voice) (polyphony : Nat) : Nat × Nat :=
  loop_range
    (fun i (acc : Nat × Nat) => if (voices i).time < acc.2 then (i, (voices i).time) else acc)
    (polyphony - 1) 1 (0, (voices 0).time)

/-- The voice chosen by `note_on`. -/
def choose_voice (voices : Nat → Voice) (polyphony : Nat) : Nat :=
  match find_free_voice voices polyphony with
  | some i => i
  | none => (find_oldest_voice voices polyphony).1

/-- The method `MidiNoteNode::note_on`. -/
def note_on (n : MidiNoteNode) (note_num velocity time : Nat) (context : ProcessContext) :
    MidiNoteNode :=
  if (n._keys note_num).state ≠ .OFF then n
  else
    let voice_num := choose_voice n._voices n._polyphony
    let voice := n._voices voice_num
    -- Update stolen key, if applicable
    let keys :=
      if voice.state = .ACTIVE then
        upd n._keys voice.note { n._keys voice.note with state := .ON_UNASSIGNED }
      else n._keys
    -- Store key information for later reallocation on note off
    let keys := upd keys note_num { state := .ON_ASSIGNED, voice := voice_num, time := time }
    -- Trigger voice
    let voices := upd n._voices voice_num { state := .ACTIVE, note := note_num, time := time }
    let offset := sub32 time context.start
    -- one-sample jitter hack
    let offset := if offset = (n._buffer_size + 2 ^ 32 - 1) % 2 ^ 32 then sub32 offset 1 else offset
    { n with
      _keys := keys
      _voices := voices
      _freq_port := upd n._freq_port voice_num
        (AudioBuffer.set n._buffer_size (n._freq_port voice_num) (.freq note_num) offset)
      _vel_port := upd n._vel_port voice_num
        (AudioBuffer.set n._buffer_size (n._vel_port voice_num) (.vel velocity) offset)
      _gate_port := upd n._gate_port voice_num
        (AudioBuffer.set n._buffer_size (n._gate_port voice_num) .one offset)
      _trig_port := upd n._trig_port voice_num
        (AudioBuffer.set n._buffer_size
          (AudioBuffer.set_range (n._trig_port voice_num) .one offset offset) .zero
          ((offset + 1) % 2 ^ 32)) }

/-- The loop of `free_voice`: the unassigned key that replaces the freed one,
a later key replacing the choice when its time is strictly greater. -/
def find_replace_key (keys : Nat → Key) : Option Nat :=
  loop_range
    (fun i (acc : Option Nat) =>
      if (keys i).state = .ON_UNASSIGNED then
        match acc with
        | none => some i
        | some r => if (keys i).time > (keys r).time then some i else some r
      else acc)
    128 0 none

/-- The method `MidiNoteNode::free_voice`. -/
def free_voice (n : MidiNoteNode) (voice time : Nat) (context : ProcessContext) : MidiNoteNode :=
  match find_replace_key n._keys with
  | some replace_key_num =>
    -- Change the freq but leave the gate high and don't retrigger
    let freq := upd n._freq_port voice
      (AudioBuffer.set n._buffer_size (n._freq_port voice) (.freq replace_key_num)
        (sub32 time context.start))
    let keys := upd n._keys replace_key_num
      { n._keys replace_key_num with state := .ON_ASSIGNED, voice := voice }
    let keys := upd keys (n._voices voice).note
      { keys (n._voices voice).note with state := .ON_UNASSIGNED }
    let voices := upd n._voices voice
      { n._voices voice with note := replace_key_num, state := .ACTIVE }
    { n with _freq_port := freq, _keys := keys, _voices := voices }
  | none =>
    -- No new note for voice, deactivate (set gate low)
    { n with
      _gate_port := upd n._gate_port voice
        (AudioBuffer.set n._buffer_size (n._gate_port voice) .zero (sub32 time context.start))
      _voices := upd n._voices voice { n._voices voice with state := .FREE } }

/-- The method `MidiNoteNode::note_off`. -/
def note_off (n : MidiNoteNode) (note_num time : Nat) (context : ProcessContext) : MidiNoteNode :=
  let key := n._keys note_num
  let n :=
    if key.state = .ON_ASSIGNED then
      if (n._voices key.voice).state = .ACTIVE then
        if !n._sustain then free_voice n key.voice time context
        else
          { n with
            _voices := upd n._voices key.voice ({ n._voices key.voice with state := .HOLDING }) }
      else n
    else n
  { n with _keys := upd n._keys note_num { n._keys note_num with state := .OFF } }

/-- The method `MidiNoteNode::all_notes_off`. -/
def all_notes_off (n : MidiNoteNode) (time : Nat) (context : ProcessContext) : MidiNoteNode :=
  loop_range
    (fun i (n : MidiNoteNode) =>
      { n with
        _gate_port := upd n._gate_port i
          (AudioBuffer.set n._buffer_size (n._gate_port i) .zero (sub32 time context.start))
        _voices := upd n._voices i { n._voices i with state := .FREE } })
    n._polyphony 0 n

/-- The method `MidiNoteNode::sustain_on`. -/
def sustain_on (n : MidiNoteNode) : MidiNoteNode :=
  { n with _sustain := true }

/-- The method `MidiNoteNode::sustain_off`. -/
def sustain_off (n : MidiNoteNode) (time : Nat) (context : ProcessContext) : MidiNoteNode :=
  loop_range
    (fun i (n : MidiNoteNode) =>
      if (n._voices i).state = .HOLDING then free_voice n i time context else n)
    n._polyphony 0 { n with _sustain := false }

/-- The events `MidiNoteNode::process` dispatches on. -/
inductive MidiEvent where
  | note_on (note_num velocity time : Nat)
  | note_off (note_num time : Nat)
  | sustain_on (time : Nat)
  | sustain_off (time : Nat)
  | all_notes_off (time : Nat)
  deriving DecidableEq, Repr

/-- The effect of one event. -/
def MidiNoteNode.step (context : ProcessContext) (n : MidiNoteNode) : MidiEvent → MidiNoteNode
  | .note_on k v t => note_on n k v t context
  | .note_off k t => note_off n k t context
  | .sustain_on _ => sustain_on n
  | .sustain_off t => sustain_off n t context
  | .all_notes_off t => all_notes_off n t context

/-- The effect of a series of events. -/
def MidiNoteNode.run (context : ProcessContext) (n : MidiNoteNode) (evs : List MidiEvent) :
    MidiNoteNode :=
  evs.foldl (MidiNoteNode.step context) n

/-- A node as constructed: all keys off, all voices free, silent buffers. -/
def MidiNoteNode.init (polyphony buffer_size : Nat) : MidiNoteNode where
  _keys := fun _ => { state := .OFF, voice := 0, time := 0 }
  _voices := fun _ => { state := .FREE, note := 0, time := 0 }
  _polyphony := polyphony
  _sustain := false
  _buffer_size := buffer_size
  _freq_port := fun _ _ => .zero
  _vel_port := fun _ _ => .zero
  _gate_port := fun _ _ => .zero
  _trig_port := fun _ _ => .zero

/-- A cycle of 64 frames starting at frame 0. -/
def context_example : ProcessContext := { start := 0, stop := 64 }

/-! ### States of the allocator used as examples -/

/-- The state after two note-ons and a released key under the sustain
pedal: voice 0 holds key 60 (time 0), voice 1 plays key 62 (time 5). -/
def node_holding : MidiNoteNode :=
  MidiNoteNode.run context_example (MidiNoteNode.init 2 64)
    [.note_on 60 100 0, .note_on 62 100 5, .sustain_on 6, .note_off 60 7]

/-- The state after the note-ons 60@0, 62@10 with two voices. -/
def node_two_notes : MidiNoteNode :=
  MidiNoteNode.run context_example (MidiNoteNode.init 2 64)
    [.note_on 60 100 0, .note_on 62 100 10]

/-- The state after the note-on 60@0 with one voice. -/
def node_one_note : MidiNoteNode :=
  MidiNoteNode.run context_example (MidiNoteNode.init 1 64) [.note_on 60 100 0]

/-- A state reached with two voices in which key 60 is still assigned to
voice 0 (left so by `all_notes_off`), voice 0 is active and plays key 64,
and key 64 is the only unassigned key. -/
def node_stale_key : MidiNoteNode :=
  MidiNoteNode.run context_example (MidiNoteNode.init 2 64)
    [.note_on 60 100 0, .sustain_on 1, .all_notes_off 1, .note_on 62 100 2,
     .note_on 64 100 3, .note_off 64 4, .note_on 64 100 5, .sustain_off 6]

/-- The state after the note-ons 60@0, 62@10, 64@20 with two voices: key 60
is unassigned, voice 0 plays 64 and voice 1 plays 62. -/
def node_three_notes : MidiNoteNode :=
  MidiNoteNode.run context_example (MidiNoteNode.init 2 64)
    [.note_on 60 100 0, .note_on 62 100 10, .note_on 64 100 20]

/-- The state after the note-ons 60@0, 62@10 and the pedal with two voices. -/
def node_sustained : MidiNoteNode :=
  MidiNoteNode.run context_example (MidiNoteNode.init 2 64)
    [.note_on 60 100 0, .note_on 62 100 10, .sustain_on 11]

/-- The invariant of the loop of `sustain_off` before iteration `j`, `n`
being the node at the start of the loop. -/
def SustainOffInv (n : MidiNoteNode) (t : Nat) (ctx : ProcessContext) (j : Nat)
    (s : MidiNoteNode) : Prop :=
  s._polyphony = n._polyphony ∧ s._buffer_size = n._buffer_size ∧ s._sustain = false ∧
  (∀ i, j ≤ i → s._voices i = n._voices i) ∧
  (∀ i, (n._voices i).state ≠ .HOLDING → s._voices i = n._voices i) ∧
  (∀ i, i < j → (n._voices i).state = .HOLDING →
    (s._voices i).state = .ACTIVE ∨
    ((s._voices i).state = .FREE ∧
      ∀ f, sub32 t ctx.start ≤ f → f < n._buffer_size → s._gate_port i f = .zero))


/-- The state after a note-on, `all_notes_off` and another note-on with two
voices: key 60 was never released. -/
def node_after_all_notes_off : MidiNoteNode :=
  MidiNoteNode.run context_example (MidiNoteNode.init 2 64)
    [.note_on 60 100 0, .all_notes_off 1, .note_on 62 100 2]

/-- The state, with two voices, after note-on 62, note-on 64, pedal down,
note-off 64, a second note-on 64 (which steals voice 0 while voice 1 still
holds the first one), and pedal up. -/
def node_pedal_up : MidiNoteNode :=
  MidiNoteNode.run context_example (MidiNoteNode.init 2 64)
    [.note_on 62 100 0, .note_on 64 100 1, .sustain_on 2, .note_off 64 3, .note_on 64 100 4,
     .sustain_off 5]

/-- With one voice: note-on 60, note-on 62 (which steals the voice), pedal
down, note-off 62. -/
def events_pedal : List MidiEvent :=
  [.note_on 60 100 0, .note_on 62 100 1, .sustain_on 2, .note_off 62 3]

/-- The state after `events_pedal`: the voice holds key 62, which is off, and
key 60 is unassigned. -/
def node_pedal : MidiNoteNode :=
  MidiNoteNode.run context_example (MidiNoteNode.init 1 64) events_pedal
/-! ## Buffer (src/server/Buffer.cpp)

The storage of a buffer is a function from byte offsets to bytes; integers
are stored in little-endian order as on the machines Ingen runs on, a
`float` is kept as the 32 bits of its representation (`0.0f` is 0). The
layouts are those of the LV2 atom headers: `LV2_Atom` is `size, type` (two
`uint32_t`), `LV2_Atom_Float` an atom followed by the `float` body,
`LV2_Atom_Sequence` an atom followed by `unit, pad` (two `uint32_t`), and
`LV2_Atom_Event` an `int64_t` time in frames followed by the atom of the
body and the body itself, padded to a multiple of 8 bytes. -/

/-- The URIDs the buffer code reads from `_factory.uris()`. -/
structure URIs where
  atom_Sound : Nat
  atom_Float : Nat
  atom_Sequence : Nat
  atom_Chunk : Nat
  deriving DecidableEq, Repr

/-- The bytes of an allocation, by offset. -/
abbrev Mem := Nat → Nat

/-- The unsigned integer stored in `n` bytes from `off` on. -/
def read_le (m : Mem) : Nat → Nat → Nat
  | _, 0 => 0
  | off, n + 1 => m off % 256 + 256 * read_le m (off + 1) n

/-- Store the low `n` bytes of `v` from `off` on. -/
def write_le (m : Mem) (off n v : Nat) : Mem :=
  fun i => if off ≤ i ∧ i < off + n then v / 256 ^ (i - off) % 256 else m i

/-- Read a `uint32_t` (or the bits of a `float`). -/
def read_u32 (m : Mem) (off : Nat) : Nat := read_le m off 4

/-- Write a `uint32_t` (or the bits of a `float`). -/
def write_u32 (m : Mem) (off v : Nat) : Mem := write_le m off 4 v

/-- Read an `int64_t`. -/
def read_i64 (m : Mem) (off : Nat) : Int :=
  if read_le m off 8 < 2 ^ 63 then (read_le m off 8 : Int) else (read_le m off 8 : Int) - 2 ^ 64

/-- Write an `int64_t`. -/
def write_i64 (m : Mem) (off : Nat) (v : Int) : Mem := write_le m off 8 (v % 2 ^ 64).toNat

/-- `memcpy(dst + doff, src, n)` where `src` is a list of bytes. -/
def memcpy_list (dst : Mem) (doff : Nat) (src : List Nat) (n : Nat) : Mem :=
  fun i => if doff ≤ i ∧ i < doff + n then src.getD (i - doff) 0 % 256 else dst i

/-- `memcpy(dst + doff, src + soff, n)`. -/
def memcpy (dst : Mem) (doff : Nat) (src : Mem) (soff n : Nat) : Mem :=
  fun i => if doff ≤ i ∧ i < doff + n then src (soff + (i - doff)) else dst i

/-- `memset(dst, 0, n)`. -/
def memset_zero (dst : Mem) (n : Nat) : Mem :=
  fun i => if i < n then 0 else dst i

/-- `lv2_atom_pad_size`: `(size + 7U) & (~7U)` on `uint32_t`. -/
def lv2_atom_pad_size (size : Nat) : Nat := (size + 7) % 2 ^ 32 / 8 * 8

/-- The fields of a `Buffer`. `_buf` is `none` for a null pointer;
`_value_buffer` is the storage of the value buffer, if there is one. -/
structure Buffer where
  _buf : Option Mem
  _latest_event : Int
  _type : Nat
  _value_type : Nat
  _capacity : Nat
  _value_buffer : Option Mem

/-- The storage `_buf` points to. Apart from `copy` and `clear` the code
dereferences `_buf` unchecked; for a null `_buf` (undefined behaviour) the
model reads zeros and drops writes. -/
def Buffer.mem (b : Buffer) : Mem := b._buf.getD fun _ => 0

/-- Byte `i` of the storage of the buffer, if the buffer has storage. -/
def Buffer.byte (b : Buffer) (i : Nat) : Option Nat := b._buf.map fun m => m i

/-- The buffer with its storage replaced (nothing happens to a null `_buf`). -/
def Buffer.with_mem (b : Buffer) (m : Mem) : Buffer :=
  { b with _buf := b._buf.map fun _ => m }

/-- Modelled from the spec: `Buffer::is_audio` (Buffer.hpp is not part of the
sources at hand): the type is Audio, `atom_Sound`. -/
def Buffer.is_audio (u : URIs) (b : Buffer) : Bool := b._type == u.atom_Sound

/-- Modelled from the spec: `Buffer::is_control`: the type is Control,
`atom_Float`. -/
def Buffer.is_control (u : URIs) (b : Buffer) : Bool := b._type == u.atom_Float

/-- Modelled from the spec: `Buffer::is_sequence`: the type is AtomSequence. -/
def Buffer.is_sequence (u : URIs) (b : Buffer) : Bool := b._type == u.atom_Sequence

/-- The field `size` of the atom at the start of the storage. -/
def Buffer.atom_size (b : Buffer) : Nat := read_u32 b.mem 0

/-- The field `type` of the atom at the start of the storage. -/
def Buffer.atom_type (b : Buffer) : Nat := read_u32 b.mem 4

/-- Modelled from the spec: `Buffer::size`, the size of the contents in
bytes: "Audio: raw nframes floats, no header", an atom otherwise, that is
its header and its `size`. -/
def Buffer.size (u : URIs) (b : Buffer) : Nat :=
  if b.is_audio u then b._capacity else (8 + b.atom_size) % 2 ^ 32

/-- Modelled from the spec: the offset of `Buffer::samples()` in the storage:
the body of the float atom for a control buffer, the start for audio. -/
def Buffer.samples_offset (u : URIs) (b : Buffer) : Nat :=
  if b.is_control u then 8 else 0

/-- Sample `i` of the buffer, as its 32 bits. -/
def Buffer.sample (u : URIs) (b : Buffer) (i : Nat) : Nat :=
  read_u32 b.mem (b.samples_offset u + 4 * i)

/-- The method `Buffer::clear`. -/
def Buffer.clear (u : URIs) (b : Buffer) : Buffer :=
  if b.is_audio u && b._buf.isSome then
    b.with_mem (memset_zero b.mem b._capacity)
  else if b.is_control u then
    b.with_mem (write_u32 b.mem 8 0)
  else if b.is_sequence u then
    { b.with_mem
        (write_u32 (write_u32 (write_u32 (write_u32 b.mem 4 u.atom_Sequence) 0 8) 8 0) 12 0) with
      _latest_event := 0 }
  else b

/-- The part of a `RunContext` the buffer code reads. -/
structure RunContext where
  offset : Nat
  nframes : Nat
  deriving DecidableEq, Repr

/-- Modelled from the spec: `Buffer::set_block(val, start, end)` on an audio
buffer ("fill with constant"): the samples from `start` up to `end` become
`val`. -/
def set_block (m : Mem) (val start stop : Nat) : Mem :=
  fun i =>
    if 4 * start ≤ i ∧ i < 4 * stop then val / 256 ^ (i % 4) % 256 else m i

/-- An event of a sequence: the time in frames, the size and type of the
body, and the bytes of the body. -/
structure AtomEvent where
  frames : Int
  size : Nat
  type : Nat
  body : List Nat
  deriving DecidableEq, Repr

/-- The event whose header starts at offset `p`. -/
def event_at (m : Mem) (p : Nat) : AtomEvent where
  frames := read_i64 m p
  size := read_u32 m (p + 8)
  type := read_u32 m (p + 12)
  body := (List.range (read_u32 m (p + 8))).map fun i => m (p + 16 + i) % 256

/-- `LV2_ATOM_SEQUENCE_FOREACH` from offset `p` on, collecting the events:
the iteration ends when the offset reaches `stop`, the end of the body of
the sequence, and otherwise advances by the header and the padded size of
the event. -/
def events_from (m : Mem) (stop : Nat) : Nat → Nat → List AtomEvent
  | 0, _ => []
  | fuel + 1, p =>
    if p ≥ stop then []
    else event_at m p :: events_from m stop fuel (p + 16 + lv2_atom_pad_size (read_u32 m (p + 8)))

/-- The events of the sequence in the storage, in `LV2_ATOM_SEQUENCE_FOREACH`
order. Every step advances by at least 16 bytes, so the size of the body is
enough fuel. -/
def seq_events (m : Mem) : List AtomEvent :=
  events_from m (8 + read_u32 m 0) (read_u32 m 0) 16

/-- The events of a sequence buffer. -/
def Buffer.events (b : Buffer) : List AtomEvent := seq_events b.mem

/-- The 32 bits at the start of the body of the event whose header starts at
`p`: what `((const LV2_Atom_Float*)&ev->body)->body` reads. -/
def event_float (m : Mem) (p : Nat) : Nat := read_u32 m (p + 16)

/-- `LV2_ATOM_SEQUENCE_FOREACH` as in `events_from`, each event together with
the float at the start of its body. -/
def valued_events_from (m : Mem) (stop : Nat) : Nat → Nat → List (AtomEvent × Nat)
  | 0, _ => []
  | fuel + 1, p =>
    if p ≥ stop then []
    else (event_at m p, event_float m p) ::
      valued_events_from m stop fuel (p + 16 + lv2_atom_pad_size (read_u32 m (p + 8)))

/-- The events of the sequence in the storage, each with the float at the
start of its body. -/
def seq_valued_events (m : Mem) : List (AtomEvent × Nat) :=
  valued_events_from m (8 + read_u32 m 0) (read_u32 m 0) 16

/-- The events of a sequence buffer, each with the float at the start of its
body. -/
def Buffer.valued_events (b : Buffer) : List (AtomEvent × Nat) := seq_valued_events b.mem

/-- The loop of `Buffer::render_sequence` over the events: the state is the
storage written so far, the current value and the current offset. -/
def render_events (atom_Float : Nat) :
    List (AtomEvent × Nat) → Mem × Nat × Nat → Mem × Nat × Nat
  | [], s => s
  | ev :: evs, (m, value, offset) =>
    if ev.1.frames ≥ (offset : Int) ∧ ev.1.type = atom_Float then
      render_events atom_Float evs
        (set_block m value offset (ev.1.frames % 2 ^ 32).toNat, ev.2,
          (ev.1.frames % 2 ^ 32).toNat)
    else render_events atom_Float evs (m, value, offset)

/-- The value `Buffer::render_sequence` starts from: the body of the value
buffer of the source, `0.0f` when the source has none. -/
def Buffer.value_bits (src : Buffer) : Nat :=
  match src._value_buffer with
  | some v => read_u32 v 8
  | none => 0

/-- The method `Buffer::render_sequence` with `add == false`. -/
def Buffer.render_sequence (u : URIs) (b : Buffer) (context : RunContext) (src : Buffer) :
    Buffer :=
  let (m, value, offset) :=
    render_events u.atom_Float src.valued_events (b.mem, src.value_bits, context.offset)
  b.with_mem (set_block m value offset ((context.offset + context.nframes) % 2 ^ 32))

/-- The method `Buffer::copy`. -/
def Buffer.copy (u : URIs) (b : Buffer) (context : RunContext) (src : Buffer) : Buffer :=
  if b._buf.isNone then b
  else if b._type = src._type then
    if src.size u ≤ b._capacity then
      b.with_mem (memcpy b.mem 0 src.mem 0 (src.size u))
    else b.clear u
  else if src.is_audio u && b.is_control u then
    b.with_mem (memcpy b.mem (b.samples_offset u) src.mem (src.samples_offset u) 4)
  else if src.is_control u && b.is_audio u then
    b.with_mem (set_block b.mem (src.sample u 0) 0 context.nframes)
  else if src.is_sequence u && b.is_audio u && src._value_type == u.atom_Float then
    b.render_sequence u context src
  else b.clear u

/-- The method `Buffer::prepare_write`. -/
def Buffer.prepare_write (u : URIs) (b : Buffer) : Buffer :=
  if b._type = u.atom_Sequence then
    { b.with_mem (write_u32 (write_u32 b.mem 4 u.atom_Sequence) 0 8) with _latest_event := 0 }
  else b

/-- The method `Buffer::prepare_output_write`. -/
def Buffer.prepare_output_write (u : URIs) (b : Buffer) : Buffer :=
  if b._type = u.atom_Sequence then
    { b.with_mem (write_u32 (write_u32 b.mem 4 u.atom_Chunk) 0 ((b._capacity + 2 ^ 32 - 8) % 2 ^ 32))
      with _latest_event := 0 }
  else b

/-- The first step of `Buffer::append_event`: a Chunk, as left by
`prepare_output_write`, is cleared. -/
def Buffer.unchunk (u : URIs) (b : Buffer) : Buffer :=
  if b.atom_type = u.atom_Chunk then b.clear u else b

/-- The method `Buffer::append_event(frames, size, type, data)`: the value
returned and the buffer afterwards. -/
def Buffer.append_event (u : URIs) (b : Buffer) (frames : Int) (size type : Nat)
    (data : List Nat) : Bool × Buffer :=
  let b := b.unchunk u
  if 8 + b.atom_size + lv2_atom_pad_size size > b._capacity then (false, b)
  else
    let ev := (8 + b.atom_size) % 2 ^ 32
    let m := write_i64 b.mem ev frames
    let m := write_u32 m (ev + 8) size
    let m := write_u32 m (ev + 12) type
    let m := memcpy_list m (ev + 16) data size
    let m := write_u32 m 0 (b.atom_size + (16 + lv2_atom_pad_size size))
    (true, { b.with_mem m with _latest_event := frames })

/-- The loop of `Buffer::next_value_offset`: the frame of the first event
after `offset` and before `stop` whose type is the value type. -/
def next_value_event (value_type offset stop : Nat) : List AtomEvent → Option Int
  | [] => none
  | ev :: evs =>
    if ev.frames > (offset : Int) ∧ ev.frames < (stop : Int) ∧ ev.type = value_type then
      some ev.frames
    else next_value_event value_type offset stop evs

/-- The method `Buffer::next_value_offset`. -/
def Buffer.next_value_offset (u : URIs) (b : Buffer) (offset stop : Nat) : Nat :=
  if b._type = u.atom_Sequence ∧ b._value_type ≠ 0 then
    match next_value_event b._value_type offset stop b.events with
    | some frames => (frames % 2 ^ 32).toNat
    | none => stop
  else stop

/-- The offsets from `p` on are the headers of the events `evs`, each event
with its body inside its padded slot, and the last slot ends exactly at
`stop`: the sequence is well formed. -/
inductive Walk (m : Mem) (stop : Nat) : Nat → List AtomEvent → Prop where
  | done (p : Nat) (h : p = stop) : Walk m stop p []
  | step (p : Nat) (evs : List AtomEvent) (h : p < stop)
      (hsize : read_u32 m (p + 8) ≤ lv2_atom_pad_size (read_u32 m (p + 8)))
      (rest : Walk m stop (p + 16 + lv2_atom_pad_size (read_u32 m (p + 8))) evs) :
      Walk m stop p (event_at m p :: evs)

/-- A well-formed sequence in the storage: the events fill the body exactly. -/
def SeqWF (m : Mem) : Prop := ∃ evs, Walk m (8 + read_u32 m 0) 16 evs

/-- The storage after the writes of `append_event` at the end `ev` of a
sequence whose atom has size `a`. -/
def append_mem (m : Mem) (a ev : Nat) (frames : Int) (size type : Nat) (data : List Nat) : Mem :=
  write_u32
    (memcpy_list (write_u32 (write_u32 (write_i64 m ev frames) (ev + 8) size) (ev + 12) type)
      (ev + 16) data size)
    0 (a + (16 + lv2_atom_pad_size size))

/-- URIDs used in the examples. -/
def uris_example : URIs := { atom_Sound := 1, atom_Float := 2, atom_Sequence := 3, atom_Chunk := 4 }

/-- A sequence buffer of the given capacity, cleared. -/
def sequence_buffer (capacity : Nat) : Buffer :=
  Buffer.clear uris_example
    { _buf := some fun _ => 0, _latest_event := 0, _type := 3, _value_type := 0,
      _capacity := capacity, _value_buffer := none }

/-- An external buffer as constructed: no storage yet. -/
def external_buffer (type capacity : Nat) : Buffer :=
  { _buf := none, _latest_event := 0, _type := type, _value_type := 0,
    _capacity := capacity, _value_buffer := none }

/-- An audio buffer of 8 bytes holding the given two samples. -/
def audio_buffer (s0 s1 : Nat) : Buffer :=
  { _buf := some (write_u32 (write_u32 (fun _ => 0) 0 s0) 4 s1), _latest_event := 0, _type := 1,
    _value_type := 0, _capacity := 8, _value_buffer := none }

/-- A sequence buffer of 48 bytes after one MIDI event of three bytes at
frame 0 was appended. -/
def buffer_one_event : Buffer :=
  ((sequence_buffer 48).append_event uris_example 0 3 5 [144, 60, 100]).2

/-- A sequence buffer of 128 bytes after an event at frame 10 was appended. -/
def buffer_at_frame_10 : Buffer :=
  ((sequence_buffer 128).append_event uris_example 10 3 5 [144, 60, 100]).2


/-! ### Series of appends, and the signal rendered from a sequence -/

/-- URIDs as the URID map hands them out: 32-bit numbers, different URIs
mapped to different numbers. -/
def URIs.Valid (u : URIs) : Prop :=
  u.atom_Sound < 2 ^ 32 ∧ u.atom_Float < 2 ^ 32 ∧ u.atom_Sequence < 2 ^ 32 ∧
  u.atom_Chunk < 2 ^ 32 ∧ u.atom_Sound ≠ u.atom_Float ∧ u.atom_Sound ≠ u.atom_Sequence ∧
  u.atom_Sound ≠ u.atom_Chunk ∧ u.atom_Float ≠ u.atom_Sequence ∧
  u.atom_Float ≠ u.atom_Chunk ∧ u.atom_Sequence ≠ u.atom_Chunk

instance (u : URIs) : Decidable u.Valid := by
  unfold URIs.Valid
  infer_instance

/-- The arguments of a call `append_event(frames, size, type, data)`. -/
structure AppendCall where
  frames : Int
  size : Nat
  type : Nat
  data : List Nat
  deriving DecidableEq, Repr

/-- Arguments as their C++ types allow them: `frames` an `int64_t`, `type` a
`uint32_t`, `data` the `size` bytes of the payload, and a `size` that
`lv2_atom_pad_size` can round up within `uint32_t`. -/
def AppendCall.Valid (c : AppendCall) : Prop :=
  -(2 ^ 63) ≤ c.frames ∧ c.frames < 2 ^ 63 ∧ c.size + 7 < 2 ^ 32 ∧ c.type < 2 ^ 32 ∧
  c.data.length = c.size ∧ ∀ x ∈ c.data, x < 256

instance (c : AppendCall) : Decidable c.Valid := by
  unfold AppendCall.Valid
  infer_instance

/-- The event a call asks to append. -/
def AppendCall.event (c : AppendCall) : AtomEvent :=
  { frames := c.frames, size := c.size, type := c.type, body := c.data }

/-- The call `append_event(c.frames, c.size, c.type, c.data)`. -/
def Buffer.append_call (u : URIs) (b : Buffer) (c : AppendCall) : Bool × Buffer :=
  b.append_event u c.frames c.size c.type c.data

/-- The buffer after a series of calls of `append_event`. -/
def Buffer.append_all (u : URIs) : Buffer → List AppendCall → Buffer
  | b, [] => b
  | b, c :: cs => Buffer.append_all u (b.append_call u c).2 cs

/-- Every call of the series returns true. -/
def Buffer.accepts (u : URIs) : Buffer → List AppendCall → Bool
  | _, [] => true
  | b, c :: cs => (b.append_call u c).1 && Buffer.accepts u (b.append_call u c).2 cs

/-- Every call of the series is made with `frames` not smaller than
`_latest_event` at the time of the call, the condition `append_event`
asserts. -/
def Buffer.in_order (u : URIs) : Buffer → List AppendCall → Bool
  | _, [] => true
  | b, c :: cs =>
    decide (b._latest_event ≤ c.frames) && Buffer.in_order u (b.append_call u c).2 cs

/-- The frame of the last event of a list, 0 for the empty list. -/
def last_frame (evs : List AtomEvent) : Int :=
  match evs.getLast? with
  | some ev => ev.frames
  | none => 0

/-- Sample `i` of the buffer, as its 32 bits, if the buffer has storage. -/
def Buffer.sample_at (u : URIs) (b : Buffer) (i : Nat) : Option Nat :=
  b._buf.map fun m => read_u32 m (b.samples_offset u + 4 * i)

/-- The piecewise-constant signal given by the events of a sequence, at frame
`i`: the float of the last event, in storage order, that has type Float and
a frame not after `i`; `init` when there is no such event. -/
def signal_value (atom_Float : Nat) (evs : List (AtomEvent × Nat)) (init : Nat) (i : Nat) :
    Nat :=
  evs.foldl (fun v e => if e.1.type = atom_Float ∧ e.1.frames ≤ (i : Int) then e.2 else v) init

/-- An audio buffer of 16 bytes holding four samples, all with the bits 5. -/
def audio_buffer_4 : Buffer :=
  { _buf := some (set_block (fun _ => 0) 5 0 4), _latest_event := 0, _type := 1,
    _value_type := 0, _capacity := 16, _value_buffer := none }

/-- A control buffer (a float atom, 16 bytes) whose value has the bits `v`. -/
def control_buffer (v : Nat) : Buffer :=
  { _buf := some (write_u32 (write_u32 (write_u32 (fun _ => 0) 0 4) 4 2) 8 v),
    _latest_event := 0, _type := 2, _value_type := 0, _capacity := 16, _value_buffer := none }

/-- A sequence buffer of 128 bytes with value type Float whose current value
has the bits 7, holding a Float event with the bits 1065353216 (`1.0f`) at
frame 1, a MIDI event at frame 2, and a Float event with the bits 1073741824
(`2.0f`) at frame 2. -/
def float_sequence : Buffer :=
  Buffer.append_all uris_example
    (Buffer.clear uris_example
      { _buf := some fun _ => 0, _latest_event := 0, _type := 3, _value_type := 2,
        _capacity := 128, _value_buffer := some (write_u32 (fun _ => 0) 8 7) })
    [ { frames := 1, size := 4, type := 2, data := [0, 0, 128, 63] },
      { frames := 2, size := 3, type := 5, data := [144, 60, 100] },
      { frames := 2, size := 4, type := 2, data := [0, 0, 0, 64] } ]

/-- The calls of the examples: three MIDI events at the frames 0, 10, 10. -/
def calls_example : List AppendCall :=
  [ { frames := 0, size := 3, type := 5, data := [144, 60, 100] },
    { frames := 10, size := 3, type := 5, data := [144, 62, 100] },
    { frames := 10, size := 3, type := 5, data := [128, 60, 0] } ]

/-- Every call of the series returns false. -/
def Buffer.refuses (u : URIs) : Buffer → List AppendCall → Bool
  | _, [] => true
  | b, c :: cs => !(b.append_call u c).1 && Buffer.refuses u (b.append_call u c).2 cs

/-- A sequence buffer of 48 bytes with arbitrary contents, not yet cleared. -/
def raw_sequence_buffer : Buffer :=
  { _buf := some fun i => i % 7, _latest_event := 3, _type := 3, _value_type := 0,
    _capacity := 48, _value_buffer := none }

/-- A MIDI event of 40 bytes, too large for a buffer of 48 bytes. -/
def large_call : AppendCall :=
  { frames := 0, size := 40, type := 5, data := List.replicate 40 1 }
/-! ## Properties of the graph compiler -/

section Outcomes

variable {α β σ : Type}

@[simp] theorem Res.bind_ok (a : α) (f : α → Res β) : (Res.ok a).bind f = f a := rfl

@[simp] theorem Res.bind_feedback (n : Nat) (r : Option Nat) (f : α → Res β) :
    (Res.feedback n r : Res α).bind f = .feedback n r := rfl

@[simp] theorem Res.bind_timeout (f : α → Res β) : (Res.timeout : Res α).bind f = .timeout := rfl

theorem Res.bind_eq_ok {r : Res α} {f : α → Res β} {b : β} :
    r.bind f = .ok b ↔ ∃ a, r = .ok a ∧ f a = .ok b := by
  cases r <;> simp

theorem Res.bind_eq_timeout {r : Res α} {f : α → Res β} :
    r.bind f = .timeout ↔ r = .timeout ∨ ∃ a, r = .ok a ∧ f a = .timeout := by
  cases r <;> simp

@[simp] theorem forEach_nil (body : Nat → σ → Res σ) (s : σ) : forEach body [] s = .ok s := rfl

@[simp] theorem forEach_cons (body : Nat → σ → Res σ) (x : Nat) (xs : List Nat) (s : σ) :
    forEach body (x :: xs) s = (body x s).bind (forEach body xs) := rfl

/-- A property kept by every iteration that completes holds after a loop
that completes. -/
theorem forEach_inv (P : σ → Prop) (body : Nat → σ → Res σ) :
    ∀ (xs : List Nat) (s s' : σ), P s →
      (∀ x ∈ xs, ∀ a b, P a → body x a = .ok b → P b) →
      forEach body xs s = .ok s' → P s' := by
  intro xs
  induction xs with
  | nil => intro s s' h _ he; simp at he; exact he ▸ h
  | cons x xs ih =>
    intro s s' h hstep he
    rw [forEach_cons, Res.bind_eq_ok] at he
    obtain ⟨a, ha, hrest⟩ := he
    exact ih a s' (hstep x (List.mem_cons_self _ _) s a h ha)
      (fun y hy => hstep y (List.mem_cons_of_mem _ hy)) hrest

/-- In a loop that completes every iteration completed, from a state with
the invariant. -/
theorem forEach_mem_ok (P : σ → Prop) (body : Nat → σ → Res σ) :
    ∀ (xs : List Nat) (s s' : σ), P s →
      (∀ x ∈ xs, ∀ a b, P a → body x a = .ok b → P b) →
      forEach body xs s = .ok s' → ∀ x ∈ xs, ∃ a b, P a ∧ body x a = .ok b := by
  intro xs
  induction xs with
  | nil => intro s s' _ _ _ x hx; simp at hx
  | cons y ys ih =>
    intro s s' h hstep he x hx
    rw [forEach_cons, Res.bind_eq_ok] at he
    obtain ⟨a, ha, hrest⟩ := he
    rcases List.mem_cons.mp hx with rfl | hx'
    · exact ⟨s, a, h, ha⟩
    · exact ih a s' (hstep y (List.mem_cons_self _ _) s a h ha)
        (fun z hz => hstep z (List.mem_cons_of_mem _ hz)) hrest x hx'

/-- A loop whose iterations do not run out of fuel does not run out of fuel. -/
theorem forEach_no_timeout (P : σ → Prop) (body : Nat → σ → Res σ) :
    ∀ (xs : List Nat) (s : σ), P s →
      (∀ x ∈ xs, ∀ a b, P a → body x a = .ok b → P b) →
      (∀ x ∈ xs, ∀ a, P a → body x a ≠ .timeout) →
      forEach body xs s ≠ .timeout := by
  intro xs
  induction xs with
  | nil => intro s _ _ _; simp
  | cons y ys ih =>
    intro s h hstep hnt he
    rw [forEach_cons, Res.bind_eq_timeout] at he
    rcases he with he | ⟨a, ha, hrest⟩
    · exact hnt y (List.mem_cons_self _ _) s h he
    · exact ih a (hstep y (List.mem_cons_self _ _) s a h ha)
        (fun z hz => hstep z (List.mem_cons_of_mem _ hz))
        (fun z hz => hnt z (List.mem_cons_of_mem _ hz)) hrest

end Outcomes

section Marks

theorem set_mark_same (marks : Marks) (n : Nat) (v : Mark) : set_mark marks n v n = v := by
  simp [set_mark]

theorem set_mark_other (marks : Marks) {n m : Nat} (v : Mark) (h : m ≠ n) :
    set_mark marks n v m = marks m := by
  simp [set_mark, h]

theorem set_mark_self_eq (marks : Marks) (n : Nat) : set_mark marks n (marks n) = marks := by
  funext m
  by_cases h : m = n <;> simp [set_mark, h]

theorem set_mark_set_mark (marks : Marks) (n : Nat) (v w : Mark) :
    set_mark (set_mark marks n v) n w = set_mark marks n w := by
  funext m
  by_cases h : m = n <;> simp [set_mark, h]

end Marks

section CheckFeedback

variable (g : GraphImpl)

theorem check_feedback_succ (fuel root dependant : Nat) (marks : Marks) :
    check_feedback g (fuel + 1) root dependant marks =
      if dependant = root then .feedback root none
      else
        forEach (fun d marks =>
          (match marks d with
            | .UNVISITED => check_feedback g fuel root d (set_mark marks d .VISITING)
            | .VISITING => .feedback d (some root)
            | .VISITED => .ok marks).bind
          fun marks' => .ok (set_mark marks' d (marks d)))
          (g.dependants dependant) marks := rfl

/-- One iteration of the loop of `check_feedback` that completes leaves the
marks as they were, provided the recursive calls do. -/
theorem check_feedback_body_ok (fuel root d : Nat) (marks marks' : Marks)
    (ih : ∀ root d m m', check_feedback g fuel root d m = .ok m' → m' = m)
    (h : ((match marks d with
            | .UNVISITED => check_feedback g fuel root d (set_mark marks d .VISITING)
            | .VISITING => .feedback d (some root)
            | .VISITED => .ok marks).bind
          fun m => Res.ok (set_mark m d (marks d))) = .ok marks') :
    marks' = marks := by
  rw [Res.bind_eq_ok] at h
  obtain ⟨m, hm, hm'⟩ := h
  cases hd : marks d with
  | UNVISITED =>
    rw [hd] at hm hm'
    simp only at hm
    have := ih root d _ _ hm
    subst this
    simp only [Res.ok.injEq] at hm'
    rw [← hm', set_mark_set_mark, ← hd, set_mark_self_eq]
  | VISITING => rw [hd] at hm; simp at hm
  | VISITED =>
    rw [hd] at hm hm'
    simp only [Res.ok.injEq] at hm hm'
    subst hm
    rw [← hm', ← hd, set_mark_self_eq]

/-- A call of `check_feedback` that returns has restored every mark. -/
theorem check_feedback_ok_marks :
    ∀ (fuel root dependant : Nat) (marks marks' : Marks),
      check_feedback g fuel root dependant marks = .ok marks' → marks' = marks := by
  intro fuel
  induction fuel with
  | zero => intro root d m m' h; simp [check_feedback] at h
  | succ fuel ih =>
    intro root d m m' h
    rw [check_feedback_succ] at h
    split at h
    · simp at h
    · exact forEach_inv (fun s => s = m) _ _ m m' rfl
        (fun x _ a b ha hb => by
          subst ha
          exact check_feedback_body_ok g fuel root x _ b ih hb) h

end CheckFeedback

section CompileBlock

variable (g : GraphImpl)

theorem MarksLe.refl (m : Marks) : MarksLe m m := fun _ => Or.inl rfl

theorem MarksLe.trans {a b c : Marks} (h₁ : MarksLe a b) (h₂ : MarksLe b c) : MarksLe a c := by
  intro x
  rcases h₁ x with h | ⟨h, h'⟩ <;> rcases h₂ x with k | ⟨k, k'⟩
  · left; rw [k, h]
  · right; exact ⟨h ▸ k, k'⟩
  · right; exact ⟨h, k ▸ h'⟩
  · rw [h'] at k; cases k

theorem compile_block_zero (n : Nat) (s : CState) : compile_block g 0 n s = .timeout := rfl

theorem compile_block_succ (fuel n : Nat) (task : Task) (k : List Nat) (marks : Marks) :
    compile_block g (fuel + 1) n (task, k, marks) =
      match marks n with
      | .UNVISITED =>
        if (g.dependants n).length < 2 then
          (forEach (compile_dependant g (compile_block g fuel) fuel n)
              (g.dependants n)
              (task.push_back (Task.single n), k, set_mark marks n .VISITING)).bind fun
            | (task, k, marks) => .ok (task, k, set_mark marks n .VISITED)
        else
          (forEach (compile_dependant g (compile_block g fuel) fuel n)
              (g.dependants n) (Task.empty .PARALLEL, k, set_mark marks n .VISITING)).bind fun
            | (par, k, marks) =>
              .ok ((task.push_back (Task.single n)).push_back par, k, set_mark marks n .VISITED)
      | .VISITING => .feedback n none
      | .VISITED => .ok (task, k, marks) := rfl

/-- What a completed `compile_block` on an unvisited block consists of: the
loop over the dependants completed, and the block was marked visited. -/
theorem compile_block_unvisited_ok {fuel n : Nat} {task : Task} {k : List Nat} {marks : Marks}
    {s' : CState} (hn : marks n = .UNVISITED)
    (h : compile_block g (fuel + 1) n (task, k, marks) = .ok s') :
    ∃ (t0 : Task) (l : CState),
      forEach (compile_dependant g (compile_block g fuel) fuel n) (g.dependants n)
        (t0, k, set_mark marks n .VISITING) = .ok l ∧
      s'.2.1 = l.2.1 ∧ s'.2.2 = set_mark l.2.2 n .VISITED := by
  rw [compile_block_succ, hn] at h
  simp only at h
  split at h
  · rw [Res.bind_eq_ok] at h
    obtain ⟨⟨t, k', m'⟩, hl, he⟩ := h
    simp only [Res.ok.injEq] at he
    exact ⟨_, _, hl, by rw [← he], by rw [← he]⟩
  · rw [Res.bind_eq_ok] at h
    obtain ⟨⟨t, k', m'⟩, hl, he⟩ := h
    simp only [Res.ok.injEq] at he
    exact ⟨_, _, hl, by rw [← he], by rw [← he]⟩

/-- What a completed `compile_dependant` consists of. -/
theorem compile_dependant_ok {cb : Nat → CState → Res CState} {fuel root block : Nat}
    {s s' : CState} (h : compile_dependant g cb fuel root block s = .ok s') :
    (1 < (g.providers block).length ∧
        check_feedback g fuel root block s.2.2 = .ok s'.2.2 ∧
        s'.2.1 = set_insert block s.2.1) ∨
    (¬ 1 < (g.providers block).length ∧
        ∃ (t0 t1 : Task), cb block (t0, s.2.1, s.2.2) = .ok (t1, s'.2.1, s'.2.2)) := by
  obtain ⟨task, k, marks⟩ := s
  unfold compile_dependant at h
  simp only [gt_iff_lt] at h
  split at h
  · rename_i hp
    rw [Res.bind_eq_ok] at h
    obtain ⟨m', hm', he⟩ := h
    simp only [Res.ok.injEq] at he
    subst he
    exact Or.inl ⟨hp, hm', rfl⟩
  · rename_i hp
    right
    refine ⟨hp, ?_⟩
    split at h
    · rw [Res.bind_eq_ok] at h
      obtain ⟨⟨t1, k1, m1⟩, h1, he⟩ := h
      simp only [Res.ok.injEq] at he
      subst he
      exact ⟨_, _, h1⟩
    · obtain ⟨t1, k1, m1⟩ := s'
      exact ⟨_, _, h⟩

/-- A completed `compile_block` moves marks only from unvisited to visited,
and leaves its block visited. -/
theorem compile_block_marks :
    ∀ (fuel n : Nat) (s s' : CState), compile_block g fuel n s = .ok s' →
      MarksLe s.2.2 s'.2.2 ∧ s'.2.2 n = .VISITED := by
  intro fuel
  induction fuel with
  | zero => intro n s s' h; simp [compile_block_zero] at h
  | succ fuel ih =>
    intro n s s' h
    obtain ⟨task, k, marks⟩ := s
    cases hn : marks n with
    | UNVISITED =>
      obtain ⟨t0, l, hl, _, hm⟩ := compile_block_unvisited_ok g hn h
      have hloop : MarksLe (set_mark marks n .VISITING) l.2.2 := by
        refine forEach_inv (fun s => MarksLe (set_mark marks n .VISITING) s.2.2) _ _ _ _
          (MarksLe.refl _) ?_ hl
        intro d _ a b ha hb
        rcases compile_dependant_ok g hb with ⟨_, hcf, _⟩ | ⟨_, t0, t1, hcb⟩
        · rw [check_feedback_ok_marks g _ _ _ _ _ hcf]; exact ha
        · exact ha.trans (ih d _ _ hcb).1
      refine ⟨?_, by rw [hm, set_mark_same]⟩
      intro x
      show s'.2.2 x = marks x ∨ _
      rw [hm]
      by_cases hx : x = n
      · subst hx
        right
        exact ⟨hn, set_mark_same _ _ _⟩
      · rw [set_mark_other _ _ hx]
        have := hloop x
        rw [set_mark_other _ _ hx] at this
        exact this
    | VISITING =>
      rw [compile_block_succ, hn] at h
      simp at h
    | VISITED =>
      rw [compile_block_succ, hn] at h
      simp only [Res.ok.injEq] at h
      subst h
      exact ⟨MarksLe.refl _, hn⟩

end CompileBlock

section Cycles

variable (g : GraphImpl)

theorem IsCycle.hasSuccessors {c : List Nat} (h : IsCycle g c) : HasSuccessors g c := by
  intro b hb
  obtain ⟨i, hi, rfl⟩ := List.getElem_of_mem hb
  have hlen : 0 < c.length := by omega
  have hj : (i + 1) % c.length < c.length := Nat.mod_lt _ hlen
  refine ⟨c.getD ((i + 1) % c.length) 0, ?_, ?_⟩
  · rw [List.getD_eq_getElem _ _ hj]
    exact List.getElem_mem _
  · have := h.2.2 i hi
    rwa [List.getD_eq_getElem _ _ hi] at this

/-- Started on a block of a set with successors none of which is visited,
`check_feedback` does not return. -/
theorem check_feedback_cycle {c : List Nat} (hc : HasSuccessors g c) :
    ∀ (fuel root x : Nat) (m m' : Marks), x ∈ c → NoneVisited c m →
      check_feedback g fuel root x m ≠ .ok m' := by
  intro fuel
  induction fuel with
  | zero => intro root x m m' _ _ h; simp [check_feedback] at h
  | succ fuel ih =>
    intro root x m m' hx hm h
    rw [check_feedback_succ] at h
    split at h
    · simp at h
    · obtain ⟨s, hs, hsd⟩ := hc x hx
      obtain ⟨a, b, ha, hb⟩ := forEach_mem_ok (fun s => s = m) _ _ m m' rfl
        (fun y _ a b ha hb => by
          subst ha
          exact check_feedback_body_ok g fuel root y _ b
            (check_feedback_ok_marks g fuel) hb) h s hsd
      subst ha
      rw [Res.bind_eq_ok] at hb
      obtain ⟨m1, hm1, _⟩ := hb
      cases hd : a s with
      | UNVISITED =>
        rw [hd] at hm1
        refine ih root s _ m1 hs ?_ hm1
        intro y hy
        by_cases hys : y = s
        · subst hys; rw [set_mark_same]; simp
        · rw [set_mark_other _ _ hys]; exact hm y hy
      | VISITING => rw [hd] at hm1; simp at hm1
      | VISITED => exact hm s hs hd

/-- A completed `compile_block` does not mark any block of a set with
successors visited, if none was: compilation cannot get past a cycle. -/
theorem compile_block_cycle {c : List Nat} (hc : HasSuccessors g c) :
    ∀ (fuel n : Nat) (s s' : CState), NoneVisited c s.2.2 →
      compile_block g fuel n s = .ok s' → NoneVisited c s'.2.2 := by
  intro fuel
  induction fuel with
  | zero => intro n s s' _ h; simp [compile_block_zero] at h
  | succ fuel ih =>
    intro n s s' hs h
    obtain ⟨task, k, marks⟩ := s
    cases hn : marks n with
    | UNVISITED =>
      obtain ⟨t0, l, hl, _, hm⟩ := compile_block_unvisited_ok g hn h
      have hstart : NoneVisited c (set_mark marks n .VISITING) := by
        intro y hy
        by_cases hyn : y = n
        · subst hyn; rw [set_mark_same]; simp
        · rw [set_mark_other _ _ hyn]; exact hs y hy
      have hstep : ∀ d ∈ g.dependants n, ∀ a b : CState, NoneVisited c a.2.2 →
          compile_dependant g (compile_block g fuel) fuel n d a = .ok b →
          NoneVisited c b.2.2 := by
        intro d _ a b ha hb
        rcases compile_dependant_ok g hb with ⟨_, hcf, _⟩ | ⟨_, t0, t1, hcb⟩
        · rw [check_feedback_ok_marks g _ _ _ _ _ hcf]; exact ha
        · exact ih d (t0, a.2.1, a.2.2) (t1, b.2.1, b.2.2) ha hcb
      have hloop : NoneVisited c l.2.2 :=
        forEach_inv (fun s => NoneVisited c s.2.2) _ _ _ _ hstart hstep hl
      have hnc : n ∉ c := by
        intro hmem
        obtain ⟨d, hd, hdn⟩ := hc n hmem
        obtain ⟨a, b, ha, hb⟩ := forEach_mem_ok (fun s => NoneVisited c s.2.2) _ _ _ _
          hstart hstep hl d hdn
        rcases compile_dependant_ok g hb with ⟨_, hcf, _⟩ | ⟨_, t0, t1, hcb⟩
        · exact check_feedback_cycle g hc _ _ _ _ _ hd ha hcf
        · exact ih d (t0, a.2.1, a.2.2) (t1, b.2.1, b.2.2) ha hcb d hd
            (compile_block_marks g _ _ _ _ hcb).2
      intro y hy
      show s'.2.2 y ≠ _
      rw [hm]
      have hyn : y ≠ n := fun e => hnc (e ▸ hy)
      rw [set_mark_other _ _ hyn]
      exact hloop y hy
    | VISITING =>
      rw [compile_block_succ, hn] at h
      simp at h
    | VISITED =>
      rw [compile_block_succ, hn] at h
      simp only [Res.ok.injEq] at h
      subst h
      exact hs

end Cycles

section TopLevel

variable (g : GraphImpl)

/-- What a completed iteration of `compile_set` or of a wave consists of. -/
theorem compile_seq_ok {fuel b : Nat} {s s' : CState}
    (h : compile_seq g fuel b s = .ok s') :
    ∃ (t0 t1 : Task), compile_block g fuel b (t0, s.2.1, s.2.2) = .ok (t1, s'.2.1, s'.2.2) := by
  obtain ⟨task, k, marks⟩ := s
  unfold compile_seq at h
  rw [Res.bind_eq_ok] at h
  obtain ⟨⟨t1, k1, m1⟩, h1, he⟩ := h
  simp only [Res.ok.injEq] at he
  subst he
  exact ⟨_, _, h1⟩

theorem cycleInv_block {c : List Nat} (hc : HasSuccessors g c) {fuel n : Nat} (s s' : CState)
    (hs : CycleInv g c s.2.2) (h : compile_block g fuel n s = .ok s') :
    CycleInv g c s'.2.2 := by
  refine ⟨compile_block_cycle g hc _ _ _ _ hs.1 h, ?_⟩
  intro b hb hv
  rcases (compile_block_marks g _ _ _ _ h).1 b with e | ⟨_, e⟩
  · exact hs.2 b hb (e ▸ hv)
  · rw [e] at hv; cases hv

theorem cycleInv_seq {c : List Nat} (hc : HasSuccessors g c) {fuel n : Nat} (s s' : CState)
    (hs : CycleInv g c s.2.2) (h : compile_seq g fuel n s = .ok s') :
    CycleInv g c s'.2.2 := by
  obtain ⟨t0, t1, hb⟩ := compile_seq_ok g h
  exact cycleInv_block g hc (t0, s.2.1, s.2.2) (t1, s'.2.1, s'.2.2) hs hb

theorem cycleInv_loop {c : List Nat} (hc : HasSuccessors g c) {fuel : Nat} {xs : List Nat}
    (s s' : CState) (hs : CycleInv g c s.2.2)
    (h : forEach (compile_seq g fuel) xs s = .ok s') : CycleInv g c s'.2.2 :=
  forEach_inv (fun s => CycleInv g c s.2.2) _ _ _ _ hs
    (fun _ _ a b ha hb => cycleInv_seq g hc a b ha hb) h

theorem compile_waves_nil (fuel w : Nat) (master : Task) (marks : Marks) :
    compile_waves g fuel w (master, [], marks) = .ok (master, [], marks) := by
  cases w <;> rfl

theorem compile_waves_succ (fuel w : Nat) (master : Task) (x : Nat) (xs : List Nat)
    (marks : Marks) :
    compile_waves g fuel (w + 1) (master, x :: xs, marks) =
      (forEach (compile_seq g fuel) (x :: xs) (Task.empty .PARALLEL, [], marks)).bind fun
        | (par, blocks, marks) => compile_waves g fuel w (master.push_back par, blocks, marks) :=
  rfl

theorem cycleInv_waves {c : List Nat} (hc : HasSuccessors g c) (fuel : Nat) :
    ∀ (w : Nat) (s s' : CState), CycleInv g c s.2.2 →
      compile_waves g fuel w s = .ok s' → CycleInv g c s'.2.2 := by
  intro w
  induction w with
  | zero =>
    intro s s' hs h
    obtain ⟨master, next, marks⟩ := s
    cases next with
    | nil => rw [compile_waves_nil] at h; simp only [Res.ok.injEq] at h; subst h; exact hs
    | cons x xs => simp [compile_waves] at h
  | succ w ih =>
    intro s s' hs h
    obtain ⟨master, next, marks⟩ := s
    cases next with
    | nil => rw [compile_waves_nil] at h; simp only [Res.ok.injEq] at h; subst h; exact hs
    | cons x xs =>
      rw [compile_waves_succ, Res.bind_eq_ok] at h
      obtain ⟨⟨par, blocks, m1⟩, h1, h2⟩ := h
      have hm1 : CycleInv g c m1 :=
        cycleInv_loop g hc (Task.empty .PARALLEL, [], marks) (par, blocks, m1) hs h1
      exact ih (master.push_back par, blocks, m1) s' hm1 h2

theorem initial_marks_mem {b : Nat} (hb : b ∈ g.blocks) (marks : Marks) :
    initial_marks g marks b = .UNVISITED := by
  simp [initial_marks, hb]

/-- On a graph with a cycle `compile_graph` does not produce a task tree. -/
theorem compile_graph_raw_cycle {c : List Nat} (hc : IsCycle g c) (marks : Marks)
    (r : Task × Marks) : compile_graph_raw g marks ≠ .ok r := by
  intro h
  have hsucc := hc.hasSuccessors
  unfold compile_graph_raw at h
  rw [Res.bind_eq_ok] at h
  obtain ⟨⟨start, next, m1⟩, h1, h⟩ := h
  simp only at h
  rw [Res.bind_eq_ok] at h
  obtain ⟨⟨master, next2, m2⟩, h2, h⟩ := h
  simp only at h
  rw [Res.bind_eq_ok] at h
  obtain ⟨⟨master3, next3, m3⟩, h3, _⟩ := h
  have i0 : CycleInv g c (initial_marks g marks) := by
    constructor
    · intro b hb
      rw [initial_marks_mem g (hc.2.1 b hb)]
      simp
    · intro b hb
      rw [initial_marks_mem g hb]
      simp
  have i1 : CycleInv g c m1 :=
    cycleInv_loop g hsucc (Task.empty .PARALLEL, [], initial_marks g marks) (start, next, m1) i0 h1
  have i2 : CycleInv g c m2 :=
    cycleInv_waves g hsucc _ _ ((Task.empty .SEQUENTIAL).push_back start, next, m1) _ i1 h2
  obtain ⟨b, hb⟩ := List.exists_mem_of_ne_nil c hc.1
  have hstep : ∀ x ∈ g.blocks, ∀ a a' : CState, CycleInv g c a.2.2 →
      (if a.2.2 x = .UNVISITED then compile_block g (compile_fuel g) x a else .ok a) = .ok a' →
      CycleInv g c a'.2.2 := by
    intro x _ a a' ha hx
    split at hx
    · exact cycleInv_block g hsucc a a' ha hx
    · simp only [Res.ok.injEq] at hx; subst hx; exact ha
  obtain ⟨a, a', ha, hx⟩ := forEach_mem_ok (fun s => CycleInv g c s.2.2) _ _ _ _
    (show CycleInv g c ((master, next2, m2) : CState).2.2 from i2) hstep h3 b (hc.2.1 b hb)
  split at hx
  · exact compile_block_cycle g hsucc _ _ _ _ ha.1 hx b hb (compile_block_marks g _ _ _ _ hx).2
  · rename_i hne
    cases hm : a.2.2 b with
    | UNVISITED => exact hne hm
    | VISITING => exact ha.2 b (hc.2.1 b hb) hm
    | VISITED => exact ha.1 b hb hm

end TopLevel

section Termination

variable (g : GraphImpl)

theorem countP_le_of_imp (p q : Nat → Bool) (h : ∀ x, p x = true → q x = true) :
    ∀ l : List Nat, l.countP p ≤ l.countP q := by
  intro l
  induction l with
  | nil => simp
  | cons a l ih =>
    rw [List.countP_cons, List.countP_cons]
    by_cases hp : p a = true
    · simp [hp, h a hp, ih]
    · simp [hp]; omega

theorem countP_lt_of_imp (p q : Nat → Bool) (h : ∀ x, p x = true → q x = true) (n : Nat)
    (hq : q n = true) (hp : ¬ p n = true) :
    ∀ l : List Nat, n ∈ l → l.countP p < l.countP q := by
  intro l
  induction l with
  | nil => intro hn; simp at hn
  | cons a l ih =>
    intro hn
    rw [List.countP_cons, List.countP_cons]
    have hle := countP_le_of_imp p q h l
    by_cases han : a = n
    · subst han
      simp [hp, hq]; omega
    · have hl : n ∈ l := by
        rcases List.mem_cons.mp hn with e | e
        · exact absurd e.symm han
        · exact e
      have := ih hl
      by_cases hpa : p a = true
      · simp [hpa, h a hpa]; omega
      · simp [hpa]; omega

theorem unvisited_count_le {m m' : Marks} (h : ∀ x, m' x = .UNVISITED → m x = .UNVISITED) :
    unvisited_count g m' ≤ unvisited_count g m := by
  unfold unvisited_count
  apply countP_le_of_imp
  intro x hx
  simp only [decide_eq_true_eq] at hx ⊢
  exact h x hx

theorem unvisited_count_lt {m m' : Marks} (h : ∀ x, m' x = .UNVISITED → m x = .UNVISITED)
    {n : Nat} (hn : n ∈ g.blocks) (hm : m n = .UNVISITED) (hm' : m' n ≠ .UNVISITED) :
    unvisited_count g m' < unvisited_count g m := by
  unfold unvisited_count
  apply countP_lt_of_imp _ _ _ n _ _ _ hn
  · intro x hx
    simp only [decide_eq_true_eq] at hx ⊢
    exact h x hx
  · simpa using hm
  · simpa using hm'

theorem unvisited_count_le_length (m : Marks) : unvisited_count g m ≤ g.blocks.length :=
  List.countP_le_length _

theorem MarksLe.unvisited {m m' : Marks} (h : MarksLe m m') :
    ∀ x, m' x = .UNVISITED → m x = .UNVISITED := by
  intro x hx
  rcases h x with e | ⟨_, e⟩
  · rw [← e]; exact hx
  · rw [e] at hx; cases hx

theorem set_mark_unvisited (m : Marks) (n : Nat) {v : Mark} (hv : v ≠ .UNVISITED) :
    ∀ x, set_mark m n v x = .UNVISITED → m x = .UNVISITED := by
  intro x hx
  by_cases h : x = n
  · subst h; rw [set_mark_same] at hx; exact absurd hx hv
  · rwa [set_mark_other _ _ h] at hx

theorem unvisited_count_set_mark_lt {m : Marks} {n : Nat} (hn : n ∈ g.blocks)
    (hm : m n = .UNVISITED) (v : Mark) (hv : v ≠ .UNVISITED) :
    unvisited_count g (set_mark m n v) < unvisited_count g m :=
  unvisited_count_lt g (set_mark_unvisited m n hv) hn hm (by rw [set_mark_same]; exact hv)

/-- With more fuel than unvisited blocks `check_feedback` does not run out
of fuel. -/
theorem check_feedback_no_timeout (hg : Closed g) :
    ∀ (fuel root x : Nat) (m : Marks), x ∈ g.blocks → unvisited_count g m < fuel →
      check_feedback g fuel root x m ≠ .timeout := by
  intro fuel
  induction fuel with
  | zero => intro root x m _ h; omega
  | succ fuel ih =>
    intro root x m hx hf h
    rw [check_feedback_succ] at h
    split at h
    · simp at h
    · refine forEach_no_timeout (fun s => s = m) _ _ m rfl
        (fun y _ a b ha hb => by
          subst ha
          exact check_feedback_body_ok g fuel root y _ b
            (check_feedback_ok_marks g fuel) hb) ?_ h
      intro d hd a ha hb
      subst ha
      rw [Res.bind_eq_timeout] at hb
      rcases hb with hb | ⟨_, _, hb⟩
      · cases hmd : a d with
        | UNVISITED =>
          rw [hmd] at hb
          have hdb := hg x hx d hd
          have := unvisited_count_set_mark_lt g hdb hmd .VISITING (by simp)
          exact ih root d _ hdb (by omega) hb
        | VISITING => rw [hmd] at hb; simp at hb
        | VISITED => rw [hmd] at hb; simp at hb
      · simp at hb

/-- How `compile_dependant` can run out of fuel. -/
theorem compile_dependant_timeout {cb : Nat → CState → Res CState} {fuel root block : Nat}
    {s : CState} (h : compile_dependant g cb fuel root block s = .timeout) :
    (1 < (g.providers block).length ∧ check_feedback g fuel root block s.2.2 = .timeout) ∨
    (¬ 1 < (g.providers block).length ∧ ∃ t0 : Task, cb block (t0, s.2.1, s.2.2) = .timeout) := by
  obtain ⟨task, k, marks⟩ := s
  unfold compile_dependant at h
  simp only [gt_iff_lt] at h
  split at h
  · rename_i hp
    rw [Res.bind_eq_timeout] at h
    rcases h with h | ⟨_, _, h⟩
    · exact Or.inl ⟨hp, h⟩
    · simp at h
  · rename_i hp
    right
    refine ⟨hp, ?_⟩
    split at h
    · rw [Res.bind_eq_timeout] at h
      rcases h with h | ⟨⟨t1, k1, m1⟩, _, h⟩
      · exact ⟨_, h⟩
      · simp at h
    · exact ⟨_, h⟩

/-- A completed `compile_dependant` does not add unvisited blocks. -/
theorem compile_dependant_count {fuel root block : Nat} {s s' : CState}
    (h : compile_dependant g (compile_block g fuel) fuel root block s = .ok s') :
    unvisited_count g s'.2.2 ≤ unvisited_count g s.2.2 := by
  rcases compile_dependant_ok g h with ⟨_, hcf, _⟩ | ⟨_, t0, t1, hcb⟩
  · rw [check_feedback_ok_marks g _ _ _ _ _ hcf]
  · exact unvisited_count_le g (compile_block_marks g _ _ _ _ hcb).1.unvisited

/-- With more fuel than unvisited blocks `compile_block` does not run out of
fuel. -/
theorem compile_block_no_timeout (hg : Closed g) :
    ∀ (fuel n : Nat) (s : CState), n ∈ g.blocks → unvisited_count g s.2.2 < fuel →
      compile_block g fuel n s ≠ .timeout := by
  intro fuel
  induction fuel with
  | zero => intro n s _ h; omega
  | succ fuel ih =>
    intro n s hn hf h
    obtain ⟨task, k, marks⟩ := s
    rw [compile_block_succ] at h
    cases hmn : marks n with
    | UNVISITED =>
      rw [hmn] at h
      simp only at h
      have hlt := unvisited_count_set_mark_lt g hn hmn .VISITING (by simp)
      have hloop : ∀ t0 : Task,
          forEach (compile_dependant g (compile_block g fuel) fuel n) (g.dependants n)
            (t0, k, set_mark marks n .VISITING) ≠ .timeout := by
        intro t0
        refine forEach_no_timeout (fun s => unvisited_count g s.2.2 < fuel) _ _ _
          (show unvisited_count g (set_mark marks n .VISITING) < fuel by
            have : unvisited_count g marks < fuel + 1 := hf
            omega)
          (fun d _ a b ha hb => by
            have := compile_dependant_count g hb
            show unvisited_count g b.2.2 < fuel
            have ha' : unvisited_count g a.2.2 < fuel := ha
            omega) ?_
        intro d hd a ha hb
        have hdb := hg n hn d hd
        rcases compile_dependant_timeout g hb with ⟨_, hcf⟩ | ⟨_, t0, hcb⟩
        · exact check_feedback_no_timeout g hg _ _ _ _ hdb ha hcf
        · exact ih d (t0, a.2.1, a.2.2) hdb ha hcb
      split at h
      · rw [Res.bind_eq_timeout] at h
        rcases h with h | ⟨⟨t1, k1, m1⟩, _, h⟩
        · exact hloop _ h
        · simp at h
      · rw [Res.bind_eq_timeout] at h
        rcases h with h | ⟨⟨t1, k1, m1⟩, _, h⟩
        · exact hloop _ h
        · simp at h
    | VISITING => rw [hmn] at h; simp at h
    | VISITED => rw [hmn] at h; simp at h

theorem mem_set_insert {x b : Nat} : ∀ {k : List Nat}, x ∈ set_insert b k ↔ x = b ∨ x ∈ k := by
  intro k
  induction k with
  | nil => simp [set_insert]
  | cons y ys ih =>
    unfold set_insert
    split
    · simp
    · split
      · rename_i h; subst h; simp
      · simp only [List.mem_cons, ih]
        constructor
        · rintro (h | h | h)
          · exact Or.inr (Or.inl h)
          · exact Or.inl h
          · exact Or.inr (Or.inr h)
        · rintro (h | h | h)
          · exact Or.inr (Or.inl h)
          · exact Or.inl h
          · exact Or.inr (Or.inr h)

/-- The working set only ever receives blocks of the graph. -/
theorem compile_block_set (hg : Closed g) :
    ∀ (fuel n : Nat) (s s' : CState), n ∈ g.blocks → (∀ x ∈ s.2.1, x ∈ g.blocks) →
      compile_block g fuel n s = .ok s' → ∀ x ∈ s'.2.1, x ∈ g.blocks := by
  intro fuel
  induction fuel with
  | zero => intro n s s' _ _ h; simp [compile_block_zero] at h
  | succ fuel ih =>
    intro n s s' hn hs h
    obtain ⟨task, k, marks⟩ := s
    cases hmn : marks n with
    | UNVISITED =>
      obtain ⟨t0, l, hl, hk, _⟩ := compile_block_unvisited_ok g hmn h
      rw [hk]
      refine forEach_inv (fun s => ∀ x ∈ s.2.1, x ∈ g.blocks) _ _ _ _ hs ?_ hl
      intro d hd a b ha hb
      have hdb := hg n hn d hd
      rcases compile_dependant_ok g hb with ⟨_, _, hk'⟩ | ⟨_, t0, t1, hcb⟩
      · intro x hx
        rw [hk', mem_set_insert] at hx
        rcases hx with rfl | hx
        · exact hdb
        · exact ha x hx
      · exact ih d (t0, a.2.1, a.2.2) (t1, b.2.1, b.2.2) hdb ha hcb
    | VISITING =>
      rw [compile_block_succ, hmn] at h
      simp at h
    | VISITED =>
      rw [compile_block_succ, hmn] at h
      simp only [Res.ok.injEq] at h
      subst h
      exact hs

/-- A completed `compile_block` either changed neither working set nor
marks, or visited a block that was unvisited. -/
theorem compile_block_progress {fuel n : Nat} {s s' : CState} (hn : n ∈ g.blocks)
    (h : compile_block g fuel n s = .ok s') :
    (s'.2.1 = s.2.1 ∧ s'.2.2 = s.2.2) ∨ unvisited_count g s'.2.2 < unvisited_count g s.2.2 := by
  obtain ⟨task, k, marks⟩ := s
  have hm := compile_block_marks g _ _ _ _ h
  cases fuel with
  | zero => simp [compile_block_zero] at h
  | succ fuel =>
    cases hmn : marks n with
    | UNVISITED =>
      right
      exact unvisited_count_lt g hm.1.unvisited hn hmn (by rw [hm.2]; simp)
    | VISITING =>
      rw [compile_block_succ, hmn] at h
      simp at h
    | VISITED =>
      rw [compile_block_succ, hmn] at h
      simp only [Res.ok.injEq] at h
      subst h
      exact Or.inl ⟨rfl, rfl⟩

theorem compile_seq_timeout {fuel b : Nat} {s : CState}
    (h : compile_seq g fuel b s = .timeout) :
    ∃ t0 : Task, compile_block g fuel b (t0, s.2.1, s.2.2) = .timeout := by
  obtain ⟨task, k, marks⟩ := s
  unfold compile_seq at h
  rw [Res.bind_eq_timeout] at h
  rcases h with h | ⟨⟨t1, k1, m1⟩, _, h⟩
  · exact ⟨_, h⟩
  · simp at h

theorem waveInv_step (hg : Closed g) {fuel b : Nat} (hb : b ∈ g.blocks) {m : Marks}
    (s s' : CState) (hs : WaveInv g m s) (h : compile_seq g fuel b s = .ok s') :
    WaveInv g m s' := by
  obtain ⟨t0, t1, hcb⟩ := compile_seq_ok g h
  have hle := unvisited_count_le g (compile_block_marks g _ _ _ _ hcb).1.unvisited
  have hset := compile_block_set g hg _ _ (t0, s.2.1, s.2.2) (t1, s'.2.1, s'.2.2) hb hs.1 hcb
  have hprog := compile_block_progress g hb hcb
  obtain ⟨_, h2, h3⟩ := hs
  simp only at hle hprog hset
  refine ⟨hset, by omega, ?_⟩
  rcases hprog with ⟨hk, hm⟩ | hlt
  · rw [hk, hm]; exact h3
  · right; omega

theorem waveInv_loop (hg : Closed g) {fuel : Nat} {m : Marks} :
    ∀ (xs : List Nat) (s s' : CState), (∀ x ∈ xs, x ∈ g.blocks) → WaveInv g m s →
      forEach (compile_seq g fuel) xs s = .ok s' → WaveInv g m s' := by
  intro xs s s' hxs hs h
  exact forEach_inv (WaveInv g m) _ _ _ _ hs
    (fun x hx a b ha hb => waveInv_step g hg (hxs x hx) a b ha hb) h

theorem compile_seq_loop_no_timeout (hg : Closed g) {fuel : Nat} (hf : g.blocks.length < fuel)
    {m : Marks} (xs : List Nat) (s : CState) (hxs : ∀ x ∈ xs, x ∈ g.blocks)
    (hs : WaveInv g m s) : forEach (compile_seq g fuel) xs s ≠ .timeout := by
  refine forEach_no_timeout (WaveInv g m) _ _ _ hs
    (fun x hx a b ha hb => waveInv_step g hg (hxs x hx) a b ha hb) ?_
  intro x hx a _ hb
  obtain ⟨t0, hcb⟩ := compile_seq_timeout g hb
  have := unvisited_count_le_length g a.2.2
  exact compile_block_no_timeout g hg _ _ _ (hxs x hx) (by simp only; omega) hcb

/-- The loop over the waves does not run out of fuel when it has more fuel
than there are unvisited blocks. -/
theorem compile_waves_no_timeout (hg : Closed g) {fuel : Nat} (hf : g.blocks.length < fuel) :
    ∀ (w : Nat) (s : CState), (∀ x ∈ s.2.1, x ∈ g.blocks) →
      (s.2.1 = [] ∨ unvisited_count g s.2.2 < w) →
      compile_waves g fuel w s ≠ .timeout := by
  intro w
  induction w with
  | zero =>
    intro s _ hw h
    obtain ⟨master, next, marks⟩ := s
    cases next with
    | nil => rw [compile_waves_nil] at h; simp at h
    | cons x xs => simp at hw
  | succ w ih =>
    intro s hs hw h
    obtain ⟨master, next, marks⟩ := s
    cases next with
    | nil => rw [compile_waves_nil] at h; simp at h
    | cons x xs =>
      have hw' : unvisited_count g marks < w + 1 := by simpa using hw
      have hstart : WaveInv g marks (Task.empty .PARALLEL, [], marks) :=
        ⟨by simp, Nat.le_refl _, Or.inl rfl⟩
      rw [compile_waves_succ, Res.bind_eq_timeout] at h
      rcases h with h | ⟨⟨par, blocks, m1⟩, h1, h2⟩
      · exact compile_seq_loop_no_timeout g hg hf _ _ hs hstart h
      · have hinv := waveInv_loop g hg _ _ (par, blocks, m1) hs hstart h1
        refine ih (master.push_back par, blocks, m1) hinv.1 ?_ h2
        rcases hinv.2.2 with e | e
        · exact Or.inl e
        · right; simp only at e ⊢; omega

theorem mem_foldl_set_insert {x : Nat} :
    ∀ (l acc : List Nat), x ∈ l.foldl (fun s b => set_insert b s) acc → x ∈ acc ∨ x ∈ l := by
  intro l
  induction l with
  | nil => intro acc h; exact Or.inl h
  | cons a l ih =>
    intro acc h
    rw [List.foldl_cons] at h
    rcases ih _ h with h | h
    · rw [mem_set_insert] at h
      rcases h with rfl | h
      · exact Or.inr (List.mem_cons_self _ _)
      · exact Or.inl h
    · exact Or.inr (List.mem_cons_of_mem _ h)

theorem initial_set_subset {x : Nat} (h : x ∈ initial_set g) : x ∈ g.blocks := by
  unfold initial_set at h
  rcases mem_foldl_set_insert _ _ h with h | h
  · simp at h
  · exact (List.mem_filter.mp h).1

/-- On a graph whose dependants are blocks of the graph, every loop and
recursion of `compile_graph` ends within the fuel it is given. -/
theorem compile_graph_raw_no_timeout (hg : Closed g) (marks : Marks) :
    compile_graph_raw g marks ≠ .timeout := by
  intro h
  have hf : g.blocks.length < compile_fuel g := by unfold compile_fuel; omega
  have hstart : WaveInv g (initial_marks g marks)
      (Task.empty .PARALLEL, [], initial_marks g marks) :=
    ⟨by simp, Nat.le_refl _, Or.inl rfl⟩
  unfold compile_graph_raw at h
  rw [Res.bind_eq_timeout] at h
  rcases h with h | ⟨⟨start, next, m1⟩, h1, h⟩
  · exact compile_seq_loop_no_timeout g hg hf _ _ (fun x hx => initial_set_subset g hx) hstart h
  have hinv := waveInv_loop g hg _ _ (start, next, m1)
    (fun x hx => initial_set_subset g hx) hstart h1
  simp only at h
  rw [Res.bind_eq_timeout] at h
  rcases h with h | ⟨⟨master, next2, m2⟩, _, h⟩
  · refine compile_waves_no_timeout g hg hf _
      ((Task.empty .SEQUENTIAL).push_back start, next, m1) hinv.1 ?_ h
    right
    have := unvisited_count_le_length g m1
    simp only
    omega
  simp only at h
  rw [Res.bind_eq_timeout] at h
  rcases h with h | ⟨⟨master3, next3, m3⟩, _, h⟩
  · refine forEach_no_timeout (fun _ => True) _ _ _ trivial (fun _ _ _ _ _ _ => trivial) ?_ h
    intro b hb a _ hx
    split at hx
    · have := unvisited_count_le_length g a.2.2
      exact compile_block_no_timeout g hg _ _ _ hb (by omega) hx
    · simp at hx
  · simp at h

end Termination

section CompileClaims

/-- On a graph with a cycle whose dependants are blocks of the graph,
`compile_graph` ends by throwing a `FeedbackException`. -/
theorem compile_graph_cycle_feedback (g : GraphImpl) (c : List Nat) (marks : Marks)
    (hg : Closed g) (hc : IsCycle g c) :
    ∃ node root, compile_graph g marks = .feedback node root := by
  unfold compile_graph
  cases h : compile_graph_raw g marks with
  | ok r => exact absurd h (compile_graph_raw_cycle g hc marks r)
  | feedback n r => exact ⟨n, r, rfl⟩
  | timeout => exact absurd h (compile_graph_raw_no_timeout g hg marks)

theorem graph_two_cycle_closed : Closed graph_two_cycle := by
  unfold Closed
  decide

theorem graph_two_cycle_isCycle : IsCycle graph_two_cycle [0, 1] := by
  unfold IsCycle
  decide

theorem graph_self_loop_closed : Closed graph_self_loop := by
  unfold Closed
  decide

theorem graph_self_loop_isCycle : IsCycle graph_self_loop [0] := by
  unfold IsCycle
  decide

/-- C1 (the code departs from the claim): `graph_late_provider` is acyclic,
with providers and dependants mutually inverse (the order `0, 1, …, 5` is a
topological order of it), yet the task tree that `compile_graph` builds for
it, before and after simplification, lists block 5 before its provider 4,
so the in-order traversal is not a topological order. The same happens when
the addresses of the blocks, and with them the iteration order of every set,
are reversed (`graph_late_provider_rev`, where the block is at address 0 and
its provider at address 1). -/
theorem C1_late_provider_scheduled_early (marks : Marks) :
    is_consistent graph_late_provider = true ∧
    is_topological graph_late_provider [0, 1, 2, 3, 4, 5] = true ∧
    (∃ master m, compile_graph_raw graph_late_provider marks = .ok (master, m) ∧
      master.blocks = [0, 1, 2, 3, 5, 4]) ∧
    (∃ master m, compile_graph graph_late_provider marks = .ok (master, m) ∧
      master.blocks = [0, 1, 2, 3, 5, 4] ∧
      4 ∈ graph_late_provider.providers 5 ∧
      is_topological graph_late_provider master.blocks = false) ∧
    is_consistent graph_late_provider_rev = true ∧
    is_topological graph_late_provider_rev [5, 4, 3, 2, 1, 0] = true ∧
    (∃ master m, compile_graph graph_late_provider_rev marks = .ok (master, m) ∧
      master.blocks = [4, 5, 0, 3, 2, 1] ∧
      1 ∈ graph_late_provider_rev.providers 0 ∧
      is_topological graph_late_provider_rev master.blocks = false) := by
  refine ⟨by decide, by decide, ⟨_, _, rfl, by decide⟩,
    ⟨_, _, rfl, by decide, by decide, by decide⟩, by decide, by decide,
    ⟨_, _, rfl, by decide, by decide, by decide⟩⟩

/-- C2: on every graph whose dependency relation contains a directed cycle
`c` (a single block that is its own dependant included), `compile_graph`
throws a `FeedbackException` instead of producing a task tree, whatever
marks the blocks carried before. The graph is finite and the dependants of
its blocks are blocks of it. -/
theorem C2_cycle_raises_feedback (g : GraphImpl) (c : List Nat) (marks : Marks)
    (hg : Closed g) (hc : IsCycle g c) :
    ∃ node root, compile_graph g marks = .feedback node root :=
  compile_graph_cycle_feedback g c marks hg hc

/-- Instances of C2: a block that feeds itself, and two blocks that feed
each other. -/
theorem C2_cycle_raises_feedback_witness :
    (Closed graph_self_loop ∧ IsCycle graph_self_loop [0] ∧
      ∃ node root, compile_graph graph_self_loop (fun _ => .VISITED) = .feedback node root) ∧
    (Closed graph_two_cycle ∧ IsCycle graph_two_cycle [0, 1] ∧
      ∃ node root, compile_graph graph_two_cycle (fun _ => .VISITED) = .feedback node root) :=
  ⟨⟨graph_self_loop_closed, graph_self_loop_isCycle,
      C2_cycle_raises_feedback _ _ _ graph_self_loop_closed graph_self_loop_isCycle⟩,
    ⟨graph_two_cycle_closed, graph_two_cycle_isCycle,
      C2_cycle_raises_feedback _ _ _ graph_two_cycle_closed graph_two_cycle_isCycle⟩⟩

/-- C3: `CompiledGraph::compile` returns (it never lets a
`FeedbackException` escape), it returns the empty pointer exactly when
`compile_graph` throws a `FeedbackException`, and a pointer to the compiled
graph whenever `compile_graph` completes; for the graph of two blocks with
arcs a→b and b→a it returns the empty pointer. -/
theorem C3_compile_catches_feedback (g : GraphImpl) (marks : Marks) (hg : Closed g) :
    (∃ r, compile g marks = .ok r) ∧
    (∀ node root, compile g marks ≠ .feedback node root) ∧
    (compile g marks = .ok none ↔ ∃ node root, compile_graph g marks = .feedback node root) ∧
    (∀ master m, compile_graph g marks = .ok (master, m) → compile g marks = .ok (some master)) ∧
    compile graph_two_cycle marks = .ok none := by
  have hnt : compile_graph g marks ≠ .timeout := by
    unfold compile_graph
    intro h
    rw [Res.bind_eq_timeout] at h
    rcases h with h | ⟨⟨_, _⟩, _, h⟩
    · exact compile_graph_raw_no_timeout g hg marks h
    · simp at h
  have h2 : compile graph_two_cycle marks = .ok none := by
    obtain ⟨n, r, h⟩ := compile_graph_cycle_feedback graph_two_cycle [0, 1] marks
      graph_two_cycle_closed graph_two_cycle_isCycle
    unfold compile
    rw [h]
  refine ⟨?_, ?_, ?_, ?_, h2⟩
  · unfold compile
    cases h : compile_graph g marks with
    | ok r => exact ⟨_, rfl⟩
    | feedback n r => exact ⟨_, rfl⟩
    | timeout => exact absurd h hnt
  · intro n r
    unfold compile
    cases h : compile_graph g marks <;> simp
  · unfold compile
    cases h : compile_graph g marks <;> simp
  · intro master m h
    unfold compile
    rw [h]

/-- Instances of C3: `compile` returns for an acyclic graph, and returns the
empty pointer for two blocks that feed each other. -/
theorem C3_compile_catches_feedback_witness :
    Closed graph_late_provider ∧
    (∃ r, compile graph_late_provider (fun _ => .VISITED) = .ok r) ∧
    compile graph_two_cycle (fun _ => .VISITED) = .ok none :=
  have hg : Closed graph_late_provider := by unfold Closed; decide
  have h := C3_compile_catches_feedback graph_late_provider (fun _ => .VISITED) hg
  ⟨hg, h.1, h.2.2.2.2⟩

end CompileClaims

/-! ## Properties of the Move event -/

section Move

/-- When the test of `Move::pre_process` on the parent fails, the error is
`PARENT_DIFFERS` and the store is the one it was. -/
theorem move_parent_check_fails (store : Store) (old_path new_path : Path)
    (h : old_path.parent.is_parent_of new_path = false) :
    Move.pre_process store old_path new_path = (store, .PARENT_DIFFERS) := by
  unfold Move.pre_process
  simp [h]

/-- C4 (the code departs from the claim): `Move(/a/x, /b/x)` is refused with
`PARENT_DIFFERS` and leaves the store alone, and so is every move whose new
path does not start with the base of the old path's parent; but the new path
`/a/b/y`, whose parent `/a/b` differs from the parent `/a` of `/a/x`, passes
the test: `Move(/a/x, /a/b/y)` reports no error and re-keys `/a/x` and the
port below it to `/a/b/y` and `/a/b/y/in`. -/
theorem C4_move_below_sibling_accepted :
    Move.pre_process store_example (Path.of "/a/x") (Path.of "/b/x") =
      (store_example, .PARENT_DIFFERS) ∧
    (∀ (store : Store) (old_path new_path : Path),
      old_path.parent.is_parent_of new_path = false →
      Move.pre_process store old_path new_path = (store, .PARENT_DIFFERS)) ∧
    Path.parent (Path.of "/a/x") = Path.of "/a" ∧
    Path.parent (Path.of "/a/b/y") = Path.of "/a/b" ∧
    (Move.pre_process store_example (Path.of "/a/x") (Path.of "/a/b/y")).2 = .NO_ERROR ∧
    (Move.pre_process store_example (Path.of "/a/x") (Path.of "/a/b/y")).1 =
      [ (Path.of "/", ⟨0, Path.of "/"⟩), (Path.of "/a", ⟨1, Path.of "/a"⟩),
        (Path.of "/a/b", ⟨2, Path.of "/a/b"⟩), (Path.of "/a/b/y", ⟨3, Path.of "/a/b/y"⟩),
        (Path.of "/a/b/y/in", ⟨4, Path.of "/a/b/y/in"⟩), (Path.of "/b", ⟨5, Path.of "/b"⟩) ] :=
  ⟨by decide, move_parent_check_fails, by decide, by decide, by decide, by decide⟩

end Move

/-! ## Properties of the MidiNote allocator -/

section MidiNote

theorem loop_range_inv {σ : Type} (I : Nat → σ → Prop) (body : Nat → σ → σ) :
    ∀ (count start : Nat) (s : σ), I start s →
      (∀ j s, start ≤ j → j < start + count → I j s → I (j + 1) (body j s)) →
      I (start + count) (loop_range body count start s) := by
  intro count
  induction count with
  | zero => intro start s h _; simpa [loop_range] using h
  | succ count ih =>
    intro start s h hstep
    have h1 : I (start + 1) (body start s) := hstep start s (Nat.le_refl _) (by omega) h
    have := ih (start + 1) (body start s) h1
      (fun j s hj hj' hI => hstep j s (by omega) (by omega) hI)
    rw [show start + (count + 1) = start + 1 + count by omega]
    exact this

theorem upd_same {α : Type} (f : Nat → α) (i : Nat) (v : α) : upd f i v i = v := by
  simp [upd]

theorem upd_other {α : Type} (f : Nat → α) {i j : Nat} (v : α) (h : j ≠ i) :
    upd f i v j = f j := by
  simp [upd, h]

theorem find_free_from_some (voices : Nat → Voice) :
    ∀ (count i v : Nat), find_free_from voices count i = some v →
      i ≤ v ∧ v < i + count ∧ (voices v).state = .FREE ∧
      ∀ j, i ≤ j → j < v → (voices j).state ≠ .FREE := by
  intro count
  induction count with
  | zero => intro i v h; simp [find_free_from] at h
  | succ count ih =>
    intro i v h
    unfold find_free_from at h
    split at h
    · rename_i hf
      simp only [Option.some.injEq] at h
      subst h
      exact ⟨Nat.le_refl _, by omega, hf, fun j h1 h2 => by omega⟩
    · rename_i hf
      obtain ⟨h1, h2, h3, h4⟩ := ih (i + 1) v h
      refine ⟨by omega, by omega, h3, ?_⟩
      intro j hj hjv
      by_cases e : j = i
      · subst e; exact hf
      · exact h4 j (by omega) hjv

theorem find_free_from_none (voices : Nat → Voice) :
    ∀ (count i : Nat), find_free_from voices count i = none →
      ∀ j, i ≤ j → j < i + count → (voices j).state ≠ .FREE := by
  intro count
  induction count with
  | zero => intro i _ j h1 h2; omega
  | succ count ih =>
    intro i h j h1 h2
    unfold find_free_from at h
    split at h
    · simp at h
    · rename_i hf
      by_cases e : j = i
      · subst e; exact hf
      · exact ih (i + 1) h j (by omega) (by omega)

/-- The voice found by the second loop of `note_on` has the smallest time of
all voices, and is the lowest such voice. -/
theorem find_oldest_voice_spec (voices : Nat → Voice) (polyphony : Nat) (hp : 0 < polyphony) :
    (find_oldest_voice voices polyphony).1 < polyphony ∧
    (∀ i, i < polyphony →
      (voices (find_oldest_voice voices polyphony).1).time ≤ (voices i).time) ∧
    (∀ i, i < (find_oldest_voice voices polyphony).1 →
      (voices (find_oldest_voice voices polyphony).1).time < (voices i).time) := by
  have h := loop_range_inv
    (fun j (acc : Nat × Nat) => acc.2 = (voices acc.1).time ∧ acc.1 < j ∧
      (∀ i, i < j → acc.2 ≤ (voices i).time) ∧ (∀ i, i < acc.1 → acc.2 < (voices i).time))
    (fun i (acc : Nat × Nat) => if (voices i).time < acc.2 then (i, (voices i).time) else acc)
    (polyphony - 1) 1 (0, (voices 0).time)
    ⟨rfl, by omega, fun i hi => by
      have : i = 0 := by omega
      subst this; exact Nat.le_refl _, fun i hi => by simp at hi⟩
    (by
      intro j acc _ _ ⟨h1, h2, h3, h4⟩
      by_cases hlt : (voices j).time < acc.2
      · simp only [if_pos hlt]
        refine ⟨trivial, by omega, ?_, ?_⟩
        · intro i hi
          by_cases e : i = j
          · subst e; exact Nat.le_refl _
          · have := h3 i (by omega); omega
        · intro i hi
          have := h3 i hi; omega
      · simp only [if_neg hlt]
        refine ⟨h1, by omega, ?_, h4⟩
        intro i hi
        by_cases e : i = j
        · subst e; omega
        · exact h3 i (by omega))
  rw [show 1 + (polyphony - 1) = polyphony by omega] at h
  obtain ⟨h1, h2, h3, h4⟩ := h
  unfold find_oldest_voice
  refine ⟨h2, ?_, ?_⟩
  · intro i hi; rw [← h1]; exact h3 i hi
  · intro i hi; rw [← h1]; exact h4 i hi

/-- The key found by the loop of `free_voice`: none when no key is
unassigned, otherwise an unassigned key with the greatest time. -/
theorem find_replace_key_spec (keys : Nat → Key) :
    match find_replace_key keys with
    | none => ∀ i, i < 128 → (keys i).state ≠ .ON_UNASSIGNED
    | some r => r < 128 ∧ (keys r).state = .ON_UNASSIGNED ∧
        ∀ i, i < 128 → (keys i).state = .ON_UNASSIGNED → (keys i).time ≤ (keys r).time := by
  have h := loop_range_inv
    (fun j (acc : Option Nat) =>
      match acc with
      | none => ∀ i, i < j → (keys i).state ≠ .ON_UNASSIGNED
      | some r => r < j ∧ (keys r).state = .ON_UNASSIGNED ∧
          ∀ i, i < j → (keys i).state = .ON_UNASSIGNED → (keys i).time ≤ (keys r).time)
    (fun i (acc : Option Nat) =>
      if (keys i).state = .ON_UNASSIGNED then
        match acc with
        | none => some i
        | some r => if (keys i).time > (keys r).time then some i else some r
      else acc)
    128 0 none (by intro i hi; omega)
    (by
      intro j acc _ _ hI
      by_cases hu : (keys j).state = .ON_UNASSIGNED
      · simp only [hu, if_true]
        cases acc with
        | none =>
          simp only at hI ⊢
          refine ⟨by omega, hu, ?_⟩
          intro i hi hiu
          by_cases e : i = j
          · subst e; exact Nat.le_refl _
          · exact absurd hiu (hI i (by omega))
        | some r =>
          simp only at hI ⊢
          obtain ⟨h1, h2, h3⟩ := hI
          by_cases hgt : (keys j).time > (keys r).time
          · simp only [hgt, if_true]
            refine ⟨by omega, hu, ?_⟩
            intro i hi hiu
            by_cases e : i = j
            · subst e; exact Nat.le_refl _
            · have := h3 i (by omega) hiu; omega
          · simp only [hgt, if_false]
            refine ⟨by omega, h2, ?_⟩
            intro i hi hiu
            by_cases e : i = j
            · subst e; omega
            · exact h3 i (by omega) hiu
      · simp only [hu, if_false]
        cases acc with
        | none =>
          simp only at hI ⊢
          intro i hi
          by_cases e : i = j
          · subst e; exact hu
          · exact hI i (by omega)
        | some r =>
          simp only at hI ⊢
          obtain ⟨h1, h2, h3⟩ := hI
          refine ⟨by omega, h2, ?_⟩
          intro i hi hiu
          by_cases e : i = j
          · subst e; exact absurd hiu hu
          · exact h3 i (by omega) hiu)
  simpa [find_replace_key] using h

theorem choose_voice_spec (voices : Nat → Voice) (polyphony : Nat) (hp : 0 < polyphony) :
    choose_voice voices polyphony < polyphony ∧
    (((voices (choose_voice voices polyphony)).state = .FREE ∧
        ∀ i, i < choose_voice voices polyphony → (voices i).state ≠ .FREE) ∨
      ((∀ i, i < polyphony → (voices i).state ≠ .FREE) ∧
       (∀ i, i < polyphony →
          (voices (choose_voice voices polyphony)).time ≤ (voices i).time) ∧
       (∀ i, i < choose_voice voices polyphony →
          (voices (choose_voice voices polyphony)).time < (voices i).time))) := by
  unfold choose_voice find_free_voice
  cases h : find_free_from voices polyphony 0 with
  | some v =>
    obtain ⟨_, h2, h3, h4⟩ := find_free_from_some voices _ _ _ h
    exact ⟨by simpa using h2, Or.inl ⟨h3, fun i hi => h4 i (Nat.zero_le _) hi⟩⟩
  | none =>
    have hn := find_free_from_none voices _ _ h
    obtain ⟨h1, h2, h3⟩ := find_oldest_voice_spec voices polyphony hp
    exact ⟨h1, Or.inr ⟨fun i hi => hn i (Nat.zero_le _) (by simpa using hi), h2, h3⟩⟩

/-- The state of the node after `note_on` for a key that is off. -/
theorem note_on_off_key (n : MidiNoteNode) (k velocity t : Nat) (ctx : ProcessContext)
    (hk : (n._keys k).state = .OFF) :
    (note_on n k velocity t ctx)._keys =
      upd (if (n._voices (choose_voice n._voices n._polyphony)).state = .ACTIVE then
            upd n._keys (n._voices (choose_voice n._voices n._polyphony)).note
              { n._keys (n._voices (choose_voice n._voices n._polyphony)).note with
                state := .ON_UNASSIGNED }
          else n._keys) k
        { state := .ON_ASSIGNED, voice := choose_voice n._voices n._polyphony, time := t } ∧
    (note_on n k velocity t ctx)._voices =
      upd n._voices (choose_voice n._voices n._polyphony)
        { state := .ACTIVE, note := k, time := t } := by
  unfold note_on
  simp [hk]

theorem free_voice_voices (n : MidiNoteNode) (v t : Nat) (ctx : ProcessContext) :
    (free_voice n v t ctx)._voices =
      upd n._voices v
        (match find_replace_key n._keys with
          | some r => { n._voices v with note := r, state := .ACTIVE }
          | none => { n._voices v with state := .FREE }) := by
  unfold free_voice
  cases find_replace_key n._keys <;> rfl

theorem free_voice_gate (n : MidiNoteNode) (v t : Nat) (ctx : ProcessContext) :
    (free_voice n v t ctx)._gate_port =
      match find_replace_key n._keys with
      | some _ => n._gate_port
      | none => upd n._gate_port v
          (AudioBuffer.set n._buffer_size (n._gate_port v) .zero (sub32 t ctx.start)) := by
  unfold free_voice
  cases find_replace_key n._keys <;> rfl

theorem free_voice_fields (n : MidiNoteNode) (v t : Nat) (ctx : ProcessContext) :
    (free_voice n v t ctx)._polyphony = n._polyphony ∧
    (free_voice n v t ctx)._buffer_size = n._buffer_size ∧
    (free_voice n v t ctx)._sustain = n._sustain ∧
    (free_voice n v t ctx)._trig_port = n._trig_port := by
  unfold free_voice
  cases find_replace_key n._keys <;> exact ⟨rfl, rfl, rfl, rfl⟩

/-- C5 (as amended): for a node with at least one voice and a key `k` that
is off, `note_on` chooses the lowest free voice if a voice is free, and
otherwise the voice with the smallest time among all voices, active or
holding (the lowest one among equals); if the chosen voice was active and
playing another key, that key becomes unassigned, and no other key but `k`
changes; afterwards key `k` is assigned to the chosen voice with time `t`,
that voice is active with note `k` and time `t`, and the other voices are
as before. -/
theorem C5_note_on_allocates_or_steals (n : MidiNoteNode) (k velocity t : Nat)
    (ctx : ProcessContext) (hp : 0 < n._polyphony) (hk : (n._keys k).state = .OFF) :
    ∃ v, v < n._polyphony ∧
      (((n._voices v).state = .FREE ∧ ∀ i, i < v → (n._voices i).state ≠ .FREE) ∨
        ((∀ i, i < n._polyphony → (n._voices i).state ≠ .FREE) ∧
         (∀ i, i < n._polyphony → (n._voices v).time ≤ (n._voices i).time) ∧
         (∀ i, i < v → (n._voices v).time < (n._voices i).time))) ∧
      ((n._voices v).state = .ACTIVE → (n._voices v).note ≠ k →
        (note_on n k velocity t ctx)._keys (n._voices v).note =
          { n._keys (n._voices v).note with state := .ON_UNASSIGNED }) ∧
      (∀ j, j ≠ k → ¬ ((n._voices v).state = .ACTIVE ∧ j = (n._voices v).note) →
        (note_on n k velocity t ctx)._keys j = n._keys j) ∧
      (note_on n k velocity t ctx)._keys k = { state := .ON_ASSIGNED, voice := v, time := t } ∧
      (note_on n k velocity t ctx)._voices v = { state := .ACTIVE, note := k, time := t } ∧
      (∀ i, i ≠ v → (note_on n k velocity t ctx)._voices i = n._voices i) := by
  obtain ⟨hkeys, hvoices⟩ := note_on_off_key n k velocity t ctx hk
  obtain ⟨h1, h2⟩ := choose_voice_spec n._voices n._polyphony hp
  refine ⟨choose_voice n._voices n._polyphony, h1, h2, ?_, ?_, ?_, ?_, ?_⟩
  · intro ha hne
    rw [hkeys, upd_other _ _ hne, if_pos ha, upd_same]
  · intro j hj hna
    rw [hkeys, upd_other _ _ hj]
    split
    · rename_i ha
      exact upd_other _ _ (fun e => hna ⟨ha, e⟩)
    · rfl
  · rw [hkeys, upd_same]
  · rw [hvoices, upd_same]
  · intro i hi
    rw [hvoices, upd_other _ _ hi]

set_option maxRecDepth 1000000 in
/-- C5 as stated fails: in `node_holding` key 64 is off, no voice is free and
the only active voice, hence the active voice with the smallest time, is
voice 1 playing key 62; but `note_on(64)` takes the holding voice 0, voice 1
goes on playing 62 and key 62 stays assigned. -/
theorem C5_steals_holding_voice :
    (node_holding._keys 64).state = .OFF ∧
    (∀ i, i < node_holding._polyphony → (node_holding._voices i).state ≠ .FREE) ∧
    node_holding._voices 0 = { state := .HOLDING, note := 60, time := 0 } ∧
    node_holding._voices 1 = { state := .ACTIVE, note := 62, time := 5 } ∧
    (note_on node_holding 64 100 20 context_example)._voices 1 =
      { state := .ACTIVE, note := 62, time := 5 } ∧
    ((note_on node_holding 64 100 20 context_example)._keys 62).state = .ON_ASSIGNED ∧
    (note_on node_holding 64 100 20 context_example)._keys 64 =
      { state := .ON_ASSIGNED, voice := 0, time := 20 } ∧
    (∀ j, j < 128 →
      ((note_on node_holding 64 100 20 context_example)._keys j).state ≠ .ON_UNASSIGNED) := by
  decide

set_option maxRecDepth 1000000 in
/-- The scenarios of C5: with two voices the note-ons 60@0, 62@10, 64@20 end
with the voices playing 64 and 62 and key 60 unassigned; with one voice the
second note-on steals the voice. -/
theorem C5_note_on_allocates_or_steals_witness :
    (0 < node_two_notes._polyphony ∧ (node_two_notes._keys 64).state = .OFF ∧
      (note_on node_two_notes 64 100 20 context_example)._voices 0 =
        { state := .ACTIVE, note := 64, time := 20 } ∧
      (note_on node_two_notes 64 100 20 context_example)._voices 1 =
        { state := .ACTIVE, note := 62, time := 10 } ∧
      ((note_on node_two_notes 64 100 20 context_example)._keys 60).state = .ON_UNASSIGNED ∧
      ∃ v, v < node_two_notes._polyphony ∧
        (note_on node_two_notes 64 100 20 context_example)._voices v =
          { state := .ACTIVE, note := 64, time := 20 }) ∧
    (0 < node_one_note._polyphony ∧ (node_one_note._keys 62).state = .OFF ∧
      (note_on node_one_note 62 100 10 context_example)._voices 0 =
        { state := .ACTIVE, note := 62, time := 10 } ∧
      ((note_on node_one_note 62 100 10 context_example)._keys 60).state = .ON_UNASSIGNED) :=
  ⟨⟨by decide, by decide, by decide, by decide, by decide,
      (C5_note_on_allocates_or_steals node_two_notes 64 100 20 context_example
        (by decide) (by decide)).imp fun _ h => ⟨h.1, h.2.2.2.2.2.1⟩⟩,
    by decide, by decide, by decide, by decide⟩

/-- The state of the node after `note_off` with the pedal up, for a key
assigned to an active voice. -/
theorem note_off_free (n : MidiNoteNode) (k t : Nat) (ctx : ProcessContext)
    (hs : n._sustain = false) (hk : (n._keys k).state = .ON_ASSIGNED)
    (hv : (n._voices (n._keys k).voice).state = .ACTIVE) :
    note_off n k t ctx =
      { free_voice n (n._keys k).voice t ctx with
        _keys := upd (free_voice n (n._keys k).voice t ctx)._keys k
          { (free_voice n (n._keys k).voice t ctx)._keys k with state := .OFF } } := by
  unfold note_off
  simp [hs, hk, hv]

/-- With the pedal up, `note_off(k, t)` for a key `k` that is assigned to an
active voice `v` which plays `k` (the condition `note_off` asserts) ends
with key `k` off; if some key is unassigned, `v` is given to
an unassigned key `r` with the greatest time: `r` becomes assigned to `v`,
`v` stays active with note `r`, the frequency buffer of `v` is written from
frame `t` on and no gate or trigger buffer is written; if no key is
unassigned, `v` becomes free and its gate buffer is zero from frame `t` on
and unchanged before. -/
theorem note_off_reassigns_or_frees (n : MidiNoteNode) (k t : Nat) (ctx : ProcessContext)
    (hs : n._sustain = false) (hk : (n._keys k).state = .ON_ASSIGNED)
    (hv : (n._voices (n._keys k).voice).state = .ACTIVE)
    (hnote : (n._voices (n._keys k).voice).note = k) :
    ((note_off n k t ctx)._keys k).state = .OFF ∧
    ((∃ j, j < 128 ∧ (n._keys j).state = .ON_UNASSIGNED) →
      ∃ r, r < 128 ∧ (n._keys r).state = .ON_UNASSIGNED ∧
        (∀ j, j < 128 → (n._keys j).state = .ON_UNASSIGNED →
          (n._keys j).time ≤ (n._keys r).time) ∧
        (note_off n k t ctx)._keys r =
          { n._keys r with state := .ON_ASSIGNED, voice := (n._keys k).voice } ∧
        (note_off n k t ctx)._voices (n._keys k).voice =
          { n._voices (n._keys k).voice with state := .ACTIVE, note := r } ∧
        (note_off n k t ctx)._freq_port (n._keys k).voice =
          AudioBuffer.set n._buffer_size (n._freq_port (n._keys k).voice) (.freq r)
            (sub32 t ctx.start) ∧
        (note_off n k t ctx)._gate_port = n._gate_port ∧
        (note_off n k t ctx)._trig_port = n._trig_port) ∧
    ((∀ j, j < 128 → (n._keys j).state ≠ .ON_UNASSIGNED) →
      (note_off n k t ctx)._voices (n._keys k).voice =
        { n._voices (n._keys k).voice with state := .FREE } ∧
      (∀ i, sub32 t ctx.start ≤ i → i < n._buffer_size →
        (note_off n k t ctx)._gate_port (n._keys k).voice i = .zero) ∧
      (∀ i, i < sub32 t ctx.start →
        (note_off n k t ctx)._gate_port (n._keys k).voice i =
          n._gate_port (n._keys k).voice i)) := by
  rw [note_off_free n k t ctx hs hk hv]
  have hspec := find_replace_key_spec n._keys
  refine ⟨by simp [upd], ?_, ?_⟩
  · rintro ⟨j, hj, hju⟩
    cases hr : find_replace_key n._keys with
    | none =>
      rw [hr] at hspec
      exact absurd hju (hspec j hj)
    | some r =>
      rw [hr] at hspec
      obtain ⟨h1, h2, h3⟩ := hspec
      have hrk : r ≠ k := by
        intro e
        rw [e, hk] at h2
        cases h2
      refine ⟨r, h1, h2, h3, ?_, ?_, ?_, ?_, ?_⟩
      · show upd _ k _ r = _
        rw [upd_other _ _ hrk]
        unfold free_voice
        rw [hr]
        simp only
        rw [hnote, upd_other _ _ hrk, upd_same]
      · show (free_voice n (n._keys k).voice t ctx)._voices _ = _
        rw [free_voice_voices, hr, upd_same]
      · show (free_voice n (n._keys k).voice t ctx)._freq_port _ = _
        unfold free_voice
        rw [hr]
        simp only
        rw [upd_same]
      · show (free_voice n (n._keys k).voice t ctx)._gate_port = _
        rw [free_voice_gate, hr]
      · exact (free_voice_fields n _ t ctx).2.2.2
  · intro hnone
    cases hr : find_replace_key n._keys with
    | some r =>
      rw [hr] at hspec
      exact absurd hspec.2.1 (hnone r hspec.1)
    | none =>
      refine ⟨?_, ?_, ?_⟩
      · show (free_voice n (n._keys k).voice t ctx)._voices _ = _
        rw [free_voice_voices, hr, upd_same]
      · intro i h1 h2
        show (free_voice n (n._keys k).voice t ctx)._gate_port _ i = _
        rw [free_voice_gate, hr]
        simp only
        rw [upd_same]
        simp [AudioBuffer.set, h1, h2]
      · intro i h1
        show (free_voice n (n._keys k).voice t ctx)._gate_port _ i = _
        rw [free_voice_gate, hr]
        simp only
        rw [upd_same]
        have : ¬ sub32 t ctx.start ≤ i := by omega
        simp [AudioBuffer.set, this]

set_option maxRecDepth 1000000 in
/-- C6 (the code departs from the claim): `node_stale_key` is reached from
the initial state by eight events, the pedal is up, key 60 is assigned to the
active voice 0 and the only, hence the newest, unassigned key is 64. Voice 0
plays note 64, not key 60, against the condition `note_off` asserts. After
`note_off(60)` key 64 is still unassigned, and no key is assigned to
voice 0: the voice was not reassigned to the newest unassigned key. -/
theorem C6_stale_key_not_reassigned :
    node_stale_key._sustain = false ∧
    (node_stale_key._keys 60).state = .ON_ASSIGNED ∧
    (node_stale_key._keys 60).voice = 0 ∧
    (node_stale_key._voices 0).state = .ACTIVE ∧
    (node_stale_key._voices 0).note = 64 ∧
    (node_stale_key._keys 64).state = .ON_UNASSIGNED ∧
    (∀ j, j < 128 → (node_stale_key._keys j).state = .ON_UNASSIGNED → j = 64) ∧
    ((note_off node_stale_key 60 7 context_example)._keys 64).state = .ON_UNASSIGNED ∧
    (∀ j, j < 128 →
      ¬ (((note_off node_stale_key 60 7 context_example)._keys j).state = .ON_ASSIGNED ∧
        ((note_off node_stale_key 60 7 context_example)._keys j).voice = 0)) := by
  decide

set_option maxRecDepth 1000000 in
/-- An instance: after the note-ons 60@0, 62@10, 64@20 with two voices,
`note_off(64)` turns key 64 off and gives its voice to the unassigned key 60. -/
theorem note_off_reassigns_or_frees_example :
    node_three_notes._sustain = false ∧
    (node_three_notes._keys 64).state = .ON_ASSIGNED ∧
    (node_three_notes._voices (node_three_notes._keys 64).voice).state = .ACTIVE ∧
    (node_three_notes._voices (node_three_notes._keys 64).voice).note = 64 ∧
    ((note_off node_three_notes 64 30 context_example)._keys 64).state = .OFF ∧
    (note_off node_three_notes 64 30 context_example)._voices 0 =
      { state := .ACTIVE, note := 60, time := 20 } :=
  ⟨by decide, by decide, by decide, by decide,
    (note_off_reassigns_or_frees node_three_notes 64 30 context_example
      (by decide) (by decide) (by decide) (by decide)).1, by decide⟩

/-- The state of the node after `note_off` with the pedal down, for a key
assigned to an active voice. -/
theorem note_off_hold (n : MidiNoteNode) (k t : Nat) (ctx : ProcessContext)
    (hs : n._sustain = true) (hk : (n._keys k).state = .ON_ASSIGNED)
    (hv : (n._voices (n._keys k).voice).state = .ACTIVE) :
    note_off n k t ctx =
      { n with
        _voices := upd n._voices (n._keys k).voice
          { n._voices (n._keys k).voice with state := .HOLDING }
        _keys := upd n._keys k { n._keys k with state := .OFF } } := by
  unfold note_off
  simp [hs, hk, hv]

theorem free_voice_released (n : MidiNoteNode) (v t : Nat) (ctx : ProcessContext) :
    ((free_voice n v t ctx)._voices v).state = .ACTIVE ∨
    (((free_voice n v t ctx)._voices v).state = .FREE ∧
      ∀ i, sub32 t ctx.start ≤ i → i < n._buffer_size →
        (free_voice n v t ctx)._gate_port v i = .zero) := by
  rw [free_voice_voices, free_voice_gate]
  cases find_replace_key n._keys with
  | some r => left; rw [upd_same]
  | none =>
    right
    simp only
    rw [upd_same, upd_same]
    refine ⟨rfl, ?_⟩
    intro i h1 h2
    simp [AudioBuffer.set, h1, h2]

theorem free_voice_other (n : MidiNoteNode) (v t : Nat) (ctx : ProcessContext) {i : Nat}
    (h : i ≠ v) :
    (free_voice n v t ctx)._voices i = n._voices i ∧
    (free_voice n v t ctx)._gate_port i = n._gate_port i := by
  rw [free_voice_voices, free_voice_gate]
  cases find_replace_key n._keys with
  | some r => exact ⟨upd_other _ _ h, rfl⟩
  | none => exact ⟨upd_other _ _ h, upd_other _ _ h⟩

theorem sustain_off_inv (n : MidiNoteNode) (t : Nat) (ctx : ProcessContext) :
    SustainOffInv n t ctx n._polyphony (sustain_off n t ctx) := by
  have h := loop_range_inv (SustainOffInv n t ctx)
    (fun i (n : MidiNoteNode) =>
      if (n._voices i).state = .HOLDING then free_voice n i t ctx else n)
    n._polyphony 0 { n with _sustain := false }
    ⟨rfl, rfl, rfl, fun _ _ => rfl, fun _ _ => rfl, fun i hi => by omega⟩
    (by
      intro j s _ _ ⟨h1, h2, h3, h4, h5, h6⟩
      by_cases hh : (s._voices j).state = .HOLDING
      · simp only [hh, if_true]
        obtain ⟨f1, f2, f3, _⟩ := free_voice_fields s j t ctx
        refine ⟨f1.trans h1, f2.trans h2, f3.trans h3, ?_, ?_, ?_⟩
        · intro i hi
          rw [(free_voice_other s j t ctx (show i ≠ j by omega)).1]
          exact h4 i (by omega)
        · intro i hi
          have hij : i ≠ j := by
            intro e
            subst e
            rw [h4 i (Nat.le_refl _)] at hh
            exact hi hh
          rw [(free_voice_other s j t ctx hij).1]
          exact h5 i hi
        · intro i hi hhold
          by_cases e : i = j
          · subst e
            rw [← h2]
            exact free_voice_released s i t ctx
          · rw [(free_voice_other s j t ctx e).1, (free_voice_other s j t ctx e).2]
            exact h6 i (by omega) hhold
      · simp only [hh, if_false]
        refine ⟨h1, h2, h3, fun i hi => h4 i (by omega), h5, ?_⟩
        intro i hi hhold
        by_cases e : i = j
        · subst e
          rw [h4 i (Nat.le_refl _)] at hh
          exact absurd hhold hh
        · exact h6 i (by omega) hhold)
  simpa [sustain_off] using h

/-- C7: with the pedal down, `note_off` for a key assigned to an active
voice puts that voice on hold, writes no gate buffer and turns the key off;
and after `sustain_off`, from any state, the pedal is up, no voice below the
polyphony is holding: each voice that was holding went through `free_voice`
and is active, or free with its gate zero from frame `t` on; the voices that
were not holding are as before. -/
theorem C7_sustain_pedal (n : MidiNoteNode) (k t : Nat) (ctx : ProcessContext) :
    (n._sustain = true → (n._keys k).state = .ON_ASSIGNED →
      (n._voices (n._keys k).voice).state = .ACTIVE →
      (note_off n k t ctx)._voices (n._keys k).voice =
        { n._voices (n._keys k).voice with state := .HOLDING } ∧
      (∀ i, i ≠ (n._keys k).voice → (note_off n k t ctx)._voices i = n._voices i) ∧
      (note_off n k t ctx)._gate_port = n._gate_port ∧
      ((note_off n k t ctx)._keys k).state = .OFF) ∧
    (sustain_off n t ctx)._sustain = false ∧
    (∀ i, i < n._polyphony → ((sustain_off n t ctx)._voices i).state ≠ .HOLDING) ∧
    (∀ i, i < n._polyphony → (n._voices i).state = .HOLDING →
      ((sustain_off n t ctx)._voices i).state = .ACTIVE ∨
      (((sustain_off n t ctx)._voices i).state = .FREE ∧
        ∀ f, sub32 t ctx.start ≤ f → f < n._buffer_size →
          (sustain_off n t ctx)._gate_port i f = .zero)) ∧
    (∀ i, (n._voices i).state ≠ .HOLDING →
      (sustain_off n t ctx)._voices i = n._voices i) := by
  obtain ⟨_, _, h3, _, h5, h6⟩ := sustain_off_inv n t ctx
  refine ⟨?_, h3, ?_, h6, h5⟩
  · intro hs hk hv
    rw [note_off_hold n k t ctx hs hk hv]
    exact ⟨upd_same _ _ _, fun i hi => upd_other _ _ hi, rfl, by simp [upd]⟩
  · intro i hi hhold
    by_cases hn : (n._voices i).state = .HOLDING
    · rcases h6 i hi hn with h | ⟨h, _⟩ <;> rw [h] at hhold <;> cases hhold
    · rw [h5 i hn] at hhold
      exact hn hhold

set_option maxRecDepth 1000000 in
/-- An instance of C7: with the pedal down `note_off(60)` puts the voice of
key 60 on hold, and `sustain_off` leaves no voice on hold. -/
theorem C7_sustain_pedal_witness :
    node_sustained._sustain = true ∧ (node_sustained._keys 60).state = .ON_ASSIGNED ∧
    (node_sustained._voices (node_sustained._keys 60).voice).state = .ACTIVE ∧
    (note_off node_sustained 60 12 context_example)._voices (node_sustained._keys 60).voice =
      { node_sustained._voices (node_sustained._keys 60).voice with state := .HOLDING } ∧
    (∀ i, i < node_holding._polyphony →
      ((sustain_off node_holding 8 context_example)._voices i).state ≠ .HOLDING) ∧
    (sustain_off node_holding 8 context_example)._voices 0 =
      { state := .FREE, note := 60, time := 0 } :=
  ⟨by decide, by decide, by decide,
    ((C7_sustain_pedal node_sustained 60 12 context_example).1
      (by decide) (by decide) (by decide)).1,
    (C7_sustain_pedal node_holding 60 8 context_example).2.2.1, by decide⟩

end MidiNote

/-! ## Properties of buffers -/

section BufferMemory

theorem read_le_congr {m m' : Mem} :
    ∀ (n off : Nat), (∀ i, off ≤ i → i < off + n → m i = m' i) →
      read_le m off n = read_le m' off n := by
  intro n
  induction n with
  | zero => intro off _; rfl
  | succ n ih =>
    intro off h
    unfold read_le
    rw [h off (Nat.le_refl _) (by omega), ih (off + 1) (fun i h1 h2 => h i (by omega) (by omega))]

theorem read_le_lt (m : Mem) : ∀ (n off : Nat), read_le m off n < 256 ^ n := by
  intro n
  induction n with
  | zero => intro off; simp [read_le]
  | succ n ih =>
    intro off
    unfold read_le
    have := ih (off + 1)
    have h256 : m off % 256 < 256 := Nat.mod_lt _ (by decide)
    rw [Nat.pow_succ]
    omega

theorem write_le_outside (m : Mem) (off n v : Nat) {i : Nat} (h : ¬ (off ≤ i ∧ i < off + n)) :
    write_le m off n v i = m i := by
  simp [write_le, h]

theorem read_le_write_le (m : Mem) :
    ∀ (n off v : Nat), read_le (write_le m off n v) off n = v % 256 ^ n := by
  intro n
  induction n with
  | zero => intro off v; simp [read_le, Nat.mod_one]
  | succ n ih =>
    intro off v
    unfold read_le
    have h0 : write_le m off (n + 1) v off = v % 256 := by
      simp [write_le]
    have hrest : read_le (write_le m off (n + 1) v) (off + 1) n =
        read_le (write_le m (off + 1) n (v / 256)) (off + 1) n := by
      apply read_le_congr
      intro i h1 h2
      have e : i - off = (i - (off + 1)) + 1 := by omega
      simp only [write_le]
      rw [if_pos ⟨by omega, by omega⟩, if_pos ⟨h1, h2⟩, e, Nat.pow_succ, Nat.mul_comm,
        ← Nat.div_div_eq_div_mul]
    rw [h0, hrest, ih, Nat.mod_mod, Nat.pow_succ, Nat.mul_comm (256 ^ n) 256, Nat.mod_mul]

theorem read_u32_write_u32 (m : Mem) (off v : Nat) (hv : v < 2 ^ 32) :
    read_u32 (write_u32 m off v) off = v := by
  unfold read_u32 write_u32
  rw [read_le_write_le]
  exact Nat.mod_eq_of_lt (by simpa using hv)

theorem read_i64_write_i64 (m : Mem) (off : Nat) (v : Int)
    (h1 : -(2 ^ 63) ≤ v) (h2 : v < 2 ^ 63) :
    read_i64 (write_i64 m off v) off = v := by
  unfold read_i64 write_i64
  rw [read_le_write_le]
  have hlt : (v % 2 ^ 64).toNat < 256 ^ 8 := by
    have := Int.emod_lt_of_pos v (show (0 : Int) < 2 ^ 64 by norm_num)
    have := Int.emod_nonneg v (show (2 ^ 64 : Int) ≠ 0 by norm_num)
    omega
  rw [Nat.mod_eq_of_lt hlt]
  have hnn := Int.emod_nonneg v (show (2 ^ 64 : Int) ≠ 0 by norm_num)
  have hcast : ((v % 2 ^ 64).toNat : Int) = v % 2 ^ 64 := Int.toNat_of_nonneg hnn
  by_cases hv : 0 ≤ v
  · have e : v % 2 ^ 64 = v := Int.emod_eq_of_lt hv (by omega)
    have : (v % 2 ^ 64).toNat < 2 ^ 63 := by omega
    rw [if_pos this, hcast, e]
  · have e : v % 2 ^ 64 = v + 2 ^ 64 := by
      rw [← Int.add_emod_self]
      exact Int.emod_eq_of_lt (by omega) (by omega)
    have : ¬ (v % 2 ^ 64).toNat < 2 ^ 63 := by omega
    rw [if_neg this, hcast, e]
    omega

end BufferMemory

section Sequences

theorem lv2_atom_pad_size_ge {size : Nat} (h : size + 7 < 2 ^ 32) :
    size ≤ lv2_atom_pad_size size := by
  unfold lv2_atom_pad_size
  rw [Nat.mod_eq_of_lt h]
  omega

theorem lv2_atom_pad_size_le {size : Nat} (h : size + 7 < 2 ^ 32) :
    lv2_atom_pad_size size ≤ size + 7 := by
  unfold lv2_atom_pad_size
  rw [Nat.mod_eq_of_lt h]
  omega

theorem event_at_congr {m m' : Mem} {p : Nat}
    (h : ∀ i, p ≤ i → i < p + 16 + read_u32 m (p + 8) → m i = m' i) :
    event_at m p = event_at m' p := by
  have hsize : read_u32 m (p + 8) = read_u32 m' (p + 8) :=
    read_le_congr 4 (p + 8) (fun i h1 h2 => h i (by omega) (by omega))
  have hframes : read_i64 m p = read_i64 m' p := by
    unfold read_i64
    rw [read_le_congr 8 p (fun i h1 h2 => h i (by omega) (by omega))]
  have htype : read_u32 m (p + 12) = read_u32 m' (p + 12) :=
    read_le_congr 4 (p + 12) (fun i h1 h2 => h i (by omega) (by omega))
  have hbody : (List.range (read_u32 m (p + 8))).map (fun i => m (p + 16 + i) % 256) =
      (List.range (read_u32 m' (p + 8))).map (fun i => m' (p + 16 + i) % 256) := by
    rw [← hsize]
    apply List.map_congr_left
    intro i hi
    have hi' := List.mem_range.mp hi
    rw [h (p + 16 + i) (by omega) (by omega)]
  unfold event_at
  rw [hbody, hframes, htype, hsize]

theorem Walk.le {m : Mem} {stop p : Nat} {evs : List AtomEvent} (h : Walk m stop p evs) :
    p ≤ stop := by
  induction h with
  | done p h => omega
  | step p evs h _ _ _ => omega

theorem Walk.congr {m m' : Mem} {stop p : Nat} {evs : List AtomEvent}
    (h : Walk m stop p evs) (hm : ∀ i, p ≤ i → i < stop → m i = m' i) :
    Walk m' stop p evs := by
  induction h with
  | done p h => exact Walk.done p h
  | step p evs h hsize rest ih =>
    have hle := rest.le
    have hs : read_u32 m (p + 8) = read_u32 m' (p + 8) :=
      read_le_congr 4 (p + 8) (fun i h1 h2 => hm i (by omega) (by omega))
    have hev : event_at m p = event_at m' p :=
      event_at_congr (fun i h1 h2 => hm i h1 (by omega))
    rw [hev]
    refine Walk.step p evs h (hs ▸ hsize) ?_
    rw [← hs]
    exact ih (fun i h1 h2 => hm i (by omega) h2)

/-- A well-formed sequence stays well formed, with one more event, when its
body is extended by a well-formed event that follows it. -/
theorem Walk.extend {m : Mem} {stop p : Nat} {evs : List AtomEvent} (h : Walk m stop p evs)
    (hsize : read_u32 m (stop + 8) ≤ lv2_atom_pad_size (read_u32 m (stop + 8))) :
    Walk m (stop + 16 + lv2_atom_pad_size (read_u32 m (stop + 8))) p
      (evs ++ [event_at m stop]) := by
  induction h with
  | done p h =>
    subst h
    exact Walk.step p [] (by omega) hsize (Walk.done _ rfl)
  | step p evs h hs rest ih =>
    exact Walk.step p _ (by omega) hs ih

/-- The iteration over a well-formed sequence yields its events. -/
theorem Walk.events_from_eq {m : Mem} {stop p : Nat} {evs : List AtomEvent}
    (h : Walk m stop p evs) :
    ∀ fuel, stop - p ≤ 16 * fuel → Ingen.events_from m stop fuel p = evs := by
  induction h with
  | done p h =>
    intro fuel _
    cases fuel with
    | zero => rfl
    | succ fuel => unfold Ingen.events_from; simp [h]
  | step p evs h hs rest ih =>
    intro fuel hf
    cases fuel with
    | zero => omega
    | succ fuel =>
      unfold Ingen.events_from
      rw [if_neg (by omega), ih fuel (by omega)]

theorem Walk.seq_events_eq {m : Mem} {evs : List AtomEvent}
    (h : Walk m (8 + read_u32 m 0) 16 evs) : seq_events m = evs := by
  unfold Ingen.seq_events
  exact h.events_from_eq _ (by omega)

end Sequences

section AppendEvent

theorem memcpy_list_outside (m : Mem) (off : Nat) (data : List Nat) (n : Nat) {i : Nat}
    (h : ¬ (off ≤ i ∧ i < off + n)) : memcpy_list m off data n i = m i := by
  simp [memcpy_list, h]

theorem write_u32_outside (m : Mem) (off v : Nat) {i : Nat} (h : ¬ (off ≤ i ∧ i < off + 4)) :
    write_u32 m off v i = m i :=
  write_le_outside m off 4 v h

theorem write_i64_outside (m : Mem) (off : Nat) (v : Int) {i : Nat}
    (h : ¬ (off ≤ i ∧ i < off + 8)) : write_i64 m off v i = m i :=
  write_le_outside m off 8 _ h

theorem range_map_getD (data : List Nat) (hd : ∀ x ∈ data, x < 256) :
    (List.range data.length).map (fun i => data.getD i 0 % 256) = data := by
  apply List.ext_getElem
  · simp
  · intro i h1 h2
    simp only [List.getElem_map, List.getElem_range]
    rw [List.getD_eq_getElem _ _ h2]
    exact Nat.mod_eq_of_lt (hd _ (List.getElem_mem _))

theorem append_mem_before (m : Mem) (a ev : Nat) (frames : Int) (size type : Nat)
    (data : List Nat) {i : Nat} (h1 : 4 ≤ i) (h2 : i < ev) :
    append_mem m a ev frames size type data i = m i := by
  unfold append_mem
  rw [write_u32_outside _ _ _ (by omega), memcpy_list_outside _ _ _ _ (by omega),
    write_u32_outside _ _ _ (by omega), write_u32_outside _ _ _ (by omega),
    write_i64_outside _ _ _ (by omega)]

theorem append_mem_size (m : Mem) (a ev : Nat) (frames : Int) (size type : Nat)
    (data : List Nat) (h : a + (16 + lv2_atom_pad_size size) < 2 ^ 32) :
    read_u32 (append_mem m a ev frames size type data) 0 = a + (16 + lv2_atom_pad_size size) := by
  unfold append_mem
  exact read_u32_write_u32 _ _ _ h

/-- The event that `append_event` writes is the event it was given. -/
theorem append_mem_event (m : Mem) (a ev : Nat) (frames : Int) (size type : Nat)
    (data : List Nat) (hev : 4 ≤ ev) (hsize : size < 2 ^ 32) (htype : type < 2 ^ 32)
    (hf1 : -(2 ^ 63) ≤ frames) (hf2 : frames < 2 ^ 63)
    (hlen : data.length = size) (hdata : ∀ x ∈ data, x < 256) :
    event_at (append_mem m a ev frames size type data) ev =
      { frames := frames, size := size, type := type, body := data } := by
  have hframes : read_i64 (append_mem m a ev frames size type data) ev = frames := by
    refine Eq.trans ?_ (read_i64_write_i64 m ev frames hf1 hf2)
    have hle : read_le (append_mem m a ev frames size type data) ev 8 =
        read_le (write_i64 m ev frames) ev 8 := by
      apply read_le_congr
      intro i h1 h2
      unfold append_mem
      rw [write_u32_outside _ _ _ (by omega), memcpy_list_outside _ _ _ _ (by omega),
        write_u32_outside _ _ _ (by omega), write_u32_outside _ _ _ (by omega)]
    unfold read_i64
    rw [hle]
  have hsz : read_u32 (append_mem m a ev frames size type data) (ev + 8) = size := by
    refine Eq.trans ?_ (read_u32_write_u32 (write_i64 m ev frames) (ev + 8) size hsize)
    apply read_le_congr
    intro i h1 h2
    unfold append_mem
    rw [write_u32_outside _ _ _ (by omega), memcpy_list_outside _ _ _ _ (by omega),
      write_u32_outside _ _ _ (by omega)]
  have hty : read_u32 (append_mem m a ev frames size type data) (ev + 12) = type := by
    refine Eq.trans ?_
      (read_u32_write_u32 (write_u32 (write_i64 m ev frames) (ev + 8) size) (ev + 12) type htype)
    apply read_le_congr
    intro i h1 h2
    unfold append_mem
    rw [write_u32_outside _ _ _ (by omega), memcpy_list_outside _ _ _ _ (by omega)]
  have hbody : (List.range size).map
      (fun i => append_mem m a ev frames size type data (ev + 16 + i) % 256) = data := by
    have : (List.range size).map
        (fun i => append_mem m a ev frames size type data (ev + 16 + i) % 256) =
        (List.range data.length).map (fun i => data.getD i 0 % 256) := by
      rw [hlen]
      apply List.map_congr_left
      intro i hi
      have hi' := List.mem_range.mp hi
      unfold append_mem
      rw [write_u32_outside _ _ _ (by omega)]
      simp only [memcpy_list]
      have e : ev + 16 + i - (ev + 16) = i := by omega
      rw [if_pos ⟨by omega, by omega⟩, Nat.mod_mod, e]
    rw [this, range_map_getD data hdata]
  unfold event_at
  rw [hsz, hframes, hty, hbody]

theorem unchunk_capacity (u : URIs) (b : Buffer) : (b.unchunk u)._capacity = b._capacity := by
  unfold Buffer.unchunk Buffer.clear Buffer.with_mem
  split
  · split
    · rfl
    · split
      · rfl
      · split <;> rfl
  · rfl

theorem append_event_refused (u : URIs) (b : Buffer) (frames : Int) (size type : Nat)
    (data : List Nat)
    (h : 8 + (b.unchunk u).atom_size + lv2_atom_pad_size size > b._capacity) :
    b.append_event u frames size type data = (false, b.unchunk u) := by
  unfold Buffer.append_event
  simp only [unchunk_capacity]
  rw [if_pos h]

theorem append_event_accepted (u : URIs) (b : Buffer) (frames : Int) (size type : Nat)
    (data : List Nat)
    (h : ¬ 8 + (b.unchunk u).atom_size + lv2_atom_pad_size size > b._capacity) :
    b.append_event u frames size type data =
      (true,
        { (b.unchunk u).with_mem
            (append_mem (b.unchunk u).mem (b.unchunk u).atom_size
              ((8 + (b.unchunk u).atom_size) % 2 ^ 32) frames size type data) with
          _latest_event := frames }) := by
  unfold Buffer.append_event
  simp only [unchunk_capacity]
  rw [if_neg h]
  rfl

/-- An event that fits, header and padded body, into a well-formed sequence
is appended: the call returns true, the sequence is well formed again, its
events are the earlier ones followed by the new one, and the type of the
atom is as before. -/
theorem append_event_fits (u : URIs) (b : Buffer) (frames : Int) (size type : Nat)
    (data : List Nat) (m : Mem) (evs : List AtomEvent)
    (hbuf : (b.unchunk u)._buf = some m)
    (hwf : Walk m (8 + read_u32 m 0) 16 evs)
    (hfit : 8 + read_u32 m 0 + 16 + lv2_atom_pad_size size ≤ b._capacity)
    (hcap : b._capacity < 2 ^ 32) (hsize : size + 7 < 2 ^ 32) (htype : type < 2 ^ 32)
    (hf1 : -(2 ^ 63) ≤ frames) (hf2 : frames < 2 ^ 63)
    (hlen : data.length = size) (hdata : ∀ x ∈ data, x < 256) :
    ∃ m', b.append_event u frames size type data =
        (true, { b.unchunk u with _buf := some m', _latest_event := frames }) ∧
      read_u32 m' 0 = read_u32 m 0 + 16 + lv2_atom_pad_size size ∧
      read_u32 m' 4 = read_u32 m 4 ∧
      Walk m' (8 + read_u32 m' 0) 16
        (evs ++ [{ frames := frames, size := size, type := type, body := data }]) := by
  have hmem : (b.unchunk u).mem = m := by
    unfold Buffer.mem
    rw [hbuf]
    rfl
  have hatom : (b.unchunk u).atom_size = read_u32 m 0 := by
    unfold Buffer.atom_size
    rw [hmem]
  have hev : (8 + read_u32 m 0) % 2 ^ 32 = 8 + read_u32 m 0 := Nat.mod_eq_of_lt (by omega)
  have hacc := append_event_accepted u b frames size type data (by rw [hatom]; omega)
  rw [hmem, hatom, hev] at hacc
  refine ⟨append_mem m (read_u32 m 0) (8 + read_u32 m 0) frames size type data, ?_, ?_, ?_, ?_⟩
  · rw [hacc]
    unfold Buffer.with_mem
    rw [hbuf]
    rfl
  · rw [append_mem_size _ _ _ _ _ _ _ (by omega)]
    omega
  · apply read_le_congr
    intro i h1 h2
    exact append_mem_before _ _ _ _ _ _ _ (by omega) (by omega)
  · have hwalk : Walk (append_mem m (read_u32 m 0) (8 + read_u32 m 0) frames size type data)
        (8 + read_u32 m 0) 16 evs :=
      hwf.congr (fun i h1 h2 => (append_mem_before _ _ _ _ _ _ _ (by omega) h2).symm)
    have hevent := append_mem_event m (read_u32 m 0) (8 + read_u32 m 0) frames size type data
      (by omega) (by omega) htype hf1 hf2 hlen hdata
    have hsz : read_u32 (append_mem m (read_u32 m 0) (8 + read_u32 m 0) frames size type data)
        (8 + read_u32 m 0 + 8) = size := by
      have := congrArg AtomEvent.size hevent
      simpa [event_at] using this
    have hext := hwalk.extend (by rw [hsz]; exact lv2_atom_pad_size_ge hsize)
    rw [hsz, hevent] at hext
    rw [append_mem_size _ _ _ _ _ _ _ (by omega)]
    have e : 8 + (read_u32 m 0 + (16 + lv2_atom_pad_size size)) =
        8 + read_u32 m 0 + 16 + lv2_atom_pad_size size := by omega
    rw [e]
    exact hext

end AppendEvent

section BufferClaims

/-- C8 (as amended): when destination and source have the same type, both
have storage and the size of the source does not exceed the capacity of the
destination, `dst.copy(context, src)` makes the first `src.size` bytes of
the destination equal to those of the source and leaves the bytes behind
them alone, whatever the context; a destination without storage is left as
it is, whatever the source. -/
theorem C8_copy_same_type (u : URIs) (dst src : Buffer) (context : RunContext)
    (hd : dst._buf.isSome = true) (hs : src._buf.isSome = true) (ht : dst._type = src._type)
    (hsize : src.size u ≤ dst._capacity) :
    (∀ i, i < src.size u → (dst.copy u context src).byte i = src.byte i) ∧
    (∀ i, src.size u ≤ i → (dst.copy u context src).byte i = dst.byte i) ∧
    (∀ i, i < src.size u → ((dst.copy u context src).byte i).isSome = true) ∧
    (∀ (b : Buffer), b._buf = none → b.copy u context src = b) := by
  obtain ⟨d, hd'⟩ := Option.isSome_iff_exists.mp hd
  obtain ⟨s, hs'⟩ := Option.isSome_iff_exists.mp hs
  have hcopy : (dst.copy u context src)._buf = some (memcpy d 0 s 0 (src.size u)) := by
    unfold Buffer.copy
    simp [hd', ht, hsize, Buffer.with_mem, Buffer.mem, hs']
  refine ⟨?_, ?_, ?_, ?_⟩
  · intro i hi
    simp [Buffer.byte, hcopy, hs', memcpy, hi]
  · intro i hi
    have : ¬ i < src.size u := by omega
    simp [Buffer.byte, hcopy, hd', memcpy, this]
  · intro i _
    simp [Buffer.byte, hcopy]
  · intro b hb
    unfold Buffer.copy
    simp [hb]

/-- C8 as stated fails: an external audio buffer of 8 bytes that has no
storage yet and an audio buffer of 8 bytes have the same type and the size
of the source is the capacity of the destination, but the copy returns at
once: afterwards the destination still has no storage, and its first bytes
are not the bytes 7, 0, 0, 0, 9, 0, 0, 0 of the source. -/
theorem C8_copy_without_storage :
    (external_buffer 1 8)._type = (audio_buffer 7 9)._type ∧
    (audio_buffer 7 9).size uris_example ≤ (external_buffer 1 8)._capacity ∧
    (audio_buffer 7 9).byte 0 = some 7 ∧ (audio_buffer 7 9).byte 4 = some 9 ∧
    ((external_buffer 1 8).copy uris_example { offset := 0, nframes := 2 }
      (audio_buffer 7 9)).byte 0 = none ∧
    ¬ (∀ i, i < (audio_buffer 7 9).size uris_example →
      ((external_buffer 1 8).copy uris_example { offset := 0, nframes := 2 }
        (audio_buffer 7 9)).byte i = (audio_buffer 7 9).byte i) := by
  decide

/-- An instance of C8: a copy between two audio buffers of 8 bytes. -/
theorem C8_copy_same_type_witness :
    (audio_buffer 0 0)._buf.isSome = true ∧ (audio_buffer 7 9)._buf.isSome = true ∧
    (audio_buffer 0 0)._type = (audio_buffer 7 9)._type ∧
    (audio_buffer 7 9).size uris_example ≤ (audio_buffer 0 0)._capacity ∧
    ∀ i, i < (audio_buffer 7 9).size uris_example →
      ((audio_buffer 0 0).copy uris_example { offset := 0, nframes := 2 }
        (audio_buffer 7 9)).byte i = (audio_buffer 7 9).byte i :=
  ⟨by decide, by decide, by decide, by decide,
    (C8_copy_same_type uris_example (audio_buffer 0 0) (audio_buffer 7 9)
      { offset := 0, nframes := 2 } (by decide) (by decide) (by decide) (by decide)).1⟩

/-- C9 (as amended): `append_event` does not look at `frames` to decide its
result (that `frames` is not smaller than the latest event is asserted
only). After a Chunk has been cleared, it returns false, with the buffer
otherwise untouched, when the atom header, the size of the atom and the
padded size of the payload together exceed the capacity; and when the
sequence is well formed and the whole event, its 16-byte header included,
fits into the capacity, it returns true, the new event (frames, size, type,
payload) is the last event of the sequence, the earlier events are
unchanged, and `latest_event` is `frames`. -/
theorem C9_append_event (u : URIs) (b : Buffer) (frames : Int) (size type : Nat)
    (data : List Nat) (m : Mem) (evs : List AtomEvent)
    (hbuf : (b.unchunk u)._buf = some m)
    (hwf : Walk m (8 + read_u32 m 0) 16 evs)
    (hcap : b._capacity < 2 ^ 32) (hsize : size + 7 < 2 ^ 32) (htype : type < 2 ^ 32)
    (hf1 : -(2 ^ 63) ≤ frames) (hf2 : frames < 2 ^ 63)
    (hlen : data.length = size) (hdata : ∀ x ∈ data, x < 256) :
    (b.unchunk u).events = evs ∧
    (8 + read_u32 m 0 + lv2_atom_pad_size size > b._capacity →
      b.append_event u frames size type data = (false, b.unchunk u)) ∧
    (8 + read_u32 m 0 + 16 + lv2_atom_pad_size size ≤ b._capacity →
      (b.append_event u frames size type data).1 = true ∧
      (b.append_event u frames size type data).2.events =
        evs ++ [{ frames := frames, size := size, type := type, body := data }] ∧
      (b.append_event u frames size type data).2._latest_event = frames ∧
      (b.append_event u frames size type data).2._capacity = b._capacity ∧
      (b.append_event u frames size type data).2._type = (b.unchunk u)._type) := by
  have hmem : (b.unchunk u).mem = m := by
    unfold Buffer.mem
    rw [hbuf]
    rfl
  refine ⟨?_, ?_, ?_⟩
  · unfold Buffer.events
    rw [hmem]
    exact hwf.seq_events_eq
  · intro h
    apply append_event_refused
    unfold Buffer.atom_size
    rw [hmem]
    exact h
  · intro hfit
    obtain ⟨m', he, _, _, hw⟩ := append_event_fits u b frames size type data m evs hbuf hwf hfit
      hcap hsize htype hf1 hf2 hlen hdata
    rw [he]
    refine ⟨rfl, ?_, rfl, unchunk_capacity u b, rfl⟩
    exact hw.seq_events_eq

/-- C9 as stated fails: after an event at frame 10 the latest event is 10,
yet appending an event at frame 5 returns true and the event is stored
behind the event at frame 10. -/
theorem C9_earlier_frame_accepted :
    buffer_at_frame_10._latest_event = 10 ∧
    (buffer_at_frame_10.append_event uris_example 5 3 5 [128, 60, 0]).1 = true ∧
    (buffer_at_frame_10.append_event uris_example 5 3 5 [128, 60, 0]).2.events =
      [ { frames := 10, size := 3, type := 5, body := [144, 60, 100] },
        { frames := 5, size := 3, type := 5, body := [128, 60, 0] } ] := by
  decide

/-- Instances of C9: an event appended to an empty sequence of capacity 128,
and refused by one of capacity 16. -/
theorem C9_append_event_witness :
    ((sequence_buffer 128).append_event uris_example 10 3 5 [144, 60, 100]).1 = true ∧
    ((sequence_buffer 128).append_event uris_example 10 3 5 [144, 60, 100]).2.events =
      [{ frames := 10, size := 3, type := 5, body := [144, 60, 100] }] ∧
    (sequence_buffer 16).append_event uris_example 10 3 5 [144, 60, 100] =
      (false, (sequence_buffer 16).unchunk uris_example) :=
  have h128 := C9_append_event uris_example (sequence_buffer 128) 10 3 5 [144, 60, 100]
    ((sequence_buffer 128).unchunk uris_example).mem [] rfl (Walk.done 16 (by decide))
    (by decide) (by decide) (by decide) (by decide) (by decide) (by decide) (by decide)
  have h16 := C9_append_event uris_example (sequence_buffer 16) 10 3 5 [144, 60, 100]
    ((sequence_buffer 16).unchunk uris_example).mem [] rfl (Walk.done 16 (by decide))
    (by decide) (by decide) (by decide) (by decide) (by decide) (by decide) (by decide)
  ⟨(h128.2.2 (by decide)).1, (h128.2.2 (by decide)).2.1, h16.2.1 (by decide)⟩

/-- C10 (the code departs from the claim): a cleared sequence buffer of
capacity 48 accepts two MIDI events of three bytes. The second call returns
true although the buffer then holds 40 bytes and the event takes 24: the
test adds only the padded payload, 8 bytes, not the 16-byte header of the
event. Afterwards the atom header plus the atom size is 64, more than the
capacity. -/
theorem C10_append_exceeds_capacity :
    (sequence_buffer 48)._capacity = 48 ∧
    ((sequence_buffer 48).append_event uris_example 0 3 5 [144, 60, 100]).1 = true ∧
    8 + buffer_one_event.atom_size = 40 ∧
    (buffer_one_event.append_event uris_example 10 3 5 [144, 62, 100]).1 = true ∧
    8 + (buffer_one_event.append_event uris_example 10 3 5 [144, 62, 100]).2.atom_size = 64 ∧
    (buffer_one_event.append_event uris_example 10 3 5 [144, 62, 100]).2._capacity = 48 := by
  decide

end BufferClaims

/-! ## Series of appends -/

section AppendSeries

theorem read_u32_write_u32_other (m : Mem) (off off' v : Nat)
    (h : off' + 4 ≤ off ∨ off + 4 ≤ off') :
    read_u32 (write_u32 m off' v) off = read_u32 m off := by
  apply read_le_congr
  intro i h1 h2
  exact write_u32_outside _ _ _ (by omega)

/-- The iteration over the events has enough fuel: more fuel than the size of
the body, divided by the 16 bytes every step advances at least, yields the
same events. -/
theorem events_from_enough_fuel (m : Mem) (stop : Nat) :
    ∀ (fuel p k : Nat), stop - p ≤ 16 * fuel →
      events_from m stop (fuel + k) p = events_from m stop fuel p := by
  intro fuel
  induction fuel with
  | zero =>
    intro p k h
    cases k with
    | zero => rfl
    | succ k =>
      unfold events_from
      rw [if_pos (by omega)]
  | succ fuel ih =>
    intro p k h
    rw [show fuel + 1 + k = (fuel + k) + 1 by omega]
    unfold events_from
    by_cases hp : p ≥ stop
    · rw [if_pos hp, if_pos hp]
    · rw [if_neg hp, if_neg hp, ih _ _ (by omega)]

/-- The events of a sequence do not depend on the fuel of the model. -/
theorem seq_events_enough_fuel (m : Mem) (k : Nat) :
    events_from m (8 + read_u32 m 0) (read_u32 m 0 + k) 16 = seq_events m := by
  unfold seq_events
  exact events_from_enough_fuel m _ _ _ _ (by omega)

theorem unchunk_not_chunk (u : URIs) (b : Buffer) (h : b.atom_type ≠ u.atom_Chunk) :
    b.unchunk u = b := by
  unfold Buffer.unchunk
  rw [if_neg h]

theorem append_event_of_unchunk (u : URIs) (b1 b2 : Buffer) (frames : Int) (size type : Nat)
    (data : List Nat) (h : b1.unchunk u = b2.unchunk u) :
    b1.append_event u frames size type data = b2.append_event u frames size type data := by
  unfold Buffer.append_event
  rw [h]

/-- A call that returns false leaves the buffer as it is after a Chunk was
cleared. -/
theorem append_event_false (u : URIs) (b : Buffer) (frames : Int) (size type : Nat)
    (data : List Nat) (h : (b.append_event u frames size type data).1 = false) :
    (b.append_event u frames size type data).2 = b.unchunk u := by
  by_cases hc : 8 + (b.unchunk u).atom_size + lv2_atom_pad_size size > b._capacity
  · rw [append_event_refused u b frames size type data hc]
  · rw [append_event_accepted u b frames size type data hc] at h
    cases h

/-- An accepted event is appended to a well-formed sequence: the sequence is
well formed again, its events are the earlier ones followed by the new one,
and the type of the atom is as before. -/
theorem append_call_walk (u : URIs) (b : Buffer) (c : AppendCall) (m : Mem)
    (evs : List AtomEvent) (hbuf : b._buf = some m) (htype : read_u32 m 4 ≠ u.atom_Chunk)
    (hwf : Walk m (8 + read_u32 m 0) 16 evs) (hcap : b._capacity + 8 < 2 ^ 32)
    (hc : c.Valid) (hok : (b.append_call u c).1 = true) :
    ∃ m', (b.append_call u c).2 = { b with _buf := some m', _latest_event := c.frames } ∧
      read_u32 m' 4 = read_u32 m 4 ∧
      Walk m' (8 + read_u32 m' 0) 16 (evs ++ [c.event]) := by
  obtain ⟨hf1, hf2, hsize, hty, hlen, hdata⟩ := hc
  have hmem : b.mem = m := by
    unfold Buffer.mem
    rw [hbuf]
    rfl
  have hun : b.unchunk u = b := unchunk_not_chunk u b (by unfold Buffer.atom_type; rwa [hmem])
  have hatom : (b.unchunk u).atom_size = read_u32 m 0 := by
    rw [hun]
    unfold Buffer.atom_size
    rw [hmem]
  have hcheck : ¬ 8 + (b.unchunk u).atom_size + lv2_atom_pad_size c.size > b._capacity := by
    intro hgt
    unfold Buffer.append_call at hok
    rw [append_event_refused u b c.frames c.size c.type c.data hgt] at hok
    cases hok
  have hcheck' : 8 + read_u32 m 0 + lv2_atom_pad_size c.size ≤ b._capacity := by
    rw [hatom] at hcheck
    omega
  have hev : (8 + read_u32 m 0) % 2 ^ 32 = 8 + read_u32 m 0 := Nat.mod_eq_of_lt (by omega)
  have hacc := append_event_accepted u b c.frames c.size c.type c.data hcheck
  rw [hun, hmem] at hacc
  have hatom' : b.atom_size = read_u32 m 0 := by rw [← hatom, hun]
  rw [hatom', hev] at hacc
  refine ⟨append_mem m (read_u32 m 0) (8 + read_u32 m 0) c.frames c.size c.type c.data,
    ?_, ?_, ?_⟩
  · unfold Buffer.append_call
    rw [hacc]
    unfold Buffer.with_mem
    rw [hbuf]
    rfl
  · apply read_le_congr
    intro i h1 h2
    exact append_mem_before _ _ _ _ _ _ _ (by omega) (by omega)
  · have hwalk : Walk (append_mem m (read_u32 m 0) (8 + read_u32 m 0) c.frames c.size c.type
        c.data) (8 + read_u32 m 0) 16 evs :=
      hwf.congr (fun i h1 h2 => (append_mem_before _ _ _ _ _ _ _ (by omega) h2).symm)
    have hevent := append_mem_event m (read_u32 m 0) (8 + read_u32 m 0) c.frames c.size c.type
      c.data (by omega) (by omega) hty hf1 hf2 hlen hdata
    have hsz : read_u32 (append_mem m (read_u32 m 0) (8 + read_u32 m 0) c.frames c.size c.type
        c.data) (8 + read_u32 m 0 + 8) = c.size := by
      have := congrArg AtomEvent.size hevent
      simpa [event_at] using this
    have hext := hwalk.extend (by rw [hsz]; exact lv2_atom_pad_size_ge hsize)
    rw [hsz, hevent] at hext
    rw [append_mem_size _ _ _ _ _ _ _ (by omega)]
    have e : 8 + (read_u32 m 0 + (16 + lv2_atom_pad_size c.size)) =
        8 + read_u32 m 0 + 16 + lv2_atom_pad_size c.size := by omega
    rw [e]
    exact hext

/-- A series of accepted events is appended to a well-formed sequence in the
order of the calls; `_latest_event` ends as the frame of the last call. -/
theorem append_all_walk (u : URIs) :
    ∀ (cs : List AppendCall) (b : Buffer) (m : Mem) (evs : List AtomEvent),
      b._buf = some m → read_u32 m 4 ≠ u.atom_Chunk → Walk m (8 + read_u32 m 0) 16 evs →
      b._capacity + 8 < 2 ^ 32 → (∀ c ∈ cs, c.Valid) → b.accepts u cs = true →
      ∃ m', b.append_all u cs =
          { b with _buf := some m',
                   _latest_event := cs.foldl (fun _ c => c.frames) b._latest_event } ∧
        read_u32 m' 4 = read_u32 m 4 ∧
        Walk m' (8 + read_u32 m' 0) 16 (evs ++ cs.map AppendCall.event)
  | [], b, m, evs, hbuf, _, hwf, _, _, _ => by
    refine ⟨m, ?_, rfl, by simpa using hwf⟩
    unfold Buffer.append_all
    simp only [List.foldl_nil]
    rw [← hbuf]
  | c :: cs, b, m, evs, hbuf, htype, hwf, hcap, hv, hacc => by
    unfold Buffer.accepts at hacc
    rw [Bool.and_eq_true] at hacc
    obtain ⟨m1, h1, ht1, hw1⟩ := append_call_walk u b c m evs hbuf htype hwf hcap
      (hv c (List.mem_cons_self _ _)) hacc.1
    have hrest := hacc.2
    rw [h1] at hrest
    obtain ⟨m', h2, ht2, hw2⟩ := append_all_walk u cs
      { b with _buf := some m1, _latest_event := c.frames } m1 (evs ++ [c.event]) rfl
      (by rw [ht1]; exact htype) hw1 hcap (fun x hx => hv x (List.mem_cons_of_mem _ hx)) hrest
    refine ⟨m', ?_, by rw [ht2, ht1], ?_⟩
    · unfold Buffer.append_all
      rw [h1, h2]
      rfl
    · simpa using hw2

/-- The frames of a series of calls made in order do not decrease, from
`_latest_event` on. -/
theorem in_order_chain (u : URIs) :
    ∀ (cs : List AppendCall) (b : Buffer) (m : Mem) (evs : List AtomEvent),
      b._buf = some m → read_u32 m 4 ≠ u.atom_Chunk → Walk m (8 + read_u32 m 0) 16 evs →
      b._capacity + 8 < 2 ^ 32 → (∀ c ∈ cs, c.Valid) → b.accepts u cs = true →
      b.in_order u cs = true →
      List.Chain (fun x y => x ≤ y) b._latest_event (cs.map fun c => c.frames)
  | [], _, _, _, _, _, _, _, _, _, _ => List.Chain.nil
  | c :: cs, b, m, evs, hbuf, htype, hwf, hcap, hv, hacc, hord => by
    unfold Buffer.accepts at hacc
    rw [Bool.and_eq_true] at hacc
    unfold Buffer.in_order at hord
    rw [Bool.and_eq_true, decide_eq_true_eq] at hord
    obtain ⟨m1, h1, ht1, hw1⟩ := append_call_walk u b c m evs hbuf htype hwf hcap
      (hv c (List.mem_cons_self _ _)) hacc.1
    have hrest := hacc.2
    have hord2 := hord.2
    rw [h1] at hrest hord2
    have ih := in_order_chain u cs { b with _buf := some m1, _latest_event := c.frames } m1
      (evs ++ [c.event]) rfl (by rw [ht1]; exact htype) hw1 hcap
      (fun x hx => hv x (List.mem_cons_of_mem _ hx)) hrest hord2
    exact List.Chain.cons hord.1 ih

theorem last_frame_map_event (cs : List AppendCall) :
    last_frame (cs.map AppendCall.event) = cs.foldl (fun _ c => c.frames) 0 := by
  unfold last_frame
  induction cs using List.reverseRecOn with
  | nil => rfl
  | append_singleton cs c _ =>
    simp [List.getLast?_append, AppendCall.event]

/-- The storage of a sequence buffer after `clear()`: an empty sequence. -/
theorem clear_sequence (u : URIs) (hu : u.Valid) (b : Buffer) (m : Mem)
    (hseq : b._type = u.atom_Sequence) (hbuf : b._buf = some m) :
    ∃ m', b.clear u = { b with _buf := some m', _latest_event := 0 } ∧
      read_u32 m' 4 = u.atom_Sequence ∧ read_u32 m' 0 = 8 := by
  obtain ⟨_, _, hs, _, _, h1, _, h2, _, _⟩ := hu
  refine ⟨write_u32 (write_u32 (write_u32 (write_u32 m 4 u.atom_Sequence) 0 8) 8 0) 12 0,
    ?_, ?_, ?_⟩
  · unfold Buffer.clear Buffer.is_audio Buffer.is_control Buffer.is_sequence Buffer.with_mem
      Buffer.mem
    simp [hseq, hbuf, Ne.symm h1, Ne.symm h2]
  · rw [read_u32_write_u32_other _ _ _ _ (by omega), read_u32_write_u32_other _ _ _ _ (by omega),
      read_u32_write_u32_other _ _ _ _ (by omega), read_u32_write_u32 _ _ _ hs]
  · rw [read_u32_write_u32_other _ _ _ _ (by omega), read_u32_write_u32_other _ _ _ _ (by omega),
      read_u32_write_u32 _ _ _ (by norm_num)]

/-- The storage of a sequence buffer after `prepare_write()`: an empty
sequence. -/
theorem prepare_write_sequence (u : URIs) (hu : u.Valid) (b : Buffer) (m : Mem)
    (hseq : b._type = u.atom_Sequence) (hbuf : b._buf = some m) :
    ∃ m', b.prepare_write u = { b with _buf := some m', _latest_event := 0 } ∧
      read_u32 m' 4 = u.atom_Sequence ∧ read_u32 m' 0 = 8 := by
  obtain ⟨_, _, hs, _, _, h1, _, h2, _, _⟩ := hu
  refine ⟨write_u32 (write_u32 m 4 u.atom_Sequence) 0 8, ?_, ?_, ?_⟩
  · unfold Buffer.prepare_write Buffer.with_mem Buffer.mem
    simp [hseq, hbuf]
  · rw [read_u32_write_u32_other _ _ _ _ (by omega), read_u32_write_u32 _ _ _ hs]
  · rw [read_u32_write_u32 _ _ _ (by norm_num)]

/-- An empty sequence is well formed. -/
theorem walk_empty (m : Mem) (h : read_u32 m 0 = 8) : Walk m (8 + read_u32 m 0) 16 [] :=
  Walk.done 16 (by rw [h])

end AppendSeries

/-! ## The checks of `Move::pre_process` -/

section MoveChecks

/-- The iterator of `find` is the end of the store exactly when no entry has
the path. -/
theorem Store.find_eq_none_iff (s : Store) (p : Path) :
    s.find p = none ↔ ∀ e ∈ s, e.1 ≠ p := by
  unfold Store.find
  constructor
  · intro h e he hp
    by_cases hlt : List.findIdx (fun e => e.1 == p) s < s.length
    · simp [hlt] at h
    · apply hlt
      apply List.findIdx_lt_length_of_exists
      exact ⟨e, he, by simp [hp]⟩
  · intro h
    have : ¬ List.findIdx (fun e => e.1 == p) s < s.length := by
      intro hlt
      have := List.findIdx_getElem (w := hlt)
      simp only [beq_iff_eq] at this
      exact h _ (List.getElem_mem _) this
    simp [this]

/-- The object found by `find_object` exists exactly when an entry has the
path. -/
theorem Store.find_object_isSome_iff (s : Store) (p : Path) :
    (s.find_object p).isSome = true ↔ ∃ e ∈ s, e.1 = p := by
  unfold Store.find_object
  rw [Option.isSome_map', List.find?_isSome]
  constructor
  · rintro ⟨e, he, h⟩
    exact ⟨e, he, by simpa using h⟩
  · rintro ⟨e, he, h⟩
    exact ⟨e, he, by simpa using h⟩

/-- The character found by `find_last_of` is the one looked for. -/
theorem find_last_of_spec (c : Char) :
    ∀ (p : List Char) (i : Nat), find_last_of c p = some i →
      i < p.length ∧ p.take (i + 1) = p.take i ++ [c]
  | [], i, h => by simp [find_last_of] at h
  | x :: xs, i, h => by
    unfold find_last_of at h
    cases hrec : find_last_of c xs with
    | some j =>
      rw [hrec] at h
      simp only [Option.some.injEq] at h
      subst h
      have ih := find_last_of_spec c xs j hrec
      refine ⟨by simpa using ih.1, ?_⟩
      simp [List.take_succ_cons, ih.2]
    | none =>
      rw [hrec] at h
      by_cases hx : x = c
      · simp only [hx, if_true, Option.some.injEq] at h
        subst h
        simp [hx]
      · simp [hx] at h

/-- A character of the string is found by `find_last_of`. -/
theorem find_last_of_isSome (c : Char) :
    ∀ (p : List Char), c ∈ p → ∃ i, find_last_of c p = some i
  | [], h => by simp at h
  | x :: xs, h => by
    unfold find_last_of
    cases hrec : find_last_of c xs with
    | some j => exact ⟨j + 1, rfl⟩
    | none =>
      by_cases hx : x = c
      · exact ⟨0, by simp [hx]⟩
      · have hmem : c ∈ xs := by
          rcases List.mem_cons.1 h with h | h
          · exact absurd h.symm hx
          · exact h
        obtain ⟨i, hi⟩ := find_last_of_isSome c xs hmem
        rw [hi] at hrec
        cases hrec

/-- The parent of a path that has a slash is a parent of the path: the test
of `Move::pre_process` on the parent passes for a move of a path onto
itself. -/
theorem parent_is_parent_of_self (p : Path) (h : '/' ∈ p) :
    p.parent.is_parent_of p = true := by
  unfold Path.is_parent_of Path.is_child_of Path.parent
  by_cases hroot : p = ['/']
  · subst hroot
    decide
  · simp only [hroot, if_false]
    obtain ⟨i, hi⟩ := find_last_of_isSome '/' p h
    have hspec := find_last_of_spec '/' p i hi
    rw [hi]
    cases i with
    | zero =>
      simp only [Path.base, if_true, beq_iff_eq]
      simpa using hspec.2
    | succ j =>
      simp only [beq_iff_eq]
      unfold Path.base
      by_cases hr : List.take (j + 1) p = ['/']
      · rw [if_pos hr, hr]
        have h0 := hspec.2
        rw [hr] at h0
        have : List.take 1 p = List.take 1 (List.take (j + 1 + 1) p) := by
          rw [List.take_take]
          simp
        rw [show (['/'] : List Char).length = 1 from rfl, this, h0]
        rfl
      · rw [if_neg hr]
        have hlen : (List.take (j + 1) p ++ ['/']).length = j + 1 + 1 := by
          have := hspec.1
          simp only [List.length_append, List.length_take, List.length_cons, List.length_nil]
          omega
        rw [hlen]
        exact hspec.2

/-- C17: the checks of `Move::pre_process` are made in the order
`PARENT_DIFFERS`, `OBJECT_NOT_FOUND`, `OBJECT_EXISTS`, each ends the method
with that one error and the store as it was: when the test on the parent
fails the error is `PARENT_DIFFERS` whatever the store holds; when it passes
and no entry has the old path the error is `OBJECT_NOT_FOUND`; when it passes,
an entry has the old path and an entry has the new path the error is
`OBJECT_EXISTS`; a move of a path of the store onto itself passes the test on
the parent and ends with `OBJECT_EXISTS`; in the remaining case no error is
set. -/
theorem C17_move_checks_in_order (store : Store) (old_path new_path : Path) :
    (old_path.parent.is_parent_of new_path = false →
      Move.pre_process store old_path new_path = (store, .PARENT_DIFFERS)) ∧
    (old_path.parent.is_parent_of new_path = true → (∀ e ∈ store, e.1 ≠ old_path) →
      Move.pre_process store old_path new_path = (store, .OBJECT_NOT_FOUND)) ∧
    (old_path.parent.is_parent_of new_path = true → (∃ e ∈ store, e.1 = old_path) →
      (∃ e ∈ store, e.1 = new_path) →
      Move.pre_process store old_path new_path = (store, .OBJECT_EXISTS)) ∧
    ('/' ∈ old_path → (∃ e ∈ store, e.1 = old_path) →
      Move.pre_process store old_path old_path = (store, .OBJECT_EXISTS)) ∧
    (old_path.parent.is_parent_of new_path = true → (∃ e ∈ store, e.1 = old_path) →
      (∀ e ∈ store, e.1 ≠ new_path) →
      (Move.pre_process store old_path new_path).2 = .NO_ERROR) := by
  have exists_case : ∀ (o n : Path), o.parent.is_parent_of n = true →
      (∃ e ∈ store, e.1 = o) → (∃ e ∈ store, e.1 = n) →
      Move.pre_process store o n = (store, .OBJECT_EXISTS) := by
    intro o n hp ho hn
    unfold Move.pre_process
    simp only [hp, Bool.not_true, Bool.false_eq_true, if_false]
    cases hf : store.find o with
    | none =>
      obtain ⟨e, he, heq⟩ := ho
      exact absurd heq ((Store.find_eq_none_iff store o).1 hf e he)
    | some it =>
      simp only [(Store.find_object_isSome_iff store n).2 hn, if_true]
  refine ⟨move_parent_check_fails store old_path new_path, ?_, exists_case old_path new_path,
    ?_, ?_⟩
  · intro hp ho
    unfold Move.pre_process
    simp only [hp, Bool.not_true, Bool.false_eq_true, if_false]
    rw [(Store.find_eq_none_iff store old_path).2 ho]
  · intro hs ho
    exact exists_case old_path old_path (parent_is_parent_of_self old_path hs) ho ho
  · intro hp ho hn
    unfold Move.pre_process
    simp only [hp, Bool.not_true, Bool.false_eq_true, if_false]
    cases hf : store.find old_path with
    | none =>
      obtain ⟨e, he, heq⟩ := ho
      exact absurd heq ((Store.find_eq_none_iff store old_path).1 hf e he)
    | some it =>
      have : (store.find_object new_path).isSome = false := by
        cases h : (store.find_object new_path).isSome with
        | false => rfl
        | true =>
          obtain ⟨e, he, heq⟩ := (Store.find_object_isSome_iff store new_path).1 h
          exact absurd heq (hn e he)
      simp only [this, Bool.false_eq_true, if_false]

/-- C17 on the store of the examples: `Move(/b/x, /a/x)` with neither parent
matching nor the old path present is `PARENT_DIFFERS`; `Move(/a/y, /a/x)` is
`OBJECT_NOT_FOUND` although `/a/x` exists; `Move(/a/x, /a/b)` is
`OBJECT_EXISTS`; `Move(/a/x, /a/x)` is `OBJECT_EXISTS`; `Move(/a/x, /a/y)`
sets no error. -/
theorem C17_move_checks_in_order_witness :
    Move.pre_process store_example (Path.of "/b/x") (Path.of "/a/x") =
      (store_example, .PARENT_DIFFERS) ∧
    Move.pre_process store_example (Path.of "/a/y") (Path.of "/a/x") =
      (store_example, .OBJECT_NOT_FOUND) ∧
    Move.pre_process store_example (Path.of "/a/x") (Path.of "/a/b") =
      (store_example, .OBJECT_EXISTS) ∧
    Move.pre_process store_example (Path.of "/a/x") (Path.of "/a/x") =
      (store_example, .OBJECT_EXISTS) ∧
    (Move.pre_process store_example (Path.of "/a/x") (Path.of "/a/y")).2 = .NO_ERROR :=
  ⟨(C17_move_checks_in_order store_example (Path.of "/b/x") (Path.of "/a/x")).1 (by decide),
    (C17_move_checks_in_order store_example (Path.of "/a/y") (Path.of "/a/x")).2.1
      (by decide) (by decide),
    (C17_move_checks_in_order store_example (Path.of "/a/x") (Path.of "/a/b")).2.2.1
      (by decide) (by decide) (by decide),
    (C17_move_checks_in_order store_example (Path.of "/a/x") (Path.of "/a/y")).2.2.2.1
      (by decide) (by decide),
    (C17_move_checks_in_order store_example (Path.of "/a/x") (Path.of "/a/y")).2.2.2.2
      (by decide) (by decide) (by decide)⟩

/-- C18 (the code departs from the claim): the root `/` is its own parent in
Raul, so `Move(/, /b)` passes the test on the parent; `/` is in the store,
`/b` is not, and every key is the path of its object. `pre_process` reports
no error, and the loop cuts `old_path.length() + 1` characters, two, from
the paths `/ab` and `/cb` of the children of the root: both objects end at
the path `/b/b`. The number of entries is kept and the keys are still the
paths of the objects, but the former descendants `/ab`, `/cb` are not at
`/b/ab`, `/b/cb`, and two entries share one path. -/
theorem C18_move_root_collides :
    Path.parent (Path.of "/b") = Path.parent (Path.of "/") ∧
    (store_root_children.find (Path.of "/")).isSome = true ∧
    (store_root_children.find_object (Path.of "/b")).isSome = false ∧
    (∀ e ∈ store_root_children, e.1 = e.2.path) ∧
    Move.pre_process store_root_children (Path.of "/") (Path.of "/b") =
      ([ (Path.of "/b", ⟨0, Path.of "/b"⟩), (Path.of "/b/b", ⟨1, Path.of "/b/b"⟩),
         (Path.of "/b/b", ⟨2, Path.of "/b/b"⟩) ], .NO_ERROR) ∧
    ((Move.pre_process store_root_children (Path.of "/") (Path.of "/b")).1.find_object
      (Path.of "/b/ab")).isSome = false ∧
    ¬ ((Move.pre_process store_root_children (Path.of "/") (Path.of "/b")).1.map
      Prod.fst).Nodup := by
  decide

/-- C19 (the code departs from the claim): `/` and `/b` have the same parent
in Raul, `/` is in the store and `/b` is not. `Move(/, /b)` and then
`Move(/b, /)` both report no error, but the first move turns the child
`/foo` of the root into `/b/oo` and the second turns that into `/oo`: the
store after the round trip is not the original store. -/
theorem C19_round_trip_of_root :
    Path.parent (Path.of "/b") = Path.parent (Path.of "/") ∧
    (store_root_child.find (Path.of "/")).isSome = true ∧
    (store_root_child.find_object (Path.of "/b")).isSome = false ∧
    Move.pre_process store_root_child (Path.of "/") (Path.of "/b") =
      ([ (Path.of "/b", ⟨0, Path.of "/b"⟩), (Path.of "/b/oo", ⟨1, Path.of "/b/oo"⟩) ],
        .NO_ERROR) ∧
    Move.pre_process (Move.pre_process store_root_child (Path.of "/") (Path.of "/b")).1
        (Path.of "/b") (Path.of "/") =
      ([ (Path.of "/", ⟨0, Path.of "/"⟩), (Path.of "/oo", ⟨1, Path.of "/oo"⟩) ], .NO_ERROR) ∧
    (Move.pre_process (Move.pre_process store_root_child (Path.of "/") (Path.of "/b")).1
        (Path.of "/b") (Path.of "/")).1 ≠ store_root_child := by
  decide

end MoveChecks

/-! ## Sequences built by appending -/

section SequenceClaims

/-- C11: take a sequence buffer that has storage, clear it with `clear()` or
`prepare_write()`, and make any series of calls of `append_event` that all
return true, each with `frames` not smaller than `_latest_event` at the time
of the call. Then the events of the buffer are the events of the calls in
the order of the calls, their frames do not decrease in storage order, and
`_latest_event` is the frame of the last event, 0 when there is none. (The
capacity is such that the sizes stay within `uint32_t`.) -/
theorem C11_sequence_ordering (u : URIs) (hu : u.Valid) (b : Buffer) (cs : List AppendCall)
    (hseq : b._type = u.atom_Sequence) (hbuf : b._buf.isSome = true)
    (hcap : b._capacity + 8 < 2 ^ 32) (hvalid : ∀ c ∈ cs, c.Valid) :
    ∀ b0, b0 = b.clear u ∨ b0 = b.prepare_write u →
      b0.accepts u cs = true → b0.in_order u cs = true →
      (b0.append_all u cs).events = cs.map AppendCall.event ∧
      (b0.append_all u cs).events.Pairwise (fun e1 e2 => e1.frames ≤ e2.frames) ∧
      (b0.append_all u cs)._latest_event = last_frame (b0.append_all u cs).events := by
  intro b0 hb0 hacc hord
  obtain ⟨m, hm⟩ := Option.isSome_iff_exists.mp hbuf
  have hstart : ∃ m0, b0 = { b with _buf := some m0, _latest_event := 0 } ∧
      read_u32 m0 4 = u.atom_Sequence ∧ read_u32 m0 0 = 8 := by
    rcases hb0 with h | h
    · rw [h]
      exact clear_sequence u hu b m hseq hm
    · rw [h]
      exact prepare_write_sequence u hu b m hseq hm
  obtain ⟨m0, hb, ht0, hs0⟩ := hstart
  have hne : read_u32 m0 4 ≠ u.atom_Chunk := by
    rw [ht0]
    exact hu.2.2.2.2.2.2.2.2.2
  have hbuf0 : b0._buf = some m0 := by rw [hb]
  have hcap0 : b0._capacity + 8 < 2 ^ 32 := by rw [hb]; exact hcap
  have hl0 : b0._latest_event = 0 := by rw [hb]
  obtain ⟨m', hall, _, hw⟩ := append_all_walk u cs b0 m0 [] hbuf0 hne (walk_empty m0 hs0) hcap0
    hvalid hacc
  have hchain := in_order_chain u cs b0 m0 [] hbuf0 hne (walk_empty m0 hs0) hcap0 hvalid hacc hord
  have hev : (b0.append_all u cs).events = cs.map AppendCall.event := by
    unfold Buffer.events Buffer.mem
    rw [hall]
    simpa using hw.seq_events_eq
  refine ⟨hev, ?_, ?_⟩
  · rw [hev, List.pairwise_map]
    have hp := List.chain_iff_pairwise.1 hchain
    have hp' := (List.pairwise_cons.1 hp).2
    rw [List.pairwise_map] at hp'
    exact hp'
  · rw [hev, last_frame_map_event, hall, hl0]

/-- An instance of C11: three MIDI events at the frames 0, 10, 10 appended
to a cleared buffer of 128 bytes. -/
theorem C11_sequence_ordering_witness :
    ((sequence_buffer 128).clear uris_example).accepts uris_example calls_example = true ∧
    ((sequence_buffer 128).clear uris_example).in_order uris_example calls_example = true ∧
    (((sequence_buffer 128).clear uris_example).append_all uris_example calls_example).events =
      calls_example.map AppendCall.event ∧
    (((sequence_buffer 128).clear uris_example).append_all uris_example
      calls_example)._latest_event = 10 :=
  have h := C11_sequence_ordering uris_example (by decide) (sequence_buffer 128) calls_example
    (by decide) (by decide) (by decide) (by decide) ((sequence_buffer 128).clear uris_example)
    (Or.inl rfl) (by decide) (by decide)
  ⟨by decide, by decide, h.1, h.2.2.trans (by rw [h.1]; decide)⟩

/-- After a refused call the buffer is the cleared buffer, and stays so over
further refused calls. -/
theorem refused_series (u : URIs) (k : Buffer) (hk : k.unchunk u = k) :
    ∀ (rs : List AppendCall) (b1 : Buffer), b1.unchunk u = k → b1.refuses u rs = true →
      (b1.append_all u rs).unchunk u = k
  | [], _, h, _ => h
  | c :: rs, b1, h, hr => by
    unfold Buffer.refuses at hr
    rw [Bool.and_eq_true, Bool.not_eq_true'] at hr
    have h2 : (b1.append_call u c).2 = k := by
      unfold Buffer.append_call
      rw [append_event_false u b1 c.frames c.size c.type c.data hr.1, h]
    unfold Buffer.append_all
    have hr2 := hr.2
    rw [h2] at hr2 ⊢
    exact refused_series u k hk rs k hk hr2

/-- C16: `prepare_output_write` turns a sequence buffer into a Chunk that
fills the capacity. Whatever calls of `append_event` were refused since, the
first call that returns true leaves a buffer whose atom has type Sequence
and whose only event is the event of that call; and every series of later
calls that return true adds its events behind that event, in order. -/
theorem C16_chunk_cleared_on_first_append (u : URIs) (hu : u.Valid) (b : Buffer)
    (rs : List AppendCall) (c : AppendCall) (cs : List AppendCall)
    (hseq : b._type = u.atom_Sequence) (hbuf : b._buf.isSome = true)
    (hcap : b._capacity + 8 < 2 ^ 32) (hc : c.Valid) (hcs : ∀ x ∈ cs, x.Valid)
    (hrs : (b.prepare_output_write u).refuses u rs = true)
    (hok : (((b.prepare_output_write u).append_all u rs).append_call u c).1 = true) :
    (b.prepare_output_write u).atom_type = u.atom_Chunk ∧
    (8 ≤ b._capacity → 8 + (b.prepare_output_write u).atom_size = b._capacity) ∧
    (((b.prepare_output_write u).append_all u rs).append_call u c).2.atom_type =
      u.atom_Sequence ∧
    (((b.prepare_output_write u).append_all u rs).append_call u c).2.events = [c.event] ∧
    ((((b.prepare_output_write u).append_all u rs).append_call u c).2.accepts u cs = true →
      ((((b.prepare_output_write u).append_all u rs).append_call u c).2.append_all u
        cs).atom_type = u.atom_Sequence ∧
      ((((b.prepare_output_write u).append_all u rs).append_call u c).2.append_all u
        cs).events = c.event :: cs.map AppendCall.event) := by
  obtain ⟨m, hm⟩ := Option.isSome_iff_exists.mp hbuf
  have hchunk : u.atom_Chunk < 2 ^ 32 := hu.2.2.2.1
  have hneq : u.atom_Sequence ≠ u.atom_Chunk := hu.2.2.2.2.2.2.2.2.2
  have hP : b.prepare_output_write u =
      { b with _buf := some (write_u32 (write_u32 m 4 u.atom_Chunk) 0
                  ((b._capacity + 2 ^ 32 - 8) % 2 ^ 32)),
               _latest_event := 0 } := by
    unfold Buffer.prepare_output_write Buffer.with_mem Buffer.mem
    simp [hseq, hm]
  have hPtype : (b.prepare_output_write u).atom_type = u.atom_Chunk := by
    rw [hP]
    unfold Buffer.atom_type Buffer.mem
    simp only [Option.getD_some]
    rw [read_u32_write_u32_other _ _ _ _ (by omega), read_u32_write_u32 _ _ _ hchunk]
  have hPsize : (b.prepare_output_write u).atom_size = (b._capacity + 2 ^ 32 - 8) % 2 ^ 32 := by
    rw [hP]
    unfold Buffer.atom_size Buffer.mem
    simp only [Option.getD_some]
    rw [read_u32_write_u32 _ _ _ (Nat.mod_lt _ (by norm_num))]
  obtain ⟨mK, hK, hKt, hKs⟩ := clear_sequence u hu (b.prepare_output_write u) _
    (by rw [hP]; exact hseq) (by rw [hP])
  have hun : (b.prepare_output_write u).unchunk u = (b.prepare_output_write u).clear u := by
    unfold Buffer.unchunk
    rw [if_pos hPtype]
  have hKK : ((b.prepare_output_write u).clear u).unchunk u =
      (b.prepare_output_write u).clear u := by
    apply unchunk_not_chunk
    rw [hK]
    unfold Buffer.atom_type Buffer.mem
    simp only [Option.getD_some]
    rw [hKt]
    exact hneq
  have hb1 := refused_series u _ hKK rs (b.prepare_output_write u) hun hrs
  have hcall : ((b.prepare_output_write u).append_all u rs).append_call u c =
      ((b.prepare_output_write u).clear u).append_call u c := by
    unfold Buffer.append_call
    exact append_event_of_unchunk u _ _ _ _ _ _ (hb1.trans hKK.symm)
  rw [hcall] at hok ⊢
  have hKbuf : ((b.prepare_output_write u).clear u)._buf = some mK := by rw [hK]
  have hKcap : ((b.prepare_output_write u).clear u)._capacity + 8 < 2 ^ 32 := by
    rw [hK, hP]
    exact hcap
  have hKne : read_u32 mK 4 ≠ u.atom_Chunk := by rw [hKt]; exact hneq
  obtain ⟨m1, h1, ht1, hw1⟩ := append_call_walk u _ c mK [] hKbuf hKne (walk_empty mK hKs) hKcap
    hc hok
  have hb1buf : (((b.prepare_output_write u).clear u).append_call u c).2._buf = some m1 := by
    rw [h1]
  have hb1cap : (((b.prepare_output_write u).clear u).append_call u c).2._capacity + 8 <
      2 ^ 32 := by
    rw [h1]
    exact hKcap
  refine ⟨hPtype, ?_, ?_, ?_, ?_⟩
  · intro h8
    rw [hPsize]
    have e : b._capacity + 2 ^ 32 - 8 = (b._capacity - 8) + 2 ^ 32 := by omega
    rw [e, Nat.add_mod_right, Nat.mod_eq_of_lt (by omega)]
    omega
  · unfold Buffer.atom_type Buffer.mem
    rw [hb1buf]
    simp only [Option.getD_some]
    rw [ht1, hKt]
  · unfold Buffer.events Buffer.mem
    rw [hb1buf]
    simpa using hw1.seq_events_eq
  · intro hacc
    obtain ⟨m2, h2, ht2, hw2⟩ := append_all_walk u cs _ m1 ([] ++ [c.event]) hb1buf
      (by rw [ht1]; exact hKne) hw1 hb1cap hcs hacc
    have hbuf2 : ((((b.prepare_output_write u).clear u).append_call u c).2.append_all u
        cs)._buf = some m2 := by rw [h2]
    constructor
    · unfold Buffer.atom_type Buffer.mem
      rw [hbuf2]
      simp only [Option.getD_some]
      rw [ht2, ht1, hKt]
    · unfold Buffer.events Buffer.mem
      rw [hbuf2]
      simpa using hw2.seq_events_eq

/-- An instance of C16: a buffer of 48 bytes with arbitrary contents is
prepared for output; an event of 40 bytes is refused; the first MIDI event
accepted is then the only event, and a second one follows it. -/
theorem C16_chunk_cleared_on_first_append_witness :
    (raw_sequence_buffer.prepare_output_write uris_example).atom_type = 4 ∧
    (((raw_sequence_buffer.prepare_output_write uris_example).append_all uris_example
      [large_call]).append_call uris_example
        { frames := 0, size := 3, type := 5, data := [144, 60, 100] }).2.events =
      [{ frames := 0, size := 3, type := 5, body := [144, 60, 100] }] ∧
    ((((raw_sequence_buffer.prepare_output_write uris_example).append_all uris_example
      [large_call]).append_call uris_example
        { frames := 0, size := 3, type := 5, data := [144, 60, 100] }).2.append_all uris_example
          [{ frames := 10, size := 3, type := 5, data := [128, 60, 0] }]).events =
      [{ frames := 0, size := 3, type := 5, body := [144, 60, 100] },
       { frames := 10, size := 3, type := 5, body := [128, 60, 0] }] :=
  have h := C16_chunk_cleared_on_first_append uris_example (by decide) raw_sequence_buffer
    [large_call] { frames := 0, size := 3, type := 5, data := [144, 60, 100] }
    [{ frames := 10, size := 3, type := 5, data := [128, 60, 0] }]
    (by decide) (by decide) (by decide) (by decide) (by decide) (by decide) (by decide)
  ⟨h.1, h.2.2.2.1, (h.2.2.2.2 (by decide)).2⟩

end SequenceClaims

/-! ## The next value event -/

section NextValue

/-- The loop of `next_value_offset` returns the frame of the first event, in
storage order, that passes its test. -/
theorem next_value_event_some (value_type offset stop : Nat) :
    ∀ (evs : List AtomEvent) (frames : Int),
      next_value_event value_type offset stop evs = some frames →
      ∃ pre ev post, evs = pre ++ ev :: post ∧ ev.frames = frames ∧
        ((offset : Int) < ev.frames ∧ ev.frames < (stop : Int) ∧ ev.type = value_type) ∧
        ∀ e ∈ pre, ¬ ((offset : Int) < e.frames ∧ e.frames < (stop : Int) ∧ e.type = value_type)
  | [], _, h => by simp [next_value_event] at h
  | e :: evs, frames, h => by
    unfold next_value_event at h
    by_cases hc : e.frames > (offset : Int) ∧ e.frames < (stop : Int) ∧ e.type = value_type
    · rw [if_pos hc] at h
      refine ⟨[], e, evs, rfl, Option.some.inj h, hc, ?_⟩
      intro x hx
      cases hx
    · rw [if_neg hc] at h
      obtain ⟨pre, ev, post, h1, h2, h3, h4⟩ := next_value_event_some value_type offset stop evs
        frames h
      refine ⟨e :: pre, ev, post, by rw [h1]; rfl, h2, h3, ?_⟩
      intro x hx
      rcases List.mem_cons.1 hx with hx | hx
      · rw [hx]
        exact hc
      · exact h4 x hx

/-- The loop of `next_value_offset` finds nothing exactly when no event
passes its test. -/
theorem next_value_event_none (value_type offset stop : Nat) :
    ∀ (evs : List AtomEvent),
      next_value_event value_type offset stop evs = none ↔
      ∀ e ∈ evs, ¬ ((offset : Int) < e.frames ∧ e.frames < (stop : Int) ∧ e.type = value_type)
  | [] => by simp [next_value_event]
  | e :: evs => by
    unfold next_value_event
    by_cases hc : e.frames > (offset : Int) ∧ e.frames < (stop : Int) ∧ e.type = value_type
    · rw [if_pos hc]
      constructor
      · intro h
        cases h
      · intro h
        exact absurd hc (h e (List.mem_cons_self _ _))
    · rw [if_neg hc, next_value_event_none value_type offset stop evs]
      constructor
      · intro h x hx
        rcases List.mem_cons.1 hx with hx | hx
        · rw [hx]
          exact hc
        · exact h x hx
      · intro h x hx
        exact h x (List.mem_cons_of_mem _ hx)

/-- C12: `next_value_offset(offset, end)` (here `stop` is `end`). For a
sequence buffer with a value type whose events are sorted by frame: if some
event has the value type and a frame `f` with `offset < f < end`, the result
is the frame of such an event and no such event has a smaller frame;
otherwise the result is `end`. For a buffer that is not a sequence or has no
value type the result is `end`. In every case the result is at most `end`
and, when it is not `end`, greater than `offset`. -/
theorem C12_next_value_offset (u : URIs) (b : Buffer) (offset stop : Nat)
    (hstop : stop < 2 ^ 32) :
    (b._type = u.atom_Sequence → b._value_type ≠ 0 →
      b.events.Pairwise (fun e1 e2 => e1.frames ≤ e2.frames) →
      ((∃ ev ∈ b.events, ev.type = b._value_type ∧ (offset : Int) < ev.frames ∧
          ev.frames < (stop : Int)) →
        ∃ ev ∈ b.events, ev.type = b._value_type ∧ (offset : Int) < ev.frames ∧
          ev.frames < (stop : Int) ∧ (b.next_value_offset u offset stop : Int) = ev.frames ∧
          ∀ e ∈ b.events, e.type = b._value_type → (offset : Int) < e.frames →
            e.frames < (stop : Int) → ev.frames ≤ e.frames) ∧
      ((∀ ev ∈ b.events, ¬ (ev.type = b._value_type ∧ (offset : Int) < ev.frames ∧
          ev.frames < (stop : Int))) →
        b.next_value_offset u offset stop = stop)) ∧
    (¬ (b._type = u.atom_Sequence ∧ b._value_type ≠ 0) →
      b.next_value_offset u offset stop = stop) ∧
    b.next_value_offset u offset stop ≤ stop ∧
    (b.next_value_offset u offset stop ≠ stop → offset < b.next_value_offset u offset stop) := by
  have hconv : ∀ (f : Int), (offset : Int) < f → f < (stop : Int) →
      (((f % 2 ^ 32).toNat : Nat) : Int) = f := by
    intro f h1 h2
    have h0 : 0 ≤ f := by omega
    have e : f % 2 ^ 32 = f := Int.emod_eq_of_lt h0 (by omega)
    rw [e]
    exact Int.toNat_of_nonneg h0
  refine ⟨?_, ?_, ?_, ?_⟩
  · intro hseq hvt hsorted
    constructor
    · rintro ⟨ev0, hev0, ht0, ho0, hs0⟩
      cases hn : next_value_event b._value_type offset stop b.events with
      | none =>
        exact absurd ⟨ho0, hs0, ht0⟩
          ((next_value_event_none b._value_type offset stop b.events).1 hn ev0 hev0)
      | some frames =>
        obtain ⟨pre, ev, post, h1, h2, h3, h4⟩ :=
          next_value_event_some b._value_type offset stop b.events frames hn
        refine ⟨ev, by rw [h1]; simp, h3.2.2, h3.1, h3.2.1, ?_, ?_⟩
        · unfold Buffer.next_value_offset
          rw [if_pos ⟨hseq, hvt⟩, hn]
          simp only
          rw [← h2]
          exact hconv ev.frames h3.1 h3.2.1
        · intro e he het heo hes
          rw [h1] at he hsorted
          rcases List.mem_append.1 he with hpre | hrest
          · exact absurd ⟨heo, hes, het⟩ (h4 e hpre)
          · rcases List.mem_cons.1 hrest with heq | hpost
            · rw [heq]
            · have hp := (List.pairwise_append.1 hsorted).2.1
              exact (List.pairwise_cons.1 hp).1 e hpost
    · intro hnone
      have hn : next_value_event b._value_type offset stop b.events = none :=
        (next_value_event_none b._value_type offset stop b.events).2
          (fun e he hc => hnone e he ⟨hc.2.2, hc.1, hc.2.1⟩)
      unfold Buffer.next_value_offset
      rw [if_pos ⟨hseq, hvt⟩, hn]
  · intro h
    unfold Buffer.next_value_offset
    rw [if_neg h]
  · unfold Buffer.next_value_offset
    split
    · cases hn : next_value_event b._value_type offset stop b.events with
      | none => exact Nat.le_refl _
      | some frames =>
        obtain ⟨pre, ev, post, h1, h2, h3, h4⟩ :=
          next_value_event_some b._value_type offset stop b.events frames hn
        have := hconv ev.frames h3.1 h3.2.1
        rw [h2] at this
        simp only
        have h5 := h3.2.1
        rw [h2] at h5
        omega
    · exact Nat.le_refl _
  · unfold Buffer.next_value_offset
    split
    · cases hn : next_value_event b._value_type offset stop b.events with
      | none =>
        intro h
        exact absurd rfl h
      | some frames =>
        obtain ⟨pre, ev, post, h1, h2, h3, h4⟩ :=
          next_value_event_some b._value_type offset stop b.events frames hn
        have := hconv ev.frames h3.1 h3.2.1
        rw [h2] at this
        simp only
        have h5 := h3.1
        rw [h2] at h5
        intro _
        omega
    · intro h
      exact absurd rfl h

/-- An instance of C12 on the sequence with Float events at the frames 1 and
2: after offset 0 and before 4 the next value event is at frame 1, after
offset 1 at frame 2, after offset 2 there is none and the result is the end;
a buffer without value type gives the end. -/
theorem C12_next_value_offset_witness :
    float_sequence.next_value_offset uris_example 0 4 = 1 ∧
    float_sequence.next_value_offset uris_example 1 4 = 2 ∧
    float_sequence.next_value_offset uris_example 2 4 = 4 ∧
    buffer_one_event.next_value_offset uris_example 0 4 = 4 :=
  ⟨by decide, by decide,
    (C12_next_value_offset uris_example float_sequence 2 4 (by decide)).1 (by decide)
      (by decide) (by decide) |>.2 (by decide),
    (C12_next_value_offset uris_example buffer_one_event 0 4 (by decide)).2.1 (by decide)⟩

end NextValue

/-! ## Copies between buffers of different types -/

section CopyTypes

theorem read_le_shift {m m' : Mem} :
    ∀ (n off off' : Nat), (∀ k, k < n → m (off + k) = m' (off' + k)) →
      read_le m off n = read_le m' off' n := by
  intro n
  induction n with
  | zero => intro off off' _; rfl
  | succ n ih =>
    intro off off' h
    unfold read_le
    have h0 := h 0 (by omega)
    simp only [Nat.add_zero] at h0
    rw [h0, ih (off + 1) (off' + 1) (fun k hk => by
      have := h (k + 1) (by omega)
      rw [show off + 1 + k = off + (k + 1) by omega, show off' + 1 + k = off' + (k + 1) by omega]
      exact this)]

theorem read_u32_lt (m : Mem) (off : Nat) : read_u32 m off < 2 ^ 32 := by
  have := read_le_lt m 4 off
  unfold read_u32
  norm_num at this ⊢
  exact this

theorem set_block_outside (m : Mem) (val start stop : Nat) {j : Nat}
    (h : ¬ (4 * start ≤ j ∧ j < 4 * stop)) : set_block m val start stop j = m j := by
  simp [set_block, h]

/-- A sample inside the block written by `set_block` has the value written. -/
theorem set_block_inside (m : Mem) (val start stop i : Nat) (hv : val < 2 ^ 32)
    (h1 : start ≤ i) (h2 : i < stop) : read_u32 (set_block m val start stop) (4 * i) = val := by
  have e : read_u32 (set_block m val start stop) (4 * i) =
      read_le (write_le m (4 * i) 4 val) (4 * i) 4 := by
    apply read_le_congr
    intro j hj1 hj2
    have hmod : j % 4 = j - 4 * i := by omega
    simp only [set_block, write_le]
    rw [if_pos ⟨by omega, by omega⟩, if_pos ⟨hj1, hj2⟩, hmod]
  rw [e, read_le_write_le]
  exact Nat.mod_eq_of_lt (by norm_num; exact hv)

/-- A sample outside the block written by `set_block` is as it was. -/
theorem set_block_other (m : Mem) (val start stop i : Nat) (h : ¬ (start ≤ i ∧ i < stop)) :
    read_u32 (set_block m val start stop) (4 * i) = read_u32 m (4 * i) := by
  apply read_le_congr
  intro j hj1 hj2
  exact set_block_outside m val start stop (by omega)

theorem signal_value_cons (F : Nat) (e : AtomEvent × Nat) (evs : List (AtomEvent × Nat))
    (v i : Nat) :
    signal_value F (e :: evs) v i =
      signal_value F evs (if e.1.type = F ∧ e.1.frames ≤ (i : Int) then e.2 else v) i := rfl

/-- Before the first event the signal has the initial value. -/
theorem signal_value_before (F : Nat) :
    ∀ (evs : List (AtomEvent × Nat)) (v i : Nat), (∀ e ∈ evs, (i : Int) < e.1.frames) →
      signal_value F evs v i = v
  | [], _, _, _ => rfl
  | e :: evs, v, i, h => by
    rw [signal_value_cons]
    have h1 := h e (List.mem_cons_self _ _)
    rw [if_neg (by omega)]
    exact signal_value_before F evs v i (fun x hx => h x (List.mem_cons_of_mem _ hx))

/-- The loop of `render_sequence` followed by its last `write_block`: over
events sorted by frame that lie between the current offset `o` and the end
`E`, the samples from `o` up to `E` get the values of the signal, and no
byte outside them is written. -/
theorem render_events_spec (F E : Nat) (hE : E < 2 ^ 32) :
    ∀ (evs : List (AtomEvent × Nat)) (m : Mem) (value o : Nat),
      evs.Pairwise (fun a b => a.1.frames ≤ b.1.frames) →
      (∀ e ∈ evs, (o : Int) ≤ e.1.frames ∧ e.1.frames < (E : Int)) →
      o ≤ E → value < 2 ^ 32 → (∀ e ∈ evs, e.2 < 2 ^ 32) →
      (∀ i, o ≤ i → i < E →
        read_u32 (set_block (render_events F evs (m, value, o)).1
          (render_events F evs (m, value, o)).2.1 (render_events F evs (m, value, o)).2.2 E)
          (4 * i) = signal_value F evs value i) ∧
      (∀ j, ¬ (4 * o ≤ j ∧ j < 4 * E) →
        set_block (render_events F evs (m, value, o)).1
          (render_events F evs (m, value, o)).2.1 (render_events F evs (m, value, o)).2.2 E j =
          m j)
  | [], m, value, o, _, _, _, hv, _ => by
    refine ⟨?_, ?_⟩
    · intro i h1 h2
      exact set_block_inside m value o E i hv h1 h2
    · intro j hj
      exact set_block_outside m value o E hj
  | e :: evs, m, value, o, hsorted, hwin, hoE, hv, hvals => by
    have hs := List.pairwise_cons.1 hsorted
    have he := hwin e (List.mem_cons_self _ _)
    have hvals' : ∀ x ∈ evs, x.2 < 2 ^ 32 := fun x hx => hvals x (List.mem_cons_of_mem _ hx)
    by_cases hc : e.1.frames ≥ (o : Int) ∧ e.1.type = F
    · have hr : render_events F (e :: evs) (m, value, o) =
          render_events F evs
            (set_block m value o (e.1.frames % 2 ^ 32).toNat, e.2,
              (e.1.frames % 2 ^ 32).toNat) := by
        rw [render_events, if_pos hc]
      have h0 : 0 ≤ e.1.frames := by omega
      have hmod : e.1.frames % 2 ^ 32 = e.1.frames := Int.emod_eq_of_lt h0 (by omega)
      have hf : (((e.1.frames % 2 ^ 32).toNat : Nat) : Int) = e.1.frames := by
        rw [hmod]
        exact Int.toNat_of_nonneg h0
      generalize (e.1.frames % 2 ^ 32).toNat = f at hr hf
      have ih := render_events_spec F E hE evs (set_block m value o f) e.2 f hs.2
        (fun x hx => ⟨by have := hs.1 x hx; omega, (hwin x (List.mem_cons_of_mem _ hx)).2⟩)
        (by omega) (hvals e (List.mem_cons_self _ _)) hvals'
      rw [hr]
      refine ⟨?_, ?_⟩
      · intro i h1 h2
        rw [signal_value_cons]
        by_cases hfi : f ≤ i
        · rw [if_pos ⟨hc.2, by omega⟩]
          exact ih.1 i hfi h2
        · rw [if_neg (by omega)]
          rw [signal_value_before F evs value i (fun x hx => by have := hs.1 x hx; omega)]
          have e1 : read_u32 (set_block (render_events F evs (set_block m value o f, e.2, f)).1
              (render_events F evs (set_block m value o f, e.2, f)).2.1
              (render_events F evs (set_block m value o f, e.2, f)).2.2 E) (4 * i) =
              read_u32 (set_block m value o f) (4 * i) := by
            apply read_le_congr
            intro j hj1 hj2
            exact ih.2 j (by omega)
          rw [e1]
          exact set_block_inside m value o f i hv h1 (by omega)
      · intro j hj
        rw [ih.2 j (by omega)]
        exact set_block_outside m value o f (by omega)
    · have hr : render_events F (e :: evs) (m, value, o) = render_events F evs (m, value, o) := by
        rw [render_events, if_neg hc]
      have ih := render_events_spec F E hE evs m value o hs.2
        (fun x hx => hwin x (List.mem_cons_of_mem _ hx)) hoE hv hvals'
      rw [hr]
      refine ⟨?_, ih.2⟩
      intro i h1 h2
      rw [signal_value_cons, if_neg (fun h => hc ⟨he.1, h.1⟩)]
      exact ih.1 i h1 h2

theorem valued_events_from_fst (m : Mem) (stop : Nat) :
    ∀ (fuel p : Nat),
      (valued_events_from m stop fuel p).map Prod.fst = events_from m stop fuel p
  | 0, _ => rfl
  | fuel + 1, p => by
    unfold valued_events_from events_from
    by_cases hp : p ≥ stop
    · rw [if_pos hp, if_pos hp]
      rfl
    · rw [if_neg hp, if_neg hp, List.map_cons, valued_events_from_fst m stop fuel]

theorem valued_events_from_lt (m : Mem) (stop : Nat) :
    ∀ (fuel p : Nat), ∀ e ∈ valued_events_from m stop fuel p, e.2 < 2 ^ 32
  | 0, _, e, h => by simp [valued_events_from] at h
  | fuel + 1, p, e, h => by
    unfold valued_events_from at h
    by_cases hp : p ≥ stop
    · rw [if_pos hp] at h
      cases h
    · rw [if_neg hp] at h
      rcases List.mem_cons.1 h with h | h
      · rw [h]
        exact read_u32_lt m (p + 16)
      · exact valued_events_from_lt m stop fuel _ e h

/-- The events of a buffer are the events of its valued events. -/
theorem valued_events_fst (b : Buffer) : b.valued_events.map Prod.fst = b.events :=
  valued_events_from_fst _ _ _ _

theorem value_bits_lt (b : Buffer) : b.value_bits < 2 ^ 32 := by
  unfold Buffer.value_bits
  cases b._value_buffer with
  | none => norm_num
  | some v => exact read_u32_lt v 8

/-- C13 (as amended): the destination is an audio buffer that has storage,
the source a sequence buffer with value type Float whose events are sorted by
frame and lie in the window from `context.offset` up to `context.offset +
context.nframes`. After `dst.copy(context, src)` every sample of the window
has the value of the piecewise-constant signal: the float of the last event
of type Float with a frame not after the sample, or the current value of the
source (`0.0f` if it has none) when there is no such event; the bytes of the
samples outside the window are as they were. A destination without storage
is left as it is. -/
theorem C13_render_sequence (u : URIs) (hu : u.Valid) (dst src : Buffer) (context : RunContext)
    (hd : dst._buf.isSome = true) (hda : dst._type = u.atom_Sound)
    (hss : src._type = u.atom_Sequence) (hvt : src._value_type = u.atom_Float)
    (hsorted : src.events.Pairwise (fun e1 e2 => e1.frames ≤ e2.frames))
    (hwin : ∀ ev ∈ src.events, (context.offset : Int) ≤ ev.frames ∧
      ev.frames < ((context.offset + context.nframes : Nat) : Int))
    (hend : context.offset + context.nframes < 2 ^ 32) :
    (∀ i, context.offset ≤ i → i < context.offset + context.nframes →
      (dst.copy u context src).sample_at u i =
        some (signal_value u.atom_Float src.valued_events src.value_bits i)) ∧
    (∀ j, ¬ (4 * context.offset ≤ j ∧ j < 4 * (context.offset + context.nframes)) →
      (dst.copy u context src).byte j = dst.byte j) ∧
    (∀ (b : Buffer), b._buf = none → b.copy u context src = b) := by
  obtain ⟨d, hd'⟩ := Option.isSome_iff_exists.mp hd
  obtain ⟨_, _, _, _, hsf, hsq, _, hfq, _, _⟩ := hu
  have hcopy : dst.copy u context src = dst.render_sequence u context src := by
    unfold Buffer.copy Buffer.is_audio Buffer.is_control Buffer.is_sequence
    simp [hd', hda, hss, hvt, hsq, hsf, Ne.symm hfq]
  have hsorted' : src.valued_events.Pairwise (fun a b => a.1.frames ≤ b.1.frames) := by
    have := hsorted
    rw [← valued_events_fst, List.pairwise_map] at this
    exact this
  have hwin' : ∀ e ∈ src.valued_events, (context.offset : Int) ≤ e.1.frames ∧
      e.1.frames < ((context.offset + context.nframes : Nat) : Int) := by
    intro e he
    apply hwin
    rw [← valued_events_fst]
    exact List.mem_map_of_mem _ he
  have hspec := render_events_spec u.atom_Float (context.offset + context.nframes) hend
    src.valued_events d src.value_bits context.offset hsorted' hwin' (by omega)
    (value_bits_lt src) (valued_events_from_lt _ _ _ _)
  have hbuf : (dst.copy u context src)._buf =
      some (set_block (render_events u.atom_Float src.valued_events
          (d, src.value_bits, context.offset)).1
        (render_events u.atom_Float src.valued_events (d, src.value_bits, context.offset)).2.1
        (render_events u.atom_Float src.valued_events (d, src.value_bits, context.offset)).2.2
        (context.offset + context.nframes)) := by
    rw [hcopy]
    unfold Buffer.render_sequence Buffer.with_mem Buffer.mem
    rw [hd', Nat.mod_eq_of_lt hend]
    rfl
  have hoff : (dst.copy u context src).samples_offset u = 0 := by
    rw [hcopy]
    unfold Buffer.samples_offset Buffer.is_control Buffer.render_sequence Buffer.with_mem
    simp [hda, hsf]
  refine ⟨?_, ?_, ?_⟩
  · intro i h1 h2
    unfold Buffer.sample_at
    rw [hoff, hbuf, Option.map_some', Nat.zero_add, hspec.1 i h1 h2]
  · intro j hj
    unfold Buffer.byte
    rw [hbuf, hd', Option.map_some', Option.map_some', hspec.2 j hj]
  · intro b hb
    unfold Buffer.copy
    simp [hb]

/-- C13 as stated fails: an external audio buffer that has no storage yet is
the destination of the sequence with Float events at the frames 1 and 2,
which are sorted and lie in the window of frames 0 to 3; the copy returns at
once and no sample of the window has the value of the signal. -/
theorem C13_render_without_storage :
    (external_buffer 1 16)._type = uris_example.atom_Sound ∧
    float_sequence._type = uris_example.atom_Sequence ∧
    float_sequence._value_type = uris_example.atom_Float ∧
    float_sequence.events.Pairwise (fun e1 e2 => e1.frames ≤ e2.frames) ∧
    (∀ ev ∈ float_sequence.events, (0 : Int) ≤ ev.frames ∧ ev.frames < 4) ∧
    signal_value uris_example.atom_Float float_sequence.valued_events
      float_sequence.value_bits 1 = 1065353216 ∧
    ((external_buffer 1 16).copy uris_example { offset := 0, nframes := 4 }
      float_sequence).sample_at uris_example 1 = none ∧
    ((external_buffer 1 16).copy uris_example { offset := 0, nframes := 4 }
      float_sequence)._buf.isSome = false := by
  decide

set_option maxRecDepth 100000 in
/-- An instance of C13: the sequence with Float events `1.0f` at frame 1 and
`2.0f` at frame 2 and the current value with the bits 7, rendered into an
audio buffer of four samples. -/
theorem C13_render_sequence_witness :
    (List.range 4).map (fun i =>
      (audio_buffer_4.copy uris_example { offset := 0, nframes := 4 }
        float_sequence).sample_at uris_example i) =
      [some 7, some 1065353216, some 1073741824, some 1073741824] ∧
    (∀ i, 0 ≤ i → i < 0 + 4 →
      (audio_buffer_4.copy uris_example { offset := 0, nframes := 4 }
        float_sequence).sample_at uris_example i =
        some (signal_value uris_example.atom_Float float_sequence.valued_events
          float_sequence.value_bits i)) :=
  ⟨by decide,
    (C13_render_sequence uris_example (by decide) audio_buffer_4 float_sequence
      { offset := 0, nframes := 4 } (by decide) (by decide) (by decide) (by decide) (by decide)
      (by decide) (by decide)).1⟩

/-- C14 (as amended): destination and source both have storage. Copying an
audio source into a control destination makes the control value the sample 0
of the source and changes no other byte and no other field of the
destination; copying a control source into an audio destination gives every
sample below `context.nframes` the control value and leaves the bytes behind
those samples alone. A destination without storage is left as it is. -/
theorem C14_copy_audio_control (u : URIs) (hu : u.Valid) (dst src : Buffer)
    (context : RunContext) (hd : dst._buf.isSome = true) (hs : src._buf.isSome = true) :
    (src._type = u.atom_Sound → dst._type = u.atom_Float →
      (dst.copy u context src).sample_at u 0 = src.sample_at u 0 ∧
      (∀ j, ¬ (8 ≤ j ∧ j < 12) → (dst.copy u context src).byte j = dst.byte j) ∧
      dst.copy u context src = { dst with _buf := (dst.copy u context src)._buf }) ∧
    (src._type = u.atom_Float → dst._type = u.atom_Sound →
      (∀ i, i < context.nframes → (dst.copy u context src).sample_at u i = src.sample_at u 0) ∧
      (∀ j, 4 * context.nframes ≤ j → (dst.copy u context src).byte j = dst.byte j) ∧
      dst.copy u context src = { dst with _buf := (dst.copy u context src)._buf }) ∧
    (∀ (b : Buffer), b._buf = none → b.copy u context src = b) := by
  obtain ⟨d, hd'⟩ := Option.isSome_iff_exists.mp hd
  obtain ⟨s, hs'⟩ := Option.isSome_iff_exists.mp hs
  obtain ⟨_, _, _, _, hsf, hsq, _, hfq, _, _⟩ := hu
  refine ⟨?_, ?_, ?_⟩
  · intro hst hdt
    have hcopy : dst.copy u context src = { dst with _buf := some (memcpy d 8 s 0 4) } := by
      unfold Buffer.copy Buffer.is_audio Buffer.is_control Buffer.samples_offset
        Buffer.is_control Buffer.with_mem Buffer.mem
      simp [hd', hs', hst, hdt, hsf, Ne.symm hsf]
    refine ⟨?_, ?_, ?_⟩
    · rw [hcopy]
      unfold Buffer.sample_at Buffer.samples_offset Buffer.is_control
      simp only [hdt, hst, hs', beq_self_eq_true, if_true, Option.map_some',
        beq_iff_eq, hsf, if_false, Nat.mul_zero, Nat.add_zero]
      have e : read_u32 (memcpy d 8 s 0 4) 8 = read_u32 s 0 := by
        apply read_le_shift
        intro k hk
        simp only [memcpy]
        rw [if_pos ⟨by omega, by omega⟩, show 8 + k - 8 = k by omega]
      rw [e]
    · intro j hj
      rw [hcopy]
      unfold Buffer.byte
      simp only [hd', Option.map_some']
      have e : memcpy d 8 s 0 4 j = d j := by
        simp only [memcpy]
        rw [if_neg (by omega)]
      rw [e]
    · rw [hcopy]
  · intro hst hdt
    have hcopy : dst.copy u context src =
        { dst with _buf := some (set_block d (read_u32 s 8) 0 context.nframes) } := by
      unfold Buffer.copy Buffer.is_audio Buffer.is_control Buffer.sample Buffer.samples_offset
        Buffer.is_control Buffer.with_mem Buffer.mem
      simp [hd', hs', hst, hdt, hsf, Ne.symm hsf]
    refine ⟨?_, ?_, ?_⟩
    · intro i hi
      rw [hcopy]
      unfold Buffer.sample_at Buffer.samples_offset Buffer.is_control
      simp only [hdt, hst, hs', beq_self_eq_true, if_true, Option.map_some',
        beq_iff_eq, hsf, if_false, Nat.mul_zero, Nat.add_zero, Nat.zero_add]
      rw [set_block_inside d (read_u32 s 8) 0 context.nframes i (read_u32_lt s 8)
        (Nat.zero_le _) hi]
    · intro j hj
      rw [hcopy]
      unfold Buffer.byte
      simp only [hd', Option.map_some']
      rw [set_block_outside d (read_u32 s 8) 0 context.nframes (by omega)]
    · rw [hcopy]
  · intro b hb
    unfold Buffer.copy
    simp [hb]

/-- C14 as stated fails: an external control buffer that has no storage yet
is the destination of an audio buffer whose sample 0 has the bits 7; the
copy returns at once and the destination has no control value. -/
theorem C14_copy_control_without_storage :
    (audio_buffer 7 9)._type = uris_example.atom_Sound ∧
    (external_buffer 2 16)._type = uris_example.atom_Float ∧
    (audio_buffer 7 9).sample_at uris_example 0 = some 7 ∧
    ((external_buffer 2 16).copy uris_example { offset := 0, nframes := 2 }
      (audio_buffer 7 9)).sample_at uris_example 0 = none ∧
    ((external_buffer 1 16).copy uris_example { offset := 0, nframes := 2 }
      (control_buffer 9)).sample_at uris_example 0 = none := by
  decide

/-- Instances of C14: the control buffer takes the sample 0 of the audio
buffer, and the audio buffer of four samples is filled up to `nframes` with
the value of the control buffer. -/
theorem C14_copy_audio_control_witness :
    ((control_buffer 9).copy uris_example { offset := 0, nframes := 2 }
      (audio_buffer 7 9)).sample_at uris_example 0 = some 7 ∧
    (∀ i, i < 3 → (audio_buffer_4.copy uris_example { offset := 1, nframes := 3 }
      (control_buffer 9)).sample_at uris_example i = some 9) ∧
    (audio_buffer_4.copy uris_example { offset := 1, nframes := 3 }
      (control_buffer 9)).sample_at uris_example 3 = some 5 :=
  ⟨((C14_copy_audio_control uris_example (by decide) (control_buffer 9) (audio_buffer 7 9)
      { offset := 0, nframes := 2 } (by decide) (by decide)).1 (by decide) (by decide)).1.trans
      (by decide),
    fun i hi =>
      (((C14_copy_audio_control uris_example (by decide) audio_buffer_4 (control_buffer 9)
        { offset := 1, nframes := 3 } (by decide) (by decide)).2.1 (by decide) (by decide)).1
        i hi).trans (by decide),
    by decide⟩

/-- The types of destination and source differ and the pair is none of
Audio to Control, Control to Audio and Sequence of Float to Audio. Then
`dst.copy(context, src)` leaves the destination as `dst.clear()` does, for a
destination that has storage and for an audio destination without storage
(which both leave alone). That state is: an audio buffer with every byte of
its capacity zero, a control buffer with the value `0.0f`, a sequence buffer
with an empty body, no events and `_latest_event` 0. -/
theorem copy_clears_on_mismatch (u : URIs) (hu : u.Valid) (dst src : Buffer)
    (context : RunContext) (ht : dst._type ≠ src._type)
    (h1 : ¬ (src._type = u.atom_Sound ∧ dst._type = u.atom_Float))
    (h2 : ¬ (src._type = u.atom_Float ∧ dst._type = u.atom_Sound))
    (h3 : ¬ (src._type = u.atom_Sequence ∧ dst._type = u.atom_Sound ∧
      src._value_type = u.atom_Float))
    (hd : dst._buf.isSome = true ∨ dst._type = u.atom_Sound) :
    dst.copy u context src = dst.clear u ∧
    (dst._buf.isSome = true → dst._type = u.atom_Sound →
      ∀ i, i < dst._capacity → (dst.clear u).byte i = some 0) ∧
    (dst._buf.isSome = true → dst._type = u.atom_Float →
      (dst.clear u).sample_at u 0 = some 0) ∧
    (dst._buf.isSome = true → dst._type = u.atom_Sequence →
      (dst.clear u).atom_type = u.atom_Sequence ∧ (dst.clear u).atom_size = 8 ∧
      (dst.clear u).events = [] ∧ (dst.clear u)._latest_event = 0) := by
  obtain ⟨_, _, _, _, hsf, hsq, _, hfq, _, _⟩ := hu
  refine ⟨?_, ?_, ?_, ?_⟩
  · rcases hd with hd | hd
    · have hn : dst._buf.isNone = false := by
        cases h : dst._buf with
        | none => rw [h] at hd; cases hd
        | some m => rfl
      unfold Buffer.copy
      rw [hn]
      simp only [Bool.false_eq_true, if_false, if_neg ht]
      have c1 : (src.is_audio u && dst.is_control u) = false := by
        unfold Buffer.is_audio Buffer.is_control
        cases h : (src._type == u.atom_Sound && dst._type == u.atom_Float) with
        | false => rfl
        | true =>
          rw [Bool.and_eq_true, beq_iff_eq, beq_iff_eq] at h
          exact absurd h h1
      have c2 : (src.is_control u && dst.is_audio u) = false := by
        unfold Buffer.is_audio Buffer.is_control
        cases h : (src._type == u.atom_Float && dst._type == u.atom_Sound) with
        | false => rfl
        | true =>
          rw [Bool.and_eq_true, beq_iff_eq, beq_iff_eq] at h
          exact absurd h h2
      have c3 : (src.is_sequence u && dst.is_audio u && src._value_type == u.atom_Float) =
          false := by
        unfold Buffer.is_audio Buffer.is_sequence
        cases h : (src._type == u.atom_Sequence && dst._type == u.atom_Sound &&
            src._value_type == u.atom_Float) with
        | false => rfl
        | true =>
          rw [Bool.and_eq_true, Bool.and_eq_true, beq_iff_eq, beq_iff_eq, beq_iff_eq] at h
          exact absurd ⟨h.1.1, h.1.2, h.2⟩ h3
      rw [c1, c2, c3]
      simp
    · cases hb : dst._buf with
      | some m =>
        have hn : dst._buf.isNone = false := by rw [hb]; rfl
        unfold Buffer.copy
        rw [hn]
        simp only [Bool.false_eq_true, if_false, if_neg ht]
        have c1 : (src.is_audio u && dst.is_control u) = false := by
          unfold Buffer.is_audio Buffer.is_control
          simp [hd, hsf]
        have c2 : (src.is_control u && dst.is_audio u) = false := by
          unfold Buffer.is_audio Buffer.is_control
          cases h : (src._type == u.atom_Float && dst._type == u.atom_Sound) with
          | false => rfl
          | true =>
            rw [Bool.and_eq_true, beq_iff_eq, beq_iff_eq] at h
            exact absurd h h2
        have c3 : (src.is_sequence u && dst.is_audio u && src._value_type == u.atom_Float) =
            false := by
          unfold Buffer.is_audio Buffer.is_sequence
          cases h : (src._type == u.atom_Sequence && dst._type == u.atom_Sound &&
              src._value_type == u.atom_Float) with
          | false => rfl
          | true =>
            rw [Bool.and_eq_true, Bool.and_eq_true, beq_iff_eq, beq_iff_eq, beq_iff_eq] at h
            exact absurd ⟨h.1.1, h.1.2, h.2⟩ h3
        rw [c1, c2, c3]
        simp
      | none =>
        unfold Buffer.copy Buffer.clear Buffer.is_audio Buffer.is_control Buffer.is_sequence
        simp [hb, hd, hsf, hsq]
  · intro hb hty i hi
    obtain ⟨d, hd'⟩ := Option.isSome_iff_exists.mp hb
    unfold Buffer.clear Buffer.is_audio Buffer.byte Buffer.with_mem memset_zero
    simp [hd', hty, hi]
  · intro hb hty
    obtain ⟨d, hd'⟩ := Option.isSome_iff_exists.mp hb
    have hc : dst.clear u = { dst with _buf := some (write_u32 d 8 0) } := by
      unfold Buffer.clear Buffer.is_audio Buffer.is_control Buffer.with_mem Buffer.mem
      simp [hd', hty, Ne.symm hsf]
    rw [hc]
    unfold Buffer.sample_at Buffer.samples_offset Buffer.is_control
    simp only [hty, beq_self_eq_true, if_true, Option.map_some', Nat.mul_zero, Nat.add_zero]
    rw [read_u32_write_u32 _ _ _ (by norm_num)]
  · intro hb hty
    obtain ⟨d, hd'⟩ := Option.isSome_iff_exists.mp hb
    obtain ⟨m', hc, hct, hcs⟩ := clear_sequence u
      ⟨by assumption, by assumption, by assumption, by assumption, hsf, hsq, by assumption, hfq,
        by assumption, by assumption⟩ dst d hty hd'
    rw [hc]
    refine ⟨?_, ?_, ?_, rfl⟩
    · unfold Buffer.atom_type Buffer.mem
      simpa using hct
    · unfold Buffer.atom_size Buffer.mem
      simpa using hcs
    · unfold Buffer.events Buffer.mem
      simpa using (walk_empty m' hcs).seq_events_eq

/-- C15 (as amended): the types of destination and source differ and the
pair is none of Audio to Control, Control to Audio and Sequence of Float to
Audio. For a destination that has storage `dst.copy(context, src)` leaves
the destination exactly in the state `dst.clear()` produces: an audio buffer
with every byte of its capacity zero, a control buffer with the value
`0.0f`, a sequence buffer with an empty body, no events and `_latest_event`
0; no other field changes. A destination without storage is left as it
is. -/
theorem C15_copy_clears_on_mismatch (u : URIs) (hu : u.Valid) (dst src : Buffer)
    (context : RunContext) (ht : dst._type ≠ src._type)
    (h1 : ¬ (src._type = u.atom_Sound ∧ dst._type = u.atom_Float))
    (h2 : ¬ (src._type = u.atom_Float ∧ dst._type = u.atom_Sound))
    (h3 : ¬ (src._type = u.atom_Sequence ∧ dst._type = u.atom_Sound ∧
      src._value_type = u.atom_Float))
    (hd : dst._buf.isSome = true) :
    dst.copy u context src = dst.clear u ∧
    (dst._type = u.atom_Sound →
      ∀ i, i < dst._capacity → (dst.copy u context src).byte i = some 0) ∧
    (dst._type = u.atom_Float → (dst.copy u context src).sample_at u 0 = some 0) ∧
    (dst._type = u.atom_Sequence →
      (dst.copy u context src).atom_type = u.atom_Sequence ∧
      (dst.copy u context src).atom_size = 8 ∧
      (dst.copy u context src).events = [] ∧ (dst.copy u context src)._latest_event = 0) ∧
    dst.copy u context src = { dst with
      _buf := (dst.copy u context src)._buf,
      _latest_event := (dst.copy u context src)._latest_event } ∧
    (dst._type ≠ u.atom_Sequence →
      (dst.copy u context src)._latest_event = dst._latest_event) ∧
    (∀ b : Buffer, b._buf = none → b.copy u context src = b) := by
  have h := copy_clears_on_mismatch u hu dst src context ht h1 h2 h3 (Or.inl hd)
  rw [h.1]
  refine ⟨rfl, h.2.1 hd, h.2.2.1 hd, h.2.2.2 hd, ?_, ?_, ?_⟩
  · unfold Buffer.clear Buffer.with_mem
    split
    · rfl
    · split
      · rfl
      · split <;> rfl
  · intro hseq
    have hq : dst.is_sequence u = false := by
      unfold Buffer.is_sequence
      exact beq_false_of_ne hseq
    unfold Buffer.clear Buffer.with_mem
    rw [hq]
    split
    · rfl
    · split <;> rfl
  · intro b hb
    unfold Buffer.copy
    rw [hb]
    rfl

/-- C15 as stated fails: an external control buffer that has no storage yet
is the destination of a sequence, and an external sequence buffer without
storage the destination of an audio buffer; the types differ and are none
of the three special pairs. `copy` returns at once: the control buffer has
no value `0.0f` and the sequence buffer no body, neither has any byte. -/
theorem C15_copy_mismatch_without_storage :
    (external_buffer 2 16)._type = uris_example.atom_Float ∧
    float_sequence._type = uris_example.atom_Sequence ∧
    ((external_buffer 2 16).copy uris_example { offset := 0, nframes := 2 }
      float_sequence).sample_at uris_example 0 = none ∧
    ((external_buffer 2 16).copy uris_example { offset := 0, nframes := 2 }
      float_sequence)._buf.isSome = false ∧
    (external_buffer 3 16)._type = uris_example.atom_Sequence ∧
    (audio_buffer 7 9)._type = uris_example.atom_Sound ∧
    ((external_buffer 3 16).copy uris_example { offset := 0, nframes := 2 }
      (audio_buffer 7 9)).byte 0 = none ∧
    ((external_buffer 3 16).copy uris_example { offset := 0, nframes := 2 }
      (audio_buffer 7 9))._buf.isSome = false := by
  decide

/-- Instances of C15: a sequence copied into a control buffer leaves the
value `0.0f`; an audio buffer copied into a sequence buffer leaves it empty;
a sequence without value type copied into an audio buffer leaves it zero. -/
theorem C15_copy_clears_on_mismatch_witness :
    ((control_buffer 9).copy uris_example { offset := 0, nframes := 2 }
      float_sequence).sample_at uris_example 0 = some 0 ∧
    (buffer_one_event.copy uris_example { offset := 0, nframes := 2 }
      (audio_buffer 7 9)).events = [] ∧
    (∀ i, i < 16 → (audio_buffer_4.copy uris_example { offset := 0, nframes := 4 }
      buffer_one_event).byte i = some 0) :=
  have a := C15_copy_clears_on_mismatch uris_example (by decide) (control_buffer 9)
    float_sequence { offset := 0, nframes := 2 } (by decide) (by decide) (by decide) (by decide)
    (by decide)
  have b := C15_copy_clears_on_mismatch uris_example (by decide) buffer_one_event
    (audio_buffer 7 9) { offset := 0, nframes := 2 } (by decide) (by decide) (by decide)
    (by decide) (by decide)
  have c := C15_copy_clears_on_mismatch uris_example (by decide) audio_buffer_4
    buffer_one_event { offset := 0, nframes := 4 } (by decide) (by decide) (by decide)
    (by decide) (by decide)
  ⟨a.2.2.1 (by decide), (b.2.2.2.1 (by decide)).2.2.1, fun i hi => c.2.1 (by decide) i hi⟩

end CopyTypes

/-! ## Graphs made of linear chains -/

section Chains

variable (g : GraphImpl)

theorem set_insert_sorted (x : Nat) :
    ∀ (k : List Nat), k.Sorted (fun a b => a < b) → (set_insert x k).Sorted (fun a b => a < b)
  | [], _ => by simp [set_insert]
  | y :: ys, h => by
    have hy := List.sorted_cons.1 h
    unfold set_insert
    split
    · rename_i hxy
      refine List.sorted_cons.2 ⟨?_, h⟩
      intro z hz
      rcases List.mem_cons.1 hz with hz | hz
      · rw [hz]
        exact hxy
      · exact Nat.lt_trans hxy (hy.1 z hz)
    · split
      · exact h
      · rename_i h1 h2
        refine List.sorted_cons.2 ⟨?_, set_insert_sorted x ys hy.2⟩
        intro z hz
        rcases mem_set_insert.1 hz with hz | hz
        · rw [hz]
          omega
        · exact hy.1 z hz

theorem foldl_set_insert_sorted :
    ∀ (l acc : List Nat), acc.Sorted (fun a b => a < b) →
      (l.foldl (fun s b => set_insert b s) acc).Sorted (fun a b => a < b)
  | [], _, h => h
  | a :: l, acc, h => by
    rw [List.foldl_cons]
    exact foldl_set_insert_sorted l _ (set_insert_sorted a acc h)

theorem mem_foldl_set_insert_of_mem {x : Nat} :
    ∀ (l acc : List Nat), x ∈ acc ∨ x ∈ l → x ∈ l.foldl (fun s b => set_insert b s) acc
  | [], acc, h => by
    rcases h with h | h
    · exact h
    · cases h
  | a :: l, acc, h => by
    rw [List.foldl_cons]
    apply mem_foldl_set_insert_of_mem l
    rcases h with h | h
    · exact Or.inl (mem_set_insert.2 (Or.inr h))
    · rcases List.mem_cons.1 h with h | h
      · exact Or.inl (mem_set_insert.2 (Or.inl h))
      · exact Or.inr h

/-- The initial working set is the set of the blocks without providers, in
increasing order. -/
theorem initial_set_spec :
    (initial_set g).Sorted (fun a b => a < b) ∧
    ∀ x, x ∈ initial_set g ↔ x ∈ g.blocks ∧ g.providers x = [] := by
  refine ⟨foldl_set_insert_sorted _ _ List.sorted_nil, ?_⟩
  intro x
  unfold initial_set
  constructor
  · intro h
    rcases mem_foldl_set_insert _ _ h with h | h
    · cases h
    · have := List.mem_filter.1 h
      exact ⟨this.1, by simpa using this.2⟩
  · intro h
    apply mem_foldl_set_insert_of_mem
    right
    exact List.mem_filter.2 ⟨h.1, by simpa using h.2⟩

theorem visit_visit (marks : Marks) (c d : List Nat) :
    visit (visit marks c) d = visit marks (c ++ d) := by
  funext x
  unfold visit
  by_cases h1 : x ∈ d
  · simp [h1]
  · by_cases h2 : x ∈ c
    · simp [h1, h2]
    · simp [h1, h2]

/-- A chain compiled from its first block into a sequential task: the
`SINGLE` tasks of its blocks are appended in order, the working set is left
alone, and the blocks of the chain are visited. -/
theorem compile_chain :
    ∀ (rest : List Nat) (a fuel : Nat) (cs0 : List Task) (k : List Nat) (marks : Marks),
      ChainFrom g a rest → (a :: rest).Nodup → (∀ x ∈ a :: rest, marks x = .UNVISITED) →
      rest.length < fuel →
      compile_block g fuel a (.mk .SEQUENTIAL none cs0, k, marks) =
        .ok (.mk .SEQUENTIAL none (cs0 ++ (a :: rest).map Task.single), k,
          visit marks (a :: rest))
  | [], a, fuel, cs0, k, marks, hch, _, hun, hf => by
    obtain ⟨fuel, rfl⟩ : ∃ f, fuel = f + 1 := ⟨fuel - 1, by omega⟩
    have hd : g.dependants a = [] := hch
    rw [compile_block_succ, hun a (List.mem_cons_self _ _)]
    simp only [hd, List.length_nil, Nat.zero_lt_succ, if_true, forEach_nil, Res.bind_ok]
    have hm : set_mark (set_mark marks a .VISITING) a .VISITED = visit marks [a] := by
      funext x
      unfold set_mark visit
      by_cases hx : x = a
      · simp [hx]
      · simp [hx]
    rw [hm]
    rfl
  | b :: rest, a, fuel, cs0, k, marks, hch, hnd, hun, hf => by
    obtain ⟨fuel, rfl⟩ : ∃ f, fuel = f + 1 := ⟨fuel - 1, by simp at hf; omega⟩
    obtain ⟨hd, hp, hrest⟩ := hch
    have hnd' := List.nodup_cons.1 hnd
    have hab : b ≠ a := by
      intro h
      exact hnd'.1 (h ▸ List.mem_cons_self _ _)
    have hun1 : ∀ x ∈ b :: rest, set_mark marks a .VISITING x = .UNVISITED := by
      intro x hx
      have hxa : x ≠ a := by
        intro h
        exact hnd'.1 (h ▸ hx)
      rw [set_mark_other _ _ hxa]
      exact hun x (List.mem_cons_of_mem _ hx)
    have ih := compile_chain rest b fuel (cs0 ++ [Task.single a]) k
      (set_mark marks a .VISITING) hrest hnd'.2 hun1 (by simp at hf; omega)
    rw [compile_block_succ, hun a (List.mem_cons_self _ _)]
    simp only [hd, List.length_singleton, Nat.one_lt_ofNat, if_true, forEach_cons, forEach_nil]
    have hdep : compile_dependant g (compile_block g fuel) fuel a b
        (Task.push_back (.mk .SEQUENTIAL none cs0) (Task.single a), k,
          set_mark marks a .VISITING) =
        .ok (.mk .SEQUENTIAL none (cs0 ++ [Task.single a] ++ (b :: rest).map Task.single), k,
          visit (set_mark marks a .VISITING) (b :: rest)) := by
      unfold compile_dependant
      simp only [hp, List.length_singleton, gt_iff_lt, Nat.lt_irrefl, if_false]
      have hmode : (Task.push_back (.mk .SEQUENTIAL none cs0) (Task.single a)).mode ≠
          .PARALLEL := by
        simp [Task.push_back, Task.mode]
      rw [if_neg hmode]
      exact ih
    rw [hdep]
    simp only [forEach_nil, Res.bind_ok]
    have hm : set_mark (visit (set_mark marks a .VISITING) (b :: rest)) a .VISITED =
        visit marks (a :: b :: rest) := by
      funext x
      unfold set_mark visit
      by_cases hx : x = a
      · simp [hx]
      · by_cases hx2 : x ∈ b :: rest
        · simp [hx, hx2]
        · simp [hx, hx2]
    rw [hm]
    simp

/-- The first loop of `compile_graph` over the first blocks of chains: every
chain becomes a sequential task of the parallel task. -/
theorem compile_set_chains (fuel : Nat) :
    ∀ (cs : List (List Nat)) (ts : List Task) (k : List Nat) (marks : Marks),
      (∀ c ∈ cs, IsChain g c) → cs.flatten.Nodup →
      (∀ x ∈ cs.flatten, marks x = .UNVISITED) → (∀ c ∈ cs, c.length ≤ fuel) →
      forEach (compile_seq g fuel) (cs.map fun c => c.headD 0)
          (.mk .PARALLEL none ts, k, marks) =
        .ok (.mk .PARALLEL none (ts ++ cs.map chain_task), k, visit marks cs.flatten)
  | [], ts, k, marks, _, _, _, _ => by
    have hm : visit marks ([] : List (List Nat)).flatten = marks := by
      funext x
      simp [visit]
    rw [hm]
    simp
  | c :: cs, ts, k, marks, hch, hnd, hun, hf => by
    have hc := hch c (List.mem_cons_self _ _)
    cases c with
    | nil => exact absurd hc (by simp [IsChain])
    | cons a rest =>
      rw [List.flatten_cons] at hnd hun
      have hnd' := List.nodup_append.1 hnd
      have h1 := compile_chain g rest a fuel [] k marks hc.2 hnd'.1
        (fun x hx => hun x (List.mem_append_left _ hx))
        (by have := hf (a :: rest) (List.mem_cons_self _ _); simp at this; omega)
      have hun2 : ∀ x ∈ cs.flatten, visit marks (a :: rest) x = .UNVISITED := by
        intro x hx
        have hnot : x ∉ a :: rest := fun h => hnd'.2.2 h hx
        unfold visit
        rw [if_neg hnot]
        exact hun x (List.mem_append_right _ hx)
      have ih := compile_set_chains fuel cs (ts ++ [chain_task (a :: rest)]) k
        (visit marks (a :: rest)) (fun x hx => hch x (List.mem_cons_of_mem _ hx)) hnd'.2.1 hun2
        (fun x hx => hf x (List.mem_cons_of_mem _ hx))
      rw [List.map_cons, forEach_cons]
      have hseq : compile_seq g fuel ((a :: rest).headD 0) (.mk .PARALLEL none ts, k, marks) =
          .ok (.mk .PARALLEL none (ts ++ [chain_task (a :: rest)]), k,
            visit marks (a :: rest)) := by
        unfold compile_seq
        simp only [List.headD_cons]
        have he : Task.empty .SEQUENTIAL = .mk .SEQUENTIAL none [] := rfl
        rw [he, h1]
        rfl
      rw [hseq, Res.bind_ok, ih, visit_visit, List.flatten_cons]
      simp

/-- A block behind the first block of a chain has a provider. -/
theorem chainFrom_providers :
    ∀ (rest : List Nat) (a : Nat), ChainFrom g a rest → ∀ x ∈ rest, g.providers x ≠ []
  | [], _, _, x, hx => by cases hx
  | b :: rest, a, h, x, hx => by
    obtain ⟨_, hp, hrest⟩ := h
    rcases List.mem_cons.1 hx with hx | hx
    · rw [hx, hp]
      simp
    · exact chainFrom_providers rest b hrest x hx

/-- The first blocks of disjoint chains are distinct. -/
theorem heads_nodup :
    ∀ (cs : List (List Nat)), (∀ c ∈ cs, c ≠ []) → cs.flatten.Nodup →
      (cs.map fun c => c.headD 0).Nodup ∧ ∀ x ∈ cs.map (fun c => c.headD 0), x ∈ cs.flatten
  | [], _, _ => by simp
  | c :: cs, hne, hnd => by
    rw [List.flatten_cons] at hnd
    have hnd' := List.nodup_append.1 hnd
    have ih := heads_nodup cs (fun x hx => hne x (List.mem_cons_of_mem _ hx)) hnd'.2.1
    have hc := hne c (List.mem_cons_self _ _)
    cases c with
    | nil => exact absurd rfl hc
    | cons a rest =>
      refine ⟨?_, ?_⟩
      · rw [List.map_cons, List.nodup_cons]
        refine ⟨?_, ih.1⟩
        intro h
        exact hnd'.2.2 (List.mem_cons_self _ _) (ih.2 _ h)
      · intro x hx
        rw [List.map_cons] at hx
        rw [List.flatten_cons]
        rcases List.mem_cons.1 hx with hx | hx
        · rw [hx]
          exact List.mem_append_left _ (List.mem_cons_self _ _)
        · exact List.mem_append_right _ (ih.2 x hx)

theorem isChain_ne_nil {c : List Nat} (h : IsChain g c) : c ≠ [] := by
  intro hc
  rw [hc] at h
  exact h

/-- The initial working set of a graph made of chains whose first blocks are
listed in increasing order: these first blocks. -/
theorem initial_set_chains (chains : List (List Nat)) (h : IsChains g chains)
    (hsorted : (chains.map fun c => c.headD 0).Sorted (fun a b => a < b)) :
    initial_set g = chains.map fun c => c.headD 0 := by
  obtain ⟨hnd, hblocks, hch⟩ := h
  have hspec := initial_set_spec g
  have hheads := heads_nodup chains (fun c hc => isChain_ne_nil g (hch c hc)) hnd
  have hnd1 : (initial_set g).Nodup := hspec.1.imp (fun h => Nat.ne_of_lt h)
  apply List.eq_of_perm_of_sorted ?_ hspec.1 hsorted
  rw [List.perm_ext_iff_of_nodup hnd1 hheads.1]
  intro x
  rw [hspec.2]
  constructor
  · rintro ⟨hx, hp⟩
    obtain ⟨c, hc, hxc⟩ := List.mem_flatten.1 ((hblocks x).1 hx)
    have hcc := hch c hc
    cases c with
    | nil => cases hxc
    | cons a rest =>
      rcases List.mem_cons.1 hxc with hxa | hxr
      · rw [hxa]
        exact List.mem_map.2 ⟨a :: rest, hc, rfl⟩
      · exact absurd hp (chainFrom_providers g rest a hcc.2 x hxr)
  · intro hx
    obtain ⟨c, hc, hxc⟩ := List.mem_map.1 hx
    have hcc := hch c hc
    cases c with
    | nil => exact absurd hcc (by simp [IsChain])
    | cons a rest =>
      simp only [List.headD_cons] at hxc
      rw [← hxc]
      exact ⟨(hblocks a).2 (List.mem_flatten.2 ⟨a :: rest, hc, List.mem_cons_self _ _⟩), hcc.1⟩

/-- The last loop of `compile_graph` does nothing when every block is
visited. -/
theorem compile_unreached_visited (fuel : Nat) (master : Task) (next : List Nat) (marks : Marks) :
    ∀ (blocks : List Nat), (∀ b ∈ blocks, marks b = .VISITED) →
      forEach (fun b s => if s.2.2 b = .UNVISITED then compile_block g fuel b s else .ok s)
        blocks (master, next, marks) = .ok (master, next, marks)
  | [], _ => rfl
  | b :: blocks, h => by
    rw [forEach_cons]
    have hb : ¬ marks b = .UNVISITED := by
      rw [h b (List.mem_cons_self _ _)]
      intro h
      cases h
    simp only [hb, if_false, Res.bind_ok]
    exact compile_unreached_visited fuel master next marks blocks
      (fun x hx => h x (List.mem_cons_of_mem _ hx))

theorem simplifyList_singles (m : Mode) (hm : m ≠ .SINGLE) :
    ∀ (c : List Nat), Task.simplifyList m (c.map Task.single) = c.map Task.single
  | [] => by simp [Task.simplifyList]
  | a :: c => by
    have hmode : ¬ Mode.SINGLE = m := fun h => hm h.symm
    rw [List.map_cons, Task.simplifyList, simplifyList_singles m hm c]
    simp [Task.single, Task.simplify, Task.mode, hmode]

/-- The task of a chain of at least two blocks is left as it is by
`simplify`. -/
theorem simplify_chain_task (c : List Nat) (h : 2 ≤ c.length) :
    (chain_task c).simplify = chain_task c := by
  unfold chain_task
  rw [Task.simplify, simplifyList_singles .SEQUENTIAL (by decide)]
  match c, h with
  | a :: b :: rest, _ => rfl

theorem simplifyList_chain_tasks :
    ∀ (cs : List (List Nat)), (∀ c ∈ cs, 2 ≤ c.length) →
      Task.simplifyList .PARALLEL (cs.map chain_task) = cs.map chain_task
  | [], _ => by simp [Task.simplifyList]
  | c :: cs, h => by
    rw [List.map_cons, Task.simplifyList, simplify_chain_task c (h c (List.mem_cons_self _ _)),
      simplifyList_chain_tasks cs (fun x hx => h x (List.mem_cons_of_mem _ hx))]
    simp [chain_task, Task.mode]

/-- The master task of a graph made of chains, as `simplify` leaves it: the
outer sequential task with its single child collapses to that child. -/
theorem simplify_master (cs : List (List Nat)) (hk : 2 ≤ cs.length)
    (hlen : ∀ c ∈ cs, 2 ≤ c.length) :
    (Task.mk .SEQUENTIAL none [Task.mk .PARALLEL none (cs.map chain_task)]).simplify =
      Task.mk .PARALLEL none (cs.map chain_task) := by
  have hpar : (Task.mk .PARALLEL none (cs.map chain_task)).simplify =
      Task.mk .PARALLEL none (cs.map chain_task) := by
    rw [Task.simplify, simplifyList_chain_tasks cs hlen]
    match cs, hk with
    | a :: b :: rest, _ => rfl
  rw [Task.simplify, Task.simplifyList, hpar]
  simp [Task.simplifyList, Task.mode]

/-- A graph made of chains whose first blocks are listed in increasing order
compiles to the parallel task of the tasks of the chains, in that order. -/
theorem compile_graph_chains_sorted (chains : List (List Nat)) (marks : Marks)
    (h : IsChains g chains)
    (hsorted : (chains.map fun c => c.headD 0).Sorted (fun a b => a < b))
    (hk : 2 ≤ chains.length) (hlen : ∀ c ∈ chains, 2 ≤ c.length) :
    ∃ marks', compile_graph g marks =
      .ok (.mk .PARALLEL none (chains.map chain_task), marks') := by
  have hinit := initial_set_chains g chains h hsorted
  obtain ⟨hnd, hblocks, hch⟩ := h
  have hun : ∀ x ∈ chains.flatten, initial_marks g marks x = .UNVISITED :=
    fun x hx => initial_marks_mem g ((hblocks x).2 hx) marks
  have hfuel : ∀ c ∈ chains, c.length ≤ compile_fuel g := by
    intro c hc
    have hsub : c ⊆ g.blocks := fun x hx => (hblocks x).2 (List.mem_flatten.2 ⟨c, hc, hx⟩)
    have hcnd : c.Nodup := (List.nodup_flatten.1 hnd).1 c hc
    have := (hcnd.subperm hsub).length_le
    unfold compile_fuel
    omega
  have hset := compile_set_chains g (compile_fuel g) chains [] [] (initial_marks g marks) hch hnd
    hun hfuel
  have hvis : ∀ b ∈ g.blocks, visit (initial_marks g marks) chains.flatten b = .VISITED := by
    intro b hb
    unfold visit
    rw [if_pos ((hblocks b).1 hb)]
  refine ⟨visit (initial_marks g marks) chains.flatten, ?_⟩
  have he : Task.empty .PARALLEL = .mk .PARALLEL none [] := rfl
  unfold compile_graph compile_graph_raw compile_set
  rw [hinit, he, hset]
  simp only [Res.bind_ok, List.nil_append]
  rw [compile_waves_nil]
  simp only [Res.bind_ok]
  unfold compile_unreached
  rw [compile_unreached_visited g _ _ _ _ g.blocks hvis]
  simp only [Res.bind_ok]
  have hm : (Task.empty .SEQUENTIAL).push_back (.mk .PARALLEL none (chains.map chain_task)) =
      .mk .SEQUENTIAL none [.mk .PARALLEL none (chains.map chain_task)] := rfl
  rw [hm, simplify_master chains hk hlen]

/-- Listing the chains in another order does not change the graph they
make up. -/
theorem IsChains.perm {chains chains' : List (List Nat)} (h : IsChains g chains)
    (hp : chains'.Perm chains) : IsChains g chains' := by
  obtain ⟨hnd, hblocks, hch⟩ := h
  refine ⟨(hp.flatten.nodup_iff).2 hnd, ?_, fun c hc => hch c (hp.mem_iff.1 hc)⟩
  intro b
  rw [hblocks b]
  exact (hp.flatten.mem_iff).symm

/-- The first blocks of the sorted chains increase strictly. -/
theorem sort_chains_sorted (chains : List (List Nat)) (h : IsChains g chains) :
    ((sort_chains chains).map fun c => c.headD 0).Sorted (fun a b => a < b) := by
  have hp : (sort_chains chains).Perm chains := List.perm_insertionSort _ _
  have h' := IsChains.perm g h hp
  have hheads := heads_nodup (sort_chains chains) (fun c hc => isChain_ne_nil g (h'.2.2 c hc)) h'.1
  haveI : IsTotal (List Nat) (fun c1 c2 => c1.headD 0 ≤ c2.headD 0) :=
    ⟨fun a b => Nat.le_total _ _⟩
  haveI : IsTrans (List Nat) (fun c1 c2 => c1.headD 0 ≤ c2.headD 0) :=
    ⟨fun a b c h1 h2 => Nat.le_trans h1 h2⟩
  have hs : (sort_chains chains).Sorted (fun c1 c2 => c1.headD 0 ≤ c2.headD 0) :=
    List.sorted_insertionSort _ chains
  have hle : ((sort_chains chains).map fun c => c.headD 0).Sorted (fun a b => a ≤ b) := by
    unfold List.Sorted
    rw [List.pairwise_map]
    exact hs
  exact hle.lt_of_le hheads.1

/-- C20: a graph made of two or more disjoint linear chains of at least two
blocks each, and of no other blocks or arcs, is compiled and simplified to a
`PARALLEL` task whose children are one `SEQUENTIAL` task per chain, each
listing the `SINGLE` tasks of the blocks of its chain in provider-to-dependant
order; the children come in the order of the addresses of the first blocks
of the chains. -/
theorem C20_chains_compile_parallel (g : GraphImpl) (chains : List (List Nat)) (marks : Marks)
    (h : IsChains g chains) (hk : 2 ≤ chains.length) (hlen : ∀ c ∈ chains, 2 ≤ c.length) :
    (sort_chains chains).Perm chains ∧
    ∃ marks', compile_graph g marks =
      .ok (.mk .PARALLEL none ((sort_chains chains).map chain_task), marks') := by
  have hp : (sort_chains chains).Perm chains := List.perm_insertionSort _ _
  refine ⟨hp, ?_⟩
  exact compile_graph_chains_sorted g (sort_chains chains) marks (IsChains.perm g h hp)
    (sort_chains_sorted g chains h) (by rw [hp.length_eq]; exact hk)
    (fun c hc => hlen c (hp.mem_iff.1 hc))

/-- Instances of C20: the chains a→b and c→d, and the chains 5→0, 1→4→2 and
3→6 whose first blocks are at the addresses 5, 1 and 3. -/
theorem C20_chains_compile_parallel_witness :
    (∃ marks', compile_graph graph_two_chains (fun _ => .VISITED) =
      .ok (.mk .PARALLEL none
        [ .mk .SEQUENTIAL none [Task.single 0, Task.single 1],
          .mk .SEQUENTIAL none [Task.single 2, Task.single 3] ], marks')) ∧
    (∃ marks', compile_graph graph_three_chains (fun _ => .VISITING) =
      .ok (.mk .PARALLEL none
        [ .mk .SEQUENTIAL none [Task.single 1, Task.single 4, Task.single 2],
          .mk .SEQUENTIAL none [Task.single 3, Task.single 6],
          .mk .SEQUENTIAL none [Task.single 5, Task.single 0] ], marks')) :=
  ⟨(C20_chains_compile_parallel graph_two_chains [[0, 1], [2, 3]] (fun _ => .VISITED)
      ⟨by decide, fun b => by simp [graph_two_chains],
        fun c hc => by
          simp only [List.mem_cons, List.mem_singleton, List.not_mem_nil, or_false] at hc
          rcases hc with rfl | rfl
          · exact ⟨rfl, rfl, rfl, rfl⟩
          · exact ⟨rfl, rfl, rfl, rfl⟩⟩
      (by decide) (by decide)).2,
    (C20_chains_compile_parallel graph_three_chains [[5, 0], [1, 4, 2], [3, 6]]
      (fun _ => .VISITING)
      ⟨by decide, fun b => by simp [graph_three_chains]; tauto,
        fun c hc => by
          simp only [List.mem_cons, List.mem_singleton, List.not_mem_nil, or_false] at hc
          rcases hc with rfl | rfl | rfl
          · exact ⟨rfl, rfl, rfl, rfl⟩
          · exact ⟨rfl, rfl, rfl, rfl, rfl, rfl⟩
          · exact ⟨rfl, rfl, rfl, rfl⟩⟩
      (by decide) (by decide)).2⟩

end Chains

/-! ## Moves in a well-formed store -/

section MoveGeneral

theorem char_toNat_inj {a b : Char} (h : a.toNat = b.toNat) : a = b := by
  rw [← Char.ofNat_toNat a, ← Char.ofNat_toNat b, h]

theorem Path.lt_nil_cons (b : Char) (bs : List Char) : Path.lt [] (b :: bs) = true := rfl

theorem Path.lt_nil_right (p : Path) : Path.lt p [] = false := by
  cases p <;> rfl

theorem Path.lt_cons_cons (a b : Char) (as bs : List Char) :
    Path.lt (a :: as) (b :: bs) = true ↔
      a.toNat < b.toNat ∨ (a = b ∧ Path.lt as bs = true) := by
  simp [Path.lt]

theorem Path.lt_irrefl : ∀ (p : Path), Path.lt p p = false
  | [] => rfl
  | a :: as => by
    have ih := Path.lt_irrefl as
    cases h : Path.lt (a :: as) (a :: as) with
    | false => rfl
    | true =>
      rcases (Path.lt_cons_cons a a as as).1 h with h1 | h1
      · omega
      · rw [ih] at h1
        cases h1.2

theorem Path.lt_trans :
    ∀ (a b c : Path), Path.lt a b = true → Path.lt b c = true → Path.lt a c = true
  | [], _, [], _, h2 => by rw [Path.lt_nil_right] at h2; cases h2
  | [], _, _ :: _, _, _ => rfl
  | _ :: _, [], _, h1, _ => by rw [Path.lt_nil_right] at h1; cases h1
  | _ :: _, _ :: _, [], _, h2 => by rw [Path.lt_nil_right] at h2; cases h2
  | x :: xs, y :: ys, z :: zs, h1, h2 => by
    rw [Path.lt_cons_cons] at h1 h2 ⊢
    rcases h1 with h1 | ⟨h1, h1'⟩
    · rcases h2 with h2 | ⟨h2, _⟩
      · exact Or.inl (by omega)
      · exact Or.inl (by rw [← h2]; exact h1)
    · rcases h2 with h2 | ⟨h2, h2'⟩
      · exact Or.inl (by rw [h1]; exact h2)
      · exact Or.inr ⟨h1.trans h2, Path.lt_trans xs ys zs h1' h2'⟩

theorem Path.lt_trichotomy :
    ∀ (a b : Path), Path.lt a b = true ∨ a = b ∨ Path.lt b a = true
  | [], [] => Or.inr (Or.inl rfl)
  | [], _ :: _ => Or.inl rfl
  | _ :: _, [] => Or.inr (Or.inr rfl)
  | x :: xs, y :: ys => by
    rw [Path.lt_cons_cons, Path.lt_cons_cons]
    rcases Nat.lt_trichotomy x.toNat y.toNat with h | h | h
    · exact Or.inl (Or.inl h)
    · have hxy := char_toNat_inj h
      rcases Path.lt_trichotomy xs ys with h' | h' | h'
      · exact Or.inl (Or.inr ⟨hxy, h'⟩)
      · exact Or.inr (Or.inl (by rw [hxy, h']))
      · exact Or.inr (Or.inr (Or.inr ⟨hxy.symm, h'⟩))
    · exact Or.inr (Or.inr (Or.inl h))

theorem Path.lt_asymm {a b : Path} (h : Path.lt a b = true) : Path.lt b a = false := by
  cases h' : Path.lt b a with
  | false => rfl
  | true =>
    have := Path.lt_trans a b a h h'
    rw [Path.lt_irrefl] at this
    cases this

theorem Path.lt_ne {a b : Path} (h : Path.lt a b = true) : a ≠ b := by
  intro hab
  rw [hab, Path.lt_irrefl] at h
  cases h

/-- A path comes before each of its proper extensions. -/
theorem Path.lt_append (p : Path) (c : Char) (t : List Char) :
    Path.lt p (p ++ c :: t) = true := by
  induction p with
  | nil => rfl
  | cons a as ih =>
    rw [List.cons_append, Path.lt_cons_cons]
    exact Or.inr ⟨rfl, ih⟩

/-- In the order of the paths, what lies between a path and one of its
descendants is a descendant of the path. -/
theorem Path.between_descendant :
    ∀ (o x : Path) (r : List Char), x.chars_ok → Path.lt o x = true →
      Path.lt x (o ++ '/' :: r) = true → ∃ r', x = o ++ '/' :: r'
  | [], [], _, _, h1, _ => by cases h1
  | [], c :: t, r, hok, _, h2 => by
    rw [List.nil_append, Path.lt_cons_cons] at h2
    rcases hok c (List.mem_cons_self _ _) with hc | hc
    · exact ⟨t, by rw [hc]; rfl⟩
    · rcases h2 with h2 | h2
      · omega
      · rw [h2.1] at hc
        omega
  | _ :: _, [], _, _, h1, _ => by rw [Path.lt_nil_right] at h1; cases h1
  | a :: o, b :: t, r, hok, h1, h2 => by
    rw [List.cons_append, Path.lt_cons_cons] at h2
    rw [Path.lt_cons_cons] at h1
    have hab : a = b ∧ Path.lt o t = true := by
      rcases h1 with h1 | h1
      · rcases h2 with h2 | h2
        · omega
        · rw [h2.1] at h1
          omega
      · exact h1
    have hbt : Path.lt t (o ++ '/' :: r) = true := by
      rcases h2 with h2 | h2
      · rw [hab.1] at h2
        omega
      · exact h2.2
    obtain ⟨r', hr'⟩ := Path.between_descendant o t r
      (fun c hc => hok c (List.mem_cons_of_mem _ hc)) hab.2 hbt
    exact ⟨r', by rw [hab.1, hr']; rfl⟩

/-- Below a path other than the root are the path itself and the paths that
continue it with a slash. -/
theorem descendant_iff (o k : Path) (ho : o ≠ ['/']) :
    Path.descendant_comparator o k = true ↔ k = o ∨ ∃ r, k = o ++ '/' :: r := by
  unfold Path.descendant_comparator
  simp only [Bool.or_eq_true, Bool.and_eq_true, beq_iff_eq, decide_eq_true_eq, ho, false_or]
  constructor
  · rintro (h | ⟨⟨hlen, htake⟩, hget⟩)
    · exact Or.inl h
    · right
      refine ⟨k.drop (o.length + 1), ?_⟩
      have hk : k = k.take o.length ++ k.drop o.length := (List.take_append_drop _ _).symm
      have hd : k.drop o.length = k[o.length] :: k.drop (o.length + 1) :=
        List.drop_eq_getElem_cons hlen
      have hg : k[o.length] = '/' := by
        rw [List.getD_eq_getElem _ _ hlen] at hget
        exact hget
      rw [htake, hd, hg] at hk
      exact hk
  · rintro (h | ⟨r, h⟩)
    · exact Or.inl h
    · right
      subst h
      refine ⟨⟨by simp, by simp⟩, ?_⟩
      rw [List.getD_eq_getElem _ _ (by simp), List.getElem_append_right (Nat.le_refl _)]
      simp

theorem find_last_of_append (c : Char) (r : List Char) :
    ∀ (q : List Char) (i : Nat), find_last_of c (q ++ c :: r) = some i → q.length ≤ i
  | [], _, _ => Nat.zero_le _
  | a :: q, i, h => by
    rw [List.cons_append] at h
    unfold find_last_of at h
    obtain ⟨j, hj⟩ := find_last_of_isSome c (q ++ c :: r) (by simp)
    rw [hj] at h
    simp only [Option.some.injEq] at h
    have := find_last_of_append c r q j hj
    simp only [List.length_cons]
    omega

/-- The parent of a path other than the root is shorter than the path. -/
theorem parent_length_lt (p : Path) (hp : p ≠ ['/']) (hs : '/' ∈ p) :
    p.parent.length < p.length := by
  unfold Path.parent
  rw [if_neg hp]
  obtain ⟨i, hi⟩ := find_last_of_isSome '/' p hs
  have hspec := find_last_of_spec '/' p i hi
  rw [hi]
  cases i with
  | zero =>
    simp only [List.length_singleton]
    cases p with
    | nil => simp at hs
    | cons a t =>
      cases t with
      | nil =>
        have h2 := hspec.2
        simp at h2
        exact absurd (by rw [h2]) hp
      | cons b t => simp
  | succ j =>
    simp only [List.length_take]
    omega

/-- The parent of a path below `q` is not shorter than `q`. -/
theorem parent_length_ge (q r : List Char) (hq : q ≠ []) :
    q.length ≤ (Path.parent (q ++ '/' :: r)).length := by
  have hne : q ++ '/' :: r ≠ ['/'] := by
    intro h
    have := congrArg List.length h
    have hq' : 0 < q.length := List.length_pos.2 hq
    simp at this
    omega
  unfold Path.parent
  rw [if_neg hne]
  obtain ⟨i, hi⟩ := find_last_of_isSome '/' (q ++ '/' :: r) (by simp)
  have hge := find_last_of_append '/' r q i hi
  have hspec := find_last_of_spec '/' _ i hi
  rw [hi]
  cases i with
  | zero =>
    have hq' : 0 < q.length := List.length_pos.2 hq
    omega
  | succ j =>
    simp only [List.length_take]
    omega

/-- Paths with the same parent do not lie below one another. -/
theorem not_below_sibling (o n : Path) (r : List Char) (ho : o ≠ ['/']) (hso : '/' ∈ o)
    (hpar : n.parent = o.parent) : n ≠ o ++ '/' :: r := by
  intro h
  have hne : o ≠ [] := by
    intro h0
    rw [h0] at hso
    cases hso
  have h1 := parent_length_ge o r hne
  have h2 := parent_length_lt o ho hso
  rw [← h, hpar] at h1
  omega

/-- What a move puts at or below the new path is not at or below the old
path, when both have the same parent. -/
theorem moved_not_below (o n : Path) (t : List Char) (ht : t = [] ∨ ∃ r, t = '/' :: r)
    (ho : o ≠ ['/']) (hn : n ≠ ['/']) (hso : '/' ∈ o) (hsn : '/' ∈ n)
    (hpar : n.parent = o.parent) (hne : n ≠ o) :
    ¬ (n ++ t = o ∨ ∃ r, n ++ t = o ++ '/' :: r) := by
  have key : ∀ (t' : List Char), (t' = [] ∨ ∃ r, t' = '/' :: r) → n ++ t ≠ o ++ t' := by
    intro t' ht' h
    rcases List.append_eq_append_iff.1 h with ⟨a, h1, h2⟩ | ⟨c, h1, h2⟩
    · cases a with
      | nil => exact hne (by simpa using h1.symm)
      | cons x a =>
        rcases ht with ht | ⟨r, ht⟩
        · rw [ht] at h2
          cases h2
        · rw [ht] at h2
          have hx : x = '/' := by
            have := List.cons.inj h2
            exact this.1.symm
          rw [hx] at h1
          exact not_below_sibling n o a hn hsn hpar.symm h1
    · cases c with
      | nil => exact hne (by simpa using h1)
      | cons x c =>
        rcases ht' with ht' | ⟨r, ht'⟩
        · rw [ht'] at h2
          cases h2
        · rw [ht'] at h2
          have hx : x = '/' := by
            have := List.cons.inj h2
            exact this.1.symm
          rw [hx] at h1
          exact not_below_sibling o n c ho hso hpar h1
  rintro (h | ⟨r, h⟩)
  · exact key [] (Or.inl rfl) (by simpa using h)
  · exact key ('/' :: r) (Or.inr ⟨r, rfl⟩) h

/-- Where the predicate, once false, stays false, `takeWhile` selects what
`filter` selects, and the rest is what the negated filter selects. -/
theorem takeWhile_eq_filter {α : Type} (p : α → Bool) :
    ∀ (l : List α), l.Pairwise (fun x y => p y = true → p x = true) →
      l.takeWhile p = l.filter p ∧ l.drop (l.takeWhile p).length = l.filter fun x => !p x
  | [], _ => ⟨rfl, rfl⟩
  | x :: t, h => by
    have h' := List.pairwise_cons.1 h
    have ih := takeWhile_eq_filter p t h'.2
    cases hx : p x with
    | true =>
      rw [List.takeWhile_cons_of_pos hx, List.filter_cons_of_pos hx, ih.1]
      refine ⟨rfl, ?_⟩
      rw [List.length_cons, List.drop_succ_cons, ← ih.1, ih.2, List.filter_cons_of_neg (by simp [hx])]
    | false =>
      have hall : ∀ y ∈ t, p y = false := by
        intro y hy
        cases hy' : p y with
        | false => rfl
        | true =>
          have := h'.1 y hy hy'
          rw [hx] at this
          cases this
      rw [List.takeWhile_cons_of_neg (by simp [hx]), List.filter_cons_of_neg (by simp [hx])]
      refine ⟨?_, ?_⟩
      · symm
        rw [List.filter_eq_nil_iff]
        intro y hy
        simp [hall y hy]
      · simp only [List.length_nil, List.drop_zero]
        symm
        rw [List.filter_eq_self]
        intro y hy
        rcases List.mem_cons.1 hy with hy | hy
        · simp [hy, hx]
        · simp [hall y hy]

/-- The iterator of `find` points at an entry with the path. -/
theorem Store.find_some (s : Store) (p : Path) (i : Nat) (h : s.find p = some i) :
    ∃ e post, s.drop i = e :: post ∧ e.1 = p ∧ s = s.take i ++ e :: post := by
  unfold Store.find at h
  by_cases hlt : List.findIdx (fun e => e.1 == p) s < s.length
  · simp only [hlt, if_true, Option.some.injEq] at h
    subst h
    have hget := List.findIdx_getElem (w := hlt)
    simp only [beq_iff_eq] at hget
    have hd := List.drop_eq_getElem_cons hlt
    refine ⟨_, _, hd, hget, ?_⟩
    rw [← hd, List.take_append_drop]
  · simp [hlt] at h

theorem Store.find_isSome (s : Store) (p : Path) (h : ∃ e ∈ s, e.1 = p) :
    ∃ i, s.find p = some i := by
  cases hf : s.find p with
  | some i => exact ⟨i, rfl⟩
  | none =>
    obtain ⟨e, he, hp⟩ := h
    exact absurd hp ((Store.find_eq_none_iff s p).1 hf e he)

/-- In a sorted store of paths, `remove` at the entry of a path other than
the root takes out exactly the entries at or below the path. -/
theorem Store.remove_spec (s : Store) (o : Path) (i : Nat)
    (hs : s.Pairwise (fun a b => Path.lt a.1 b.1 = true)) (hv : ∀ e ∈ s, e.1.chars_ok)
    (ho : o ≠ ['/']) (hf : s.find o = some i) :
    s.remove i = (s.filter (fun e => Path.descendant_comparator o e.1),
      s.filter (fun e => !Path.descendant_comparator o e.1)) := by
  obtain ⟨e, post, hd, he, hsplit⟩ := Store.find_some s o i hf
  have hs' := hs
  rw [hsplit] at hs'
  have hs2 := List.pairwise_append.1 hs'
  have hs3 := List.pairwise_cons.1 hs2.2.1
  have hpre : ∀ x ∈ s.take i, Path.descendant_comparator o x.1 = false := by
    intro x hx
    have hlt : Path.lt x.1 o = true := by
      rw [← he]
      exact hs2.2.2 x hx e (List.mem_cons_self _ _)
    cases hdc : Path.descendant_comparator o x.1 with
    | false => rfl
    | true =>
      rcases (descendant_iff o x.1 ho).1 hdc with h | ⟨r, h⟩
      · exact absurd h (Path.lt_ne hlt)
      · have h2 := Path.lt_append o '/' r
        rw [← h, Path.lt_asymm hlt] at h2
        cases h2
  have hpost : post.Pairwise (fun x y =>
      Path.descendant_comparator o y.1 = true → Path.descendant_comparator o x.1 = true) := by
    have hp := hs3.2
    have hmem : ∀ x ∈ post, x ∈ s := by
      intro x hx
      rw [hsplit]
      exact List.mem_append_right _ (List.mem_cons_of_mem _ hx)
    have hafter : ∀ x ∈ post, Path.lt o x.1 = true := by
      intro x hx
      rw [← he]
      exact hs3.1 x hx
    clear hd hsplit hs' hs2 hs3
    induction post with
    | nil => exact List.Pairwise.nil
    | cons x t ih =>
      have hp' := List.pairwise_cons.1 hp
      refine List.Pairwise.cons ?_ (ih hp'.2 (fun y hy => hmem y (List.mem_cons_of_mem _ hy))
        (fun y hy => hafter y (List.mem_cons_of_mem _ hy)))
      intro y hy hdy
      rcases (descendant_iff o y.1 ho).1 hdy with h | ⟨r, h⟩
      · have := hafter y (List.mem_cons_of_mem _ hy)
        rw [h, Path.lt_irrefl] at this
        cases this
      · have hxy := hp'.1 y hy
        rw [h] at hxy
        obtain ⟨r', hr'⟩ := Path.between_descendant o x.1 r (hv x (hmem x (List.mem_cons_self _ _)))
          (hafter x (List.mem_cons_self _ _)) hxy
        exact (descendant_iff o x.1 ho).2 (Or.inr ⟨r', hr'⟩)
  have htw := takeWhile_eq_filter (fun d : Path × GraphObject => Path.descendant_comparator o d.1)
    post hpost
  have hee : Path.descendant_comparator o e.1 = true :=
    (descendant_iff o e.1 ho).2 (Or.inl he)
  have hfilter1 : s.filter (fun e => Path.descendant_comparator o e.1) =
      e :: post.filter (fun e => Path.descendant_comparator o e.1) := by
    have : (s.take i).filter (fun e => Path.descendant_comparator o e.1) = [] := by
      rw [List.filter_eq_nil_iff]
      intro x hx
      simp [hpre x hx]
    conv => lhs; rw [hsplit]
    rw [List.filter_append, this, List.nil_append]
    simp only [List.filter_cons, hee, if_true]
  have hfilter2 : s.filter (fun e => !Path.descendant_comparator o e.1) =
      s.take i ++ post.filter (fun e => !Path.descendant_comparator o e.1) := by
    have : (s.take i).filter (fun e => !Path.descendant_comparator o e.1) = s.take i := by
      rw [List.filter_eq_self]
      intro x hx
      simp [hpre x hx]
    conv => lhs; rw [hsplit]
    rw [List.filter_append, this]
    simp only [List.filter_cons, hee, Bool.not_true, Bool.false_eq_true, if_false]
  unfold Store.remove
  rw [hd]
  simp only
  rw [he, htw.2, htw.1, hfilter1, hfilter2]

theorem Store.insert_perm (e : Path × GraphObject) :
    ∀ (s : Store), (Store.insert e s).Perm (e :: s)
  | [] => List.Perm.refl _
  | x :: xs => by
    unfold Store.insert
    split
    · exact List.Perm.refl _
    · exact ((Store.insert_perm e xs).cons x).trans (List.Perm.swap e x xs)

/-- An entry with a new key is inserted at its place in the order. -/
theorem Store.insert_sorted (e : Path × GraphObject) :
    ∀ (s : Store), s.Pairwise (fun a b => Path.lt a.1 b.1 = true) → (∀ x ∈ s, x.1 ≠ e.1) →
      (Store.insert e s).Pairwise (fun a b => Path.lt a.1 b.1 = true)
  | [], _, _ => by simp [Store.insert]
  | x :: xs, hs, hne => by
    have hs' := List.pairwise_cons.1 hs
    unfold Store.insert
    split
    · rename_i hlt
      refine List.Pairwise.cons ?_ hs
      intro y hy
      rcases List.mem_cons.1 hy with hy | hy
      · rw [hy]
        exact hlt
      · exact Path.lt_trans _ _ _ hlt (hs'.1 y hy)
    · rename_i hlt
      have hxe : Path.lt x.1 e.1 = true := by
        rcases Path.lt_trichotomy e.1 x.1 with h | h | h
        · exact absurd h hlt
        · exact absurd h.symm (hne x (List.mem_cons_self _ _))
        · exact h
      refine List.Pairwise.cons ?_
        (Store.insert_sorted e xs hs'.2 (fun y hy => hne y (List.mem_cons_of_mem _ hy)))
      intro y hy
      rcases List.mem_cons.1 ((Store.insert_perm e xs).mem_iff.1 hy) with hy | hy
      · rw [hy]
        exact hxe
      · exact hs'.1 y hy

theorem Store.add_perm : ∀ (t s : Store), (Store.add s t).Perm (s ++ t)
  | [], s => by simp [Store.add]
  | e :: t, s => by
    have ih := Store.add_perm t (Store.insert e s)
    unfold Store.add at ih ⊢
    rw [List.foldl_cons]
    refine ih.trans ?_
    refine ((Store.insert_perm e s).append_right t).trans ?_
    simp only [List.cons_append]
    exact List.perm_middle.symm

/-- A table with keys that are distinct and not in the store is merged into
the order of the store. -/
theorem Store.add_sorted :
    ∀ (t s : Store), s.Pairwise (fun a b => Path.lt a.1 b.1 = true) →
      (t.map Prod.fst).Nodup → (∀ x ∈ s, ∀ y ∈ t, x.1 ≠ y.1) →
      (Store.add s t).Pairwise (fun a b => Path.lt a.1 b.1 = true)
  | [], s, hs, _, _ => by simpa [Store.add] using hs
  | e :: t, s, hs, hnd, hdis => by
    rw [List.map_cons, List.nodup_cons] at hnd
    have h1 := Store.insert_sorted e s hs (fun x hx => hdis x hx e (List.mem_cons_self _ _))
    have ih := Store.add_sorted t (Store.insert e s) h1 hnd.2 (by
      intro x hx y hy
      rcases List.mem_cons.1 ((Store.insert_perm e s).mem_iff.1 hx) with hx | hx
      · rw [hx]
        intro h
        exact hnd.1 (List.mem_map.2 ⟨y, hy, h.symm⟩)
      · exact hdis x hx y (List.mem_cons_of_mem _ hy))
    unfold Store.add at ih ⊢
    rw [List.foldl_cons]
    exact ih

/-- On the entries at or below the old path the loop of `pre_process` puts
the path below the new path. -/
theorem rename_eq_moved (o n : Path) (ho : o ≠ ['/']) (hn : n ≠ ['/']) :
    ∀ (l : Store), (∀ e ∈ l, Path.descendant_comparator o e.1 = true) →
      Move.rename o n l = l.map (Move.moved o n) := by
  intro l hl
  unfold Move.rename
  apply List.map_congr_left
  intro e he
  have hkey : (if e.1 = o then n else n.base ++ e.1.drop (o.length + 1)) =
      n ++ e.1.drop o.length := by
    rcases (descendant_iff o e.1 ho).1 (hl e he) with h | ⟨r, h⟩
    · rw [if_pos h, h]
      simp
    · have hne : e.1 ≠ o := by
        intro h'
        rw [h] at h'
        have := congrArg List.length h'
        simp at this
      rw [if_neg hne, h]
      unfold Path.base
      rw [if_neg hn]
      simp
  simp only [Move.moved]
  rw [hkey]

theorem moved_key (o n : Path) (e : Path × GraphObject) (ho : o ≠ ['/'])
    (h : Path.descendant_comparator o e.1 = true) :
    ∃ t, (t = [] ∨ ∃ r, t = '/' :: r) ∧ e.1 = o ++ t ∧ (Move.moved o n e).1 = n ++ t := by
  rcases (descendant_iff o e.1 ho).1 h with h | ⟨r, h⟩
  · exact ⟨[], Or.inl rfl, by simpa using h, by simp [Move.moved, h]⟩
  · exact ⟨'/' :: r, Or.inr ⟨r, rfl⟩, h, by simp [Move.moved, h]⟩

/-- A move within a parent, in a sorted store of paths that holds the old
path and nothing at or below the new path: `pre_process` reports no error,
and the store afterwards is sorted and consists of the entries that were not
at or below the old path, and of the entries that were, put below the new
path. -/
theorem move_spec (store : Store) (o n : Path)
    (hs : store.Pairwise (fun a b => Path.lt a.1 b.1 = true))
    (hv : ∀ e ∈ store, e.1.chars_ok) (ho : o ≠ ['/']) (hn : n ≠ ['/']) (hsn : '/' ∈ n)
    (hpar : n.parent = o.parent) (hold : ∃ e ∈ store, e.1 = o)
    (hnew : ∀ e ∈ store, Path.descendant_comparator n e.1 = false) :
    ∃ S, Move.pre_process store o n = (S, .NO_ERROR) ∧
      S.Pairwise (fun a b => Path.lt a.1 b.1 = true) ∧
      S.Perm (store.filter (fun e => !Path.descendant_comparator o e.1) ++
        (store.filter (fun e => Path.descendant_comparator o e.1)).map (Move.moved o n)) := by
  obtain ⟨i, hi⟩ := Store.find_isSome store o hold
  have hcheck : o.parent.is_parent_of n = true := by
    rw [← hpar]
    exact parent_is_parent_of_self n hsn
  have habsent : (store.find_object n).isSome = false := by
    cases h : (store.find_object n).isSome with
    | false => rfl
    | true =>
      obtain ⟨e, he, hen⟩ := (Store.find_object_isSome_iff store n).1 h
      have := hnew e he
      rw [(descendant_iff n e.1 hn).2 (Or.inl hen)] at this
      cases this
  have hrem := Store.remove_spec store o i hs hv ho hi
  have hren := rename_eq_moved o n ho hn
    (store.filter (fun e => Path.descendant_comparator o e.1))
    (fun e he => (List.mem_filter.1 he).2)
  refine ⟨Store.add (store.filter (fun e => !Path.descendant_comparator o e.1))
    ((store.filter (fun e => Path.descendant_comparator o e.1)).map (Move.moved o n)),
    ?_, ?_, Store.add_perm _ _⟩
  · unfold Move.pre_process
    simp only [hcheck, Bool.not_true, Bool.false_eq_true, if_false, hi, habsent, hrem, hren]
  · apply Store.add_sorted
    · exact hs.filter _
    · rw [List.map_map]
      have hp : (store.filter (fun e => Path.descendant_comparator o e.1)).Pairwise
          (fun a b => Path.lt a.1 b.1 = true) := hs.filter _
      have hmem : ∀ e ∈ store.filter (fun e => Path.descendant_comparator o e.1),
          Path.descendant_comparator o e.1 = true := fun e he => (List.mem_filter.1 he).2
      generalize store.filter (fun e => Path.descendant_comparator o e.1) = l at hp hmem
      induction l with
      | nil => exact List.nodup_nil
      | cons x t ih =>
        have hp' := List.pairwise_cons.1 hp
        rw [List.map_cons, List.nodup_cons]
        refine ⟨?_, ih hp'.2 (fun e he => hmem e (List.mem_cons_of_mem _ he))⟩
        intro hin
        obtain ⟨y, hy, hxy⟩ := List.mem_map.1 hin
        simp only [Function.comp] at hxy
        obtain ⟨tx, _, hx1, hx2⟩ := moved_key o n x ho (hmem x (List.mem_cons_self _ _))
        obtain ⟨ty, _, hy1, hy2⟩ := moved_key o n y ho (hmem y (List.mem_cons_of_mem _ hy))
        rw [hx2, hy2] at hxy
        have ht : ty = tx := List.append_cancel_left hxy
        have hlt := hp'.1 y hy
        rw [hx1, hy1, ht, Path.lt_irrefl] at hlt
        cases hlt
    · intro x hx y hy
      obtain ⟨e, he, hey⟩ := List.mem_map.1 hy
      have hx' := hnew x (List.mem_filter.1 hx).1
      obtain ⟨t, ht, _, h2⟩ := moved_key o n e ho (List.mem_filter.1 he).2
      intro hxy
      have hb : Path.descendant_comparator n x.1 = true := by
        rw [hxy, ← hey, h2]
        rcases ht with ht | ⟨r, ht⟩
        · exact (descendant_iff n _ hn).2 (Or.inl (by rw [ht]; simp))
        · exact (descendant_iff n _ hn).2 (Or.inr ⟨r, by rw [ht]⟩)
      rw [hb] at hx'
      cases hx'

/-- In a store closed under ancestors, the path above a slash of a key is a
key. -/
theorem ancestors_closed_spec (s : Store) (h : s.ancestors_closed = true)
    (e : Path × GraphObject) (he : e ∈ s) (p r : List Char) (hp : e.1 = p ++ '/' :: r)
    (hne : p ≠ []) : ∃ e' ∈ s, e'.1 = p := by
  unfold Store.ancestors_closed at h
  rw [List.all_eq_true] at h
  have h1 := h e he
  rw [List.all_eq_true] at h1
  have hlen : p.length < e.1.length := by
    rw [hp]
    simp
  have h2 := h1 p.length (List.mem_range.2 hlen)
  have hpos : 0 < p.length := List.length_pos.2 hne
  have hget : e.1.getD p.length 'x' = '/' := by
    rw [List.getD_eq_getElem _ _ hlen]
    simp only [hp]
    rw [List.getElem_append_right (Nat.le_refl _)]
    simp
  have htake : e.1.take p.length = p := by
    rw [hp]
    simp
  rw [hget, htake] at h2
  have h3 : (s.find_object p).isSome = true := by
    have hz : (p.length == 0) = false := by
      rw [beq_eq_false_iff_ne]
      omega
    rw [hz] at h2
    simpa using h2
  exact (Store.find_object_isSome_iff s p).1 h3

theorem mem_of_head {p : Path} (h : p.head? = some '/') : '/' ∈ p := by
  cases p with
  | nil => cases h
  | cons a t =>
    simp only [List.head?_cons, Option.some.injEq] at h
    rw [h]
    exact List.mem_cons_self _ _

/-- In a well-formed store nothing lies at or below a path that is not in
the store. -/
theorem absent_not_below (store : Store) (n : Path) (hwf : store.WF) (hn : n ≠ ['/'])
    (hsn : '/' ∈ n) (hnew : ∀ e ∈ store, e.1 ≠ n) :
    ∀ e ∈ store, Path.descendant_comparator n e.1 = false := by
  intro e he
  cases h : Path.descendant_comparator n e.1 with
  | false => rfl
  | true =>
    rcases (descendant_iff n e.1 hn).1 h with h1 | ⟨r, h1⟩
    · exact absurd h1 (hnew e he)
    · have hne : n ≠ [] := by
        intro h0
        rw [h0] at hsn
        cases hsn
      obtain ⟨e', he', h2⟩ := ancestors_closed_spec store hwf.2.2.2 e he n r h1 hne
      exact absurd h2 (hnew e' he')

/-- Moving an entry and moving it back gives the entry, when its key is the
path of its object. -/
theorem moved_moved (o n : Path) (e : Path × GraphObject) (ho : o ≠ ['/'])
    (h : Path.descendant_comparator o e.1 = true) (hkey : e.1 = e.2.path) :
    Move.moved n o (Move.moved o n e) = e := by
  obtain ⟨t, _, h1, _⟩ := moved_key o n e ho h
  obtain ⟨k, obj⟩ := e
  simp only at h1 hkey
  subst h1
  simp only [Move.moved, GraphObject.set_path, List.drop_left, List.drop_append_of_le_length,
    Nat.le_refl, List.drop_length, List.nil_append]
  rw [hkey]

/-- A move of a path other than the root within its parent, in a
well-formed store whose keys are the paths of the objects, to a path that is
not in the store: `pre_process` reports no error; the store keeps its number
of entries; no entry is left at or below the old path; every entry that was
at or below the old path is below the new path in the same way, as key and
in its object; the other entries are unchanged; every key is still the path
of its object, and no two entries share a key. -/
theorem move_within_parent (store : Store) (o n : Path) (hwf : store.WF)
    (hkey : ∀ e ∈ store, e.1 = e.2.path) (ho : o ≠ ['/']) (hnv : n.Valid)
    (hpar : n.parent = o.parent) (hold : ∃ e ∈ store, e.1 = o)
    (hnew : ∀ e ∈ store, e.1 ≠ n) :
    (Move.pre_process store o n).2 = .NO_ERROR ∧
    (Move.pre_process store o n).1.length = store.length ∧
    (∀ e ∈ (Move.pre_process store o n).1, Path.descendant_comparator o e.1 = false) ∧
    (∀ e ∈ store, Path.descendant_comparator o e.1 = true →
      Move.moved o n e ∈ (Move.pre_process store o n).1) ∧
    (∀ e ∈ store, Path.descendant_comparator o e.1 = false →
      e ∈ (Move.pre_process store o n).1) ∧
    (∀ e ∈ (Move.pre_process store o n).1, e.1 = e.2.path) ∧
    ((Move.pre_process store o n).1.map Prod.fst).Nodup ∧
    (Move.pre_process store o n).1.Pairwise (fun a b => Path.lt a.1 b.1 = true) := by
  obtain ⟨hs, hv, ⟨eroot, heroot, hroot⟩, hanc⟩ := hwf
  have hn : n ≠ ['/'] := by
    intro h
    exact hnew eroot heroot (by rw [hroot, h])
  have hsn : '/' ∈ n := mem_of_head hnv.1
  obtain ⟨eo, heo, hoe⟩ := hold
  have hso : '/' ∈ o := by
    rw [← hoe]
    exact mem_of_head (hv eo heo).1
  have hnew' := absent_not_below store n ⟨hs, hv, ⟨eroot, heroot, hroot⟩, hanc⟩ hn hsn hnew
  obtain ⟨S, hS, hsorted, hperm⟩ := move_spec store o n hs (fun e he => (hv e he).2) ho hn hsn
    hpar ⟨eo, heo, hoe⟩ hnew'
  rw [hS]
  have hno : n ≠ o := by
    intro h
    exact hnew eo heo (by rw [hoe, h])
  refine ⟨rfl, ?_, ?_, ?_, ?_, ?_, ?_, hsorted⟩
  · have h1 := hperm.length_eq
    have h2 := (List.filter_append_perm (fun e : Path × GraphObject =>
      Path.descendant_comparator o e.1) store).length_eq
    simp only [List.length_append, List.length_map] at h1 h2
    simp only
    omega
  · intro e he
    rcases List.mem_append.1 (hperm.mem_iff.1 he) with h | h
    · have := (List.mem_filter.1 h).2
      simpa using this
    · obtain ⟨x, hx, hxe⟩ := List.mem_map.1 h
      obtain ⟨t, ht, _, h2⟩ := moved_key o n x ho (List.mem_filter.1 hx).2
      cases hd : Path.descendant_comparator o e.1 with
      | false => rfl
      | true =>
        have h3 := (descendant_iff o e.1 ho).1 hd
        rw [← hxe, h2] at h3
        exact absurd h3 (moved_not_below o n t ht ho hn hso hsn hpar hno)
  · intro e he hd
    apply hperm.mem_iff.2
    exact List.mem_append_right _ (List.mem_map_of_mem _ (List.mem_filter.2 ⟨he, hd⟩))
  · intro e he hd
    apply hperm.mem_iff.2
    exact List.mem_append_left _ (List.mem_filter.2 ⟨he, by simp [hd]⟩)
  · intro e he
    rcases List.mem_append.1 (hperm.mem_iff.1 he) with h | h
    · exact hkey e (List.mem_filter.1 h).1
    · obtain ⟨x, _, hxe⟩ := List.mem_map.1 h
      rw [← hxe]
      rfl
  · have hp : (S.map Prod.fst).Pairwise (fun a b => Path.lt a b = true) := by
      rw [List.pairwise_map]
      exact hsorted
    exact hp.imp (fun h => Path.lt_ne h)

/-- The round trip of a move of a path other than the root within its
parent, in a well-formed store whose keys are the paths of the objects:
`Move(o, n)` and then `Move(n, o)` both report no error and give the store
back. -/
theorem move_round_trip (store : Store) (o n : Path) (hwf : store.WF)
    (hkey : ∀ e ∈ store, e.1 = e.2.path) (ho : o ≠ ['/']) (hnv : n.Valid)
    (hpar : n.parent = o.parent) (hold : ∃ e ∈ store, e.1 = o)
    (hnew : ∀ e ∈ store, e.1 ≠ n) :
    (Move.pre_process store o n).2 = .NO_ERROR ∧
    Move.pre_process (Move.pre_process store o n).1 n o = (store, .NO_ERROR) := by
  have hfirst := move_within_parent store o n hwf hkey ho hnv hpar hold hnew
  obtain ⟨hs, hv, ⟨eroot, heroot, hroot⟩, hanc⟩ := hwf
  have hn : n ≠ ['/'] := by
    intro h
    exact hnew eroot heroot (by rw [hroot, h])
  have hsn : '/' ∈ n := mem_of_head hnv.1
  obtain ⟨eo, heo, hoe⟩ := hold
  have hso : '/' ∈ o := by
    rw [← hoe]
    exact mem_of_head (hv eo heo).1
  have hnew' := absent_not_below store n ⟨hs, hv, ⟨eroot, heroot, hroot⟩, hanc⟩ hn hsn hnew
  obtain ⟨S, hS, hsorted, hperm⟩ := move_spec store o n hs (fun e he => (hv e he).2) ho hn hsn
    hpar ⟨eo, heo, hoe⟩ hnew'
  rw [hS] at hfirst ⊢
  refine ⟨rfl, ?_⟩
  show Move.pre_process S n o = (store, .NO_ERROR)
  have hvS : ∀ e ∈ S, e.1.chars_ok := by
    intro e he
    rcases List.mem_append.1 (hperm.mem_iff.1 he) with h | h
    · exact (hv e (List.mem_filter.1 h).1).2
    · obtain ⟨x, hx, hxe⟩ := List.mem_map.1 h
      obtain ⟨t, _, h1, h2⟩ := moved_key o n x ho (List.mem_filter.1 hx).2
      rw [← hxe, h2]
      intro c hc
      rcases List.mem_append.1 hc with hc | hc
      · exact hnv.2 c hc
      · exact (hv x (List.mem_filter.1 hx).1).2 c (by rw [h1]; exact List.mem_append_right _ hc)
  have hoe' : Path.descendant_comparator o eo.1 = true :=
    (descendant_iff o eo.1 ho).2 (Or.inl hoe)
  have hnS : ∃ e ∈ S, e.1 = n := by
    refine ⟨Move.moved o n eo, hfirst.2.2.2.1 eo heo hoe', ?_⟩
    simp [Move.moved, hoe]
  obtain ⟨S2, hS2, hsorted2, hperm2⟩ := move_spec S n o hsorted hvS hn ho hso hpar.symm hnS
    hfirst.2.2.1
  rw [hS2]
  have hA : ∀ e ∈ store.filter (fun e => !Path.descendant_comparator o e.1),
      Path.descendant_comparator n e.1 = false :=
    fun e he => hnew' e (List.mem_filter.1 he).1
  have hB : ∀ e ∈ (store.filter (fun e => Path.descendant_comparator o e.1)).map
      (Move.moved o n), Path.descendant_comparator n e.1 = true := by
    intro e he
    obtain ⟨x, hx, hxe⟩ := List.mem_map.1 he
    obtain ⟨t, ht, _, h2⟩ := moved_key o n x ho (List.mem_filter.1 hx).2
    rw [← hxe, h2]
    rcases ht with ht | ⟨r, ht⟩
    · exact (descendant_iff n _ hn).2 (Or.inl (by rw [ht]; simp))
    · exact (descendant_iff n _ hn).2 (Or.inr ⟨r, by rw [ht]⟩)
  have hf1 : (S.filter (fun e => !Path.descendant_comparator n e.1)).Perm
      (store.filter (fun e => !Path.descendant_comparator o e.1)) := by
    refine (hperm.filter _).trans ?_
    rw [List.filter_append]
    have e1 : (store.filter (fun e => !Path.descendant_comparator o e.1)).filter
        (fun e => !Path.descendant_comparator n e.1) =
        store.filter (fun e => !Path.descendant_comparator o e.1) := by
      rw [List.filter_eq_self]
      intro x hx
      simp [hA x hx]
    have e2 : ((store.filter (fun e => Path.descendant_comparator o e.1)).map
        (Move.moved o n)).filter (fun e => !Path.descendant_comparator n e.1) = [] := by
      rw [List.filter_eq_nil_iff]
      intro x hx
      simp [hB x hx]
    rw [e1, e2, List.append_nil]
  have hf2 : (S.filter (fun e => Path.descendant_comparator n e.1)).Perm
      ((store.filter (fun e => Path.descendant_comparator o e.1)).map (Move.moved o n)) := by
    refine (hperm.filter _).trans ?_
    rw [List.filter_append]
    have e1 : (store.filter (fun e => !Path.descendant_comparator o e.1)).filter
        (fun e => Path.descendant_comparator n e.1) = [] := by
      rw [List.filter_eq_nil_iff]
      intro x hx
      simp [hA x hx]
    have e2 : ((store.filter (fun e => Path.descendant_comparator o e.1)).map
        (Move.moved o n)).filter (fun e => Path.descendant_comparator n e.1) =
        (store.filter (fun e => Path.descendant_comparator o e.1)).map (Move.moved o n) := by
      rw [List.filter_eq_self]
      intro x hx
      exact hB x hx
    rw [e1, e2, List.nil_append]
  have hback : ((store.filter (fun e => Path.descendant_comparator o e.1)).map
      (Move.moved o n)).map (Move.moved n o) =
      store.filter (fun e => Path.descendant_comparator o e.1) := by
    rw [List.map_map]
    conv => rhs; rw [← List.map_id (store.filter (fun e => Path.descendant_comparator o e.1))]
    apply List.map_congr_left
    intro e he
    have hm := List.mem_filter.1 he
    simp only [Function.comp, id]
    exact moved_moved o n e ho hm.2 (hkey e hm.1)
  have hfinal : S2.Perm store := by
    refine hperm2.trans ?_
    refine (hf1.append (hf2.map (Move.moved n o))).trans ?_
    rw [hback]
    refine List.perm_append_comm.trans ?_
    exact List.filter_append_perm _ store
  have hanti : IsAntisymm (Path × GraphObject) (fun a b => Path.lt a.1 b.1 = true) :=
    ⟨fun a b h1 h2 => by rw [Path.lt_asymm h1] at h2; cases h2⟩
  have heq : S2 = store := @List.eq_of_perm_of_sorted _ _ hanti _ _ hfinal hsorted2 hs
  rw [heq]

/-- The example store is well formed, and `Move(/a/x, /a/y)` on it is a move
within a parent as in `move_within_parent`: the entries `/a/x` and `/a/x/in`
end at `/a/y` and `/a/y/in`, and `Move(/a/y, /a/x)` gives the store back. -/
theorem move_within_parent_example :
    store_example.WF ∧
    (Move.pre_process store_example (Path.of "/a/x") (Path.of "/a/y")).1.length =
      store_example.length ∧
    (Path.of "/a/y/in", (⟨4, Path.of "/a/y/in"⟩ : GraphObject)) ∈
      (Move.pre_process store_example (Path.of "/a/x") (Path.of "/a/y")).1 ∧
    Move.pre_process (Move.pre_process store_example (Path.of "/a/x") (Path.of "/a/y")).1
      (Path.of "/a/y") (Path.of "/a/x") = (store_example, .NO_ERROR) :=
  have h1 := move_within_parent store_example (Path.of "/a/x") (Path.of "/a/y") (by decide)
    (by decide) (by decide) (by decide) (by decide) (by decide) (by decide)
  have h2 := move_round_trip store_example (Path.of "/a/x") (Path.of "/a/y") (by decide)
    (by decide) (by decide) (by decide) (by decide) (by decide) (by decide)
  ⟨by decide, h1.2.1,
    h1.2.2.2.1 (Path.of "/a/x/in", ⟨4, Path.of "/a/x/in"⟩) (by decide) (by decide), h2.2⟩

end MoveGeneral

/-! ## More properties of the MidiNote allocator -/

section MidiNoteMore

theorem all_notes_off_inv (n : MidiNoteNode) (t : Nat) (ctx : ProcessContext) :
    (all_notes_off n t ctx)._polyphony = n._polyphony ∧
    (all_notes_off n t ctx)._buffer_size = n._buffer_size ∧
    (all_notes_off n t ctx)._keys = n._keys ∧
    (all_notes_off n t ctx)._sustain = n._sustain ∧
    (∀ i, i < n._polyphony → ((all_notes_off n t ctx)._voices i).state = .FREE ∧
      ∀ f, sub32 t ctx.start ≤ f → f < n._buffer_size →
        (all_notes_off n t ctx)._gate_port i f = .zero) ∧
    (∀ i, n._polyphony ≤ i → (all_notes_off n t ctx)._voices i = n._voices i ∧
      (all_notes_off n t ctx)._gate_port i = n._gate_port i) := by
  have h := loop_range_inv
    (fun j (s : MidiNoteNode) =>
      s._polyphony = n._polyphony ∧ s._buffer_size = n._buffer_size ∧ s._keys = n._keys ∧
      s._sustain = n._sustain ∧
      (∀ i, i < j → (s._voices i).state = .FREE ∧
        ∀ f, sub32 t ctx.start ≤ f → f < n._buffer_size → s._gate_port i f = .zero) ∧
      (∀ i, j ≤ i → s._voices i = n._voices i ∧ s._gate_port i = n._gate_port i))
    (fun i (n : MidiNoteNode) =>
      { n with
        _gate_port := upd n._gate_port i
          (AudioBuffer.set n._buffer_size (n._gate_port i) .zero (sub32 t ctx.start))
        _voices := upd n._voices i { n._voices i with state := .FREE } })
    n._polyphony 0 n
    ⟨rfl, rfl, rfl, rfl, fun i hi => by omega, fun _ _ => ⟨rfl, rfl⟩⟩
    (by
      intro j s _ _ ⟨h1, h2, h3, h4, h5, h6⟩
      refine ⟨h1, h2, h3, h4, ?_, ?_⟩
      · intro i hi
        by_cases e : i = j
        · subst e
          refine ⟨by simp [upd_same], ?_⟩
          intro f hf1 hf2
          simp only [upd_same]
          unfold AudioBuffer.set
          rw [h2, if_pos ⟨hf1, hf2⟩]
        · simp only [upd_other _ _ e]
          exact h5 i (by omega)
      · intro i hi
        have e : i ≠ j := by omega
        simp only [upd_other _ _ e]
        exact h6 i (by omega))
  simpa [all_notes_off] using h

/-- C22: after `all_notes_off(t)`, from any state, every voice below the
polyphony is free and its gate buffer is zero from the frame of `t` in the
cycle (`t - context.start()`) to the end of the buffer; the keys and the
pedal are as they were. -/
theorem C22_all_notes_off (n : MidiNoteNode) (t : Nat) (ctx : ProcessContext) :
    (∀ i, i < n._polyphony → ((all_notes_off n t ctx)._voices i).state = .FREE) ∧
    (∀ i, i < n._polyphony → ∀ f, sub32 t ctx.start ≤ f → f < n._buffer_size →
      (all_notes_off n t ctx)._gate_port i f = .zero) ∧
    (all_notes_off n t ctx)._keys = n._keys ∧
    (all_notes_off n t ctx)._sustain = n._sustain :=
  have h := all_notes_off_inv n t ctx
  ⟨fun i hi => (h.2.2.2.2.1 i hi).1, fun i hi => (h.2.2.2.2.1 i hi).2, h.2.2.1, h.2.2.2.1⟩

set_option maxRecDepth 1000000 in
/-- An instance of C22: after the note-ons 60@0, 62@10 with two voices,
`all_notes_off` at frame 20 frees both voices and sets their gates to zero
from sample 20 on. -/
theorem C22_all_notes_off_witness :
    ((all_notes_off node_two_notes 20 context_example)._voices 0).state = .FREE ∧
    ((all_notes_off node_two_notes 20 context_example)._voices 1).state = .FREE ∧
    (all_notes_off node_two_notes 20 context_example)._gate_port 1 19 = .one ∧
    (all_notes_off node_two_notes 20 context_example)._gate_port 1 20 = .zero ∧
    (all_notes_off node_two_notes 20 context_example)._gate_port 0 63 = .zero :=
  have h := C22_all_notes_off node_two_notes 20 context_example
  ⟨h.1 0 (by decide), h.1 1 (by decide), by decide, h.2.1 1 (by decide) 20 (by decide) (by decide),
    h.2.1 0 (by decide) 63 (by decide) (by decide)⟩

theorem note_on_ports (n : MidiNoteNode) (k vel time : Nat) (ctx : ProcessContext)
    (hoff : (n._keys k).state = .OFF) (offset : Nat)
    (ho : offset = (if sub32 time ctx.start = (n._buffer_size + 2 ^ 32 - 1) % 2 ^ 32
      then sub32 (sub32 time ctx.start) 1 else sub32 time ctx.start)) :
    (note_on n k vel time ctx)._trig_port (choose_voice n._voices n._polyphony) =
      AudioBuffer.set n._buffer_size
        (AudioBuffer.set_range (n._trig_port (choose_voice n._voices n._polyphony)) .one
          offset offset) .zero ((offset + 1) % 2 ^ 32) ∧
    (note_on n k vel time ctx)._gate_port (choose_voice n._voices n._polyphony) =
      AudioBuffer.set n._buffer_size (n._gate_port (choose_voice n._voices n._polyphony)) .one
        offset := by
  unfold note_on
  simp only [hoff, ne_eq, not_true_eq_false, if_false, upd_same]
  rw [ho]
  exact ⟨rfl, rfl⟩

/-- C23 (as amended): a `note_on` for a key that is off, at the frame `k =
time - context.start()` of a cycle of `_buffer_size` frames, allocates the
voice `v` chosen by `choose_voice`. When `k` is not the last frame of the
buffer, the trigger buffer of `v` is `1.0` at sample `k` and `0.0` at every
later sample, and the gate buffer of `v` is `1.0` from sample `k` on. When
`k` is the last frame (and not the first), pulse and gate are written one
sample earlier: the trigger is `1.0` at sample `k - 1` and `0.0` at sample
`k`, and the gate is `1.0` from sample `k - 1` on. -/
theorem C23_note_on_trigger (n : MidiNoteNode) (key vel time : Nat) (ctx : ProcessContext)
    (hoff : (n._keys key).state = .OFF) (hk : sub32 time ctx.start < n._buffer_size)
    (hsize : n._buffer_size ≤ 2 ^ 32) :
    (sub32 time ctx.start + 1 < n._buffer_size →
      (note_on n key vel time ctx)._trig_port (choose_voice n._voices n._polyphony)
        (sub32 time ctx.start) = .one ∧
      (∀ f, sub32 time ctx.start < f → f < n._buffer_size →
        (note_on n key vel time ctx)._trig_port (choose_voice n._voices n._polyphony) f =
          .zero) ∧
      (∀ f, sub32 time ctx.start ≤ f → f < n._buffer_size →
        (note_on n key vel time ctx)._gate_port (choose_voice n._voices n._polyphony) f =
          .one)) ∧
    (sub32 time ctx.start + 1 = n._buffer_size → 1 ≤ sub32 time ctx.start →
      (note_on n key vel time ctx)._trig_port (choose_voice n._voices n._polyphony)
        (sub32 time ctx.start - 1) = .one ∧
      (note_on n key vel time ctx)._trig_port (choose_voice n._voices n._polyphony)
        (sub32 time ctx.start) = .zero ∧
      (∀ f, sub32 time ctx.start - 1 ≤ f → f < n._buffer_size →
        (note_on n key vel time ctx)._gate_port (choose_voice n._voices n._polyphony) f =
          .one)) := by
  constructor
  · intro hlast
    have hne : ¬ sub32 time ctx.start = (n._buffer_size + 2 ^ 32 - 1) % 2 ^ 32 := by
      have e : n._buffer_size + 2 ^ 32 - 1 = (n._buffer_size - 1) + 2 ^ 32 := by omega
      rw [e, Nat.add_mod_right, Nat.mod_eq_of_lt (by omega)]
      omega
    obtain ⟨ht, hg⟩ := note_on_ports n key vel time ctx hoff (sub32 time ctx.start)
      (by rw [if_neg hne])
    rw [ht, hg]
    have h1 : (sub32 time ctx.start + 1) % 2 ^ 32 = sub32 time ctx.start + 1 :=
      Nat.mod_eq_of_lt (by omega)
    refine ⟨?_, ?_, ?_⟩
    · unfold AudioBuffer.set AudioBuffer.set_range
      rw [h1, if_neg (by omega), if_pos ⟨Nat.le_refl _, Nat.le_refl _⟩]
    · intro f hf1 hf2
      unfold AudioBuffer.set
      rw [h1, if_pos ⟨by omega, hf2⟩]
    · intro f hf1 hf2
      unfold AudioBuffer.set
      rw [if_pos ⟨hf1, hf2⟩]
  · intro hlast hpos
    have heq : sub32 time ctx.start = (n._buffer_size + 2 ^ 32 - 1) % 2 ^ 32 := by
      have e : n._buffer_size + 2 ^ 32 - 1 = (n._buffer_size - 1) + 2 ^ 32 := by omega
      rw [e, Nat.add_mod_right, Nat.mod_eq_of_lt (by omega)]
      omega
    have hsub : sub32 (sub32 time ctx.start) 1 = sub32 time ctx.start - 1 := by
      generalize sub32 time ctx.start = k at hpos hk hlast
      unfold sub32
      have e : k + 2 ^ 32 - 1 % 2 ^ 32 = (k - 1) + 2 ^ 32 := by
        rw [Nat.mod_eq_of_lt (by norm_num)]
        omega
      rw [e, Nat.add_mod_right, Nat.mod_eq_of_lt (by omega)]
    obtain ⟨ht, hg⟩ := note_on_ports n key vel time ctx hoff (sub32 time ctx.start - 1)
      (by rw [if_pos heq, hsub])
    rw [ht, hg]
    have h1 : (sub32 time ctx.start - 1 + 1) % 2 ^ 32 = sub32 time ctx.start := by
      rw [Nat.sub_add_cancel hpos]
      exact Nat.mod_eq_of_lt (by omega)
    refine ⟨?_, ?_, ?_⟩
    · unfold AudioBuffer.set AudioBuffer.set_range
      rw [h1, if_neg (by omega), if_pos ⟨Nat.le_refl _, Nat.le_refl _⟩]
    · unfold AudioBuffer.set
      rw [h1, if_pos ⟨Nat.le_refl _, hk⟩]
    · intro f hf1 hf2
      unfold AudioBuffer.set
      rw [if_pos ⟨hf1, hf2⟩]

set_option maxRecDepth 1000000 in
/-- C23 as stated fails: a `note_on` at the last frame, 63, of a cycle of 64
frames allocates voice 0, but the trigger buffer of voice 0 is `0.0` at
sample 63 and the pulse is at sample 62. -/
theorem C23_last_frame_pulse_early :
    ((MidiNoteNode.init 2 64)._keys 60).state = .OFF ∧
    sub32 63 context_example.start = 63 ∧ (MidiNoteNode.init 2 64)._buffer_size = 64 ∧
    choose_voice (MidiNoteNode.init 2 64)._voices 2 = 0 ∧
    ((note_on (MidiNoteNode.init 2 64) 60 100 63 context_example)._voices 0).state = .ACTIVE ∧
    (note_on (MidiNoteNode.init 2 64) 60 100 63 context_example)._trig_port 0 63 = .zero ∧
    (note_on (MidiNoteNode.init 2 64) 60 100 63 context_example)._trig_port 0 62 = .one ∧
    (note_on (MidiNoteNode.init 2 64) 60 100 63 context_example)._gate_port 0 62 = .one := by
  decide

set_option maxRecDepth 1000000 in
/-- Instances of C23: a `note_on` at frame 10 of a cycle of 64 frames gives a
pulse at sample 10; a `note_on` at frame 63 gives a pulse at sample 62. -/
theorem C23_note_on_trigger_witness :
    (note_on (MidiNoteNode.init 2 64) 60 100 10 context_example)._trig_port 0 10 = .one ∧
    (note_on (MidiNoteNode.init 2 64) 60 100 10 context_example)._trig_port 0 11 = .zero ∧
    (note_on (MidiNoteNode.init 2 64) 60 100 63 context_example)._trig_port 0 62 = .one :=
  have h := C23_note_on_trigger (MidiNoteNode.init 2 64) 60 100 10 context_example (by decide)
    (by decide) (by decide)
  have h' := C23_note_on_trigger (MidiNoteNode.init 2 64) 60 100 63 context_example (by decide)
    (by decide) (by decide)
  ⟨(h.1 (by decide)).1, (h.1 (by decide)).2.1 11 (by decide) (by decide),
    (h'.2 (by decide) (by decide)).1⟩

set_option maxRecDepth 1000000 in
/-- C28 (the code departs from the claim): the conditions asserted by
`note_on` and `note_off` fail in reachable states. With two voices, after
note-on 62, note-on 64, pedal down, note-off 64, note-on 64 and pedal up
(`node_pedal_up`), voice 0 is active and plays key 64, and key 64 is
unassigned; after a further note-on 65 the next `note_on` steals voice 0
and finds the key of its note unassigned. After note-on 60, `all_notes_off`
and note-on 62, key 60 is still assigned to voice 0, voice 0 is active, and
its note is 62: `note_off(60)` finds its key assigned to an active voice
whose note is not the key. -/
theorem C28_assertions_fail :
    (node_pedal_up._voices 0).state = .ACTIVE ∧ (node_pedal_up._voices 0).note = 64 ∧
    (node_pedal_up._keys 64).state = .ON_UNASSIGNED ∧
    choose_voice (note_on node_pedal_up 65 100 6 context_example)._voices 2 = 0 ∧
    ((note_on node_pedal_up 65 100 6 context_example)._voices 0).state = .ACTIVE ∧
    ((note_on node_pedal_up 65 100 6 context_example)._voices 0).note = 64 ∧
    ((note_on node_pedal_up 65 100 6 context_example)._keys 64).state = .ON_UNASSIGNED ∧
    (node_after_all_notes_off._keys 60).state = .ON_ASSIGNED ∧
    (node_after_all_notes_off._voices (node_after_all_notes_off._keys 60).voice).state =
      .ACTIVE ∧
    (node_after_all_notes_off._voices (node_after_all_notes_off._keys 60).voice).note = 62 := by
  decide

set_option maxRecDepth 1000000 in
/-- C29 (the code departs from the claim): with one voice, after note-on 60,
note-on 62, pedal down and note-off 62, key 62 is off and the voice holds
it. `sustain_off` gives the voice to the unassigned key 60 and marks key 62,
the note of the voice, unassigned: key 62 leaves the state off without a
`note_on`. After the following note-off 60, every key that received a
note-on has received a later note-off and the pedal is up, but the voice is
active, plays key 62, and its gate is high to the last sample of the
cycle. -/
theorem C29_released_key_sounds_again :
    (node_pedal._keys 62).state = .OFF ∧ (node_pedal._voices 0).state = .HOLDING ∧
    (node_pedal._voices 0).note = 62 ∧ (node_pedal._keys 60).state = .ON_UNASSIGNED ∧
    ((sustain_off node_pedal 4 context_example)._keys 62).state = .ON_UNASSIGNED ∧
    (note_off (sustain_off node_pedal 4 context_example) 60 5 context_example)._sustain =
      false ∧
    ((note_off (sustain_off node_pedal 4 context_example) 60 5 context_example)._keys
      60).state = .OFF ∧
    ((note_off (sustain_off node_pedal 4 context_example) 60 5 context_example)._keys
      62).state = .ON_ASSIGNED ∧
    (note_off (sustain_off node_pedal 4 context_example) 60 5 context_example)._voices 0 =
      { state := .ACTIVE, note := 62, time := 1 } ∧
    (note_off (sustain_off node_pedal 4 context_example) 60 5 context_example)._gate_port 0
      63 = .one := by
  decide

end MidiNoteMore

/-! ## Compilation of acyclic graphs -/

section Feedback

variable {α β σ : Type}

theorem Res.bind_eq_feedback {r : Res α} {f : α → Res β} {n : Nat} {x : Option Nat} :
    r.bind f = .feedback n x ↔ r = .feedback n x ∨ ∃ a, r = .ok a ∧ f a = .feedback n x := by
  cases r <;> simp

/-- A loop whose iterations keep `P` and do not throw from a state with `P`
does not throw. -/
theorem forEach_no_feedback (P : σ → Prop) (body : Nat → σ → Res σ) :
    ∀ (xs : List Nat) (s : σ), P s →
      (∀ x ∈ xs, ∀ a b, P a → body x a = .ok b → P b) →
      (∀ x ∈ xs, ∀ a, P a → ∀ n r, body x a ≠ .feedback n r) →
      ∀ n r, forEach body xs s ≠ .feedback n r := by
  intro xs
  induction xs with
  | nil => intro s _ _ _ n r h; simp at h
  | cons x xs ih =>
    intro s hs hP hT n r h
    rw [forEach_cons, Res.bind_eq_feedback] at h
    rcases h with h | ⟨a, h1, h2⟩
    · exact hT x (List.mem_cons_self _ _) s hs n r h
    · exact ih a (hP x (List.mem_cons_self _ _) s a hs h1)
        (fun y hy => hP y (List.mem_cons_of_mem _ hy))
        (fun y hy => hT y (List.mem_cons_of_mem _ hy)) n r h2

end Feedback

section Acyclic

variable (g : GraphImpl)

/-- How `compile_dependant` can throw. -/
theorem compile_dependant_feedback {cb : Nat → CState → Res CState} {fuel root block : Nat}
    {s : CState} {n : Nat} {r : Option Nat}
    (h : compile_dependant g cb fuel root block s = .feedback n r) :
    (1 < (g.providers block).length ∧ check_feedback g fuel root block s.2.2 = .feedback n r) ∨
    (¬ 1 < (g.providers block).length ∧
      ∃ t0 : Task, cb block (t0, s.2.1, s.2.2) = .feedback n r) := by
  obtain ⟨task, k, marks⟩ := s
  unfold compile_dependant at h
  simp only [gt_iff_lt] at h
  split at h
  · rename_i hp
    rw [Res.bind_eq_feedback] at h
    rcases h with h | ⟨_, _, h⟩
    · exact Or.inl ⟨hp, h⟩
    · simp at h
  · rename_i hp
    right
    refine ⟨hp, ?_⟩
    split at h
    · rw [Res.bind_eq_feedback] at h
      rcases h with h | ⟨⟨t1, k1, m1⟩, _, h⟩
      · exact ⟨_, h⟩
      · simp at h
    · exact ⟨_, h⟩

/-- In a closed graph the blocks reached from a block are blocks. -/
theorem closed_transGen (hg : Closed g) {a b : Nat} (ha : a ∈ g.blocks)
    (h : Relation.TransGen g.arc a b) : b ∈ g.blocks := by
  induction h with
  | single h => exact hg a ha _ h
  | tail _ h ih => exact hg _ ih _ h

/-- On an acyclic graph `check_feedback(root, x)` does not throw when `root`
is not reachable from `x` and no block that is being visited is reachable
from `x` in one or more steps. -/
theorem check_feedback_acyclic (hg : Closed g) (ha : Acyclic g) :
    ∀ (fuel root x : Nat) (m : Marks), x ∈ g.blocks → ¬ Reachable g x root →
      (∀ y ∈ g.blocks, m y = .VISITING → ¬ Relation.TransGen g.arc x y) →
      ∀ n r, check_feedback g fuel root x m ≠ .feedback n r := by
  intro fuel
  induction fuel with
  | zero => intro root x m _ _ _ n r h; simp [check_feedback] at h
  | succ fuel ih =>
    intro root x m hx hroot hvis n r h
    rw [check_feedback_succ] at h
    have hne : x ≠ root := fun e => hroot (e ▸ Relation.ReflTransGen.refl)
    rw [if_neg hne] at h
    refine forEach_no_feedback (fun s => s = m) _ _ _ rfl ?_ ?_ n r h
    · intro d _ a b hab hb
      subst hab
      exact check_feedback_body_ok g fuel root d a b
        (fun root d m m' => check_feedback_ok_marks g fuel root d m m') hb
    · intro d hd a hab n r hb
      subst hab
      have hdb : d ∈ g.blocks := hg x hx d hd
      have hxd : g.arc x d := hd
      cases hmd : a d with
      | UNVISITED =>
        rw [hmd] at hb
        simp only at hb
        rw [Res.bind_eq_feedback] at hb
        rcases hb with hb | ⟨_, _, hb⟩
        · refine ih root d _ hdb ?_ ?_ n r hb
          · intro hr
            exact hroot (Relation.ReflTransGen.head hxd hr)
          · intro y hy hmy hdy
            by_cases e : y = d
            · subst e
              exact ha y hy hdy
            · rw [set_mark_other _ _ e] at hmy
              exact hvis y hy hmy (Relation.TransGen.head hxd hdy)
        · simp at hb
      | VISITING => exact hvis d hdb hmd (Relation.TransGen.single hxd)
      | VISITED => rw [hmd] at hb; simp at hb

/-- On an acyclic graph `compile_block` does not throw when every block that
is being visited reaches the block in one or more steps. -/
theorem compile_block_acyclic (hg : Closed g) (ha : Acyclic g) :
    ∀ (fuel n : Nat) (s : CState), n ∈ g.blocks →
      (∀ y ∈ g.blocks, s.2.2 y = .VISITING → Relation.TransGen g.arc y n) →
      ∀ m r, compile_block g fuel n s ≠ .feedback m r := by
  intro fuel
  induction fuel with
  | zero => intro n s _ _ m r h; simp [compile_block] at h
  | succ fuel ih =>
    intro n s hn hvis m r h
    obtain ⟨task, k, marks⟩ := s
    rw [compile_block_succ] at h
    cases hmn : marks n with
    | UNVISITED =>
      rw [hmn] at h
      simp only at h
      have hloop : ∀ t0 : Task, ∀ m r,
          forEach (compile_dependant g (compile_block g fuel) fuel n) (g.dependants n)
            (t0, k, set_mark marks n .VISITING) ≠ .feedback m r := by
        intro t0
        refine forEach_no_feedback
          (fun s => ∀ y ∈ g.blocks, s.2.2 y = .VISITING → y = n ∨ Relation.TransGen g.arc y n)
          _ _ _ ?_ ?_ ?_
        · intro y hy hmy
          by_cases e : y = n
          · exact Or.inl e
          · have hmy' : set_mark marks n .VISITING y = .VISITING := hmy
            rw [set_mark_other _ _ e] at hmy'
            exact Or.inr (hvis y hy hmy')
        · intro d _ a b hP hb y hy hmy
          rcases compile_dependant_ok g hb with ⟨_, hcf, _⟩ | ⟨_, t0, t1, hcb⟩
          · rw [check_feedback_ok_marks g _ _ _ _ _ hcf] at hmy
            exact hP y hy hmy
          · rcases (compile_block_marks g _ _ _ _ hcb).1 y with e | ⟨_, e⟩
            · simp only at e
              rw [e] at hmy
              exact hP y hy hmy
            · simp only at e
              rw [e] at hmy
              cases hmy
        · intro d hd a hP m r hb
          have hdb : d ∈ g.blocks := hg n hn d hd
          have hnd : g.arc n d := hd
          rcases compile_dependant_feedback g hb with ⟨_, hcf⟩ | ⟨_, t0, hcb⟩
          · refine check_feedback_acyclic g hg ha _ _ _ _ hdb ?_ ?_ m r hcf
            · intro hr
              rcases Relation.reflTransGen_iff_eq_or_transGen.mp hr with e | hr
              · subst e
                exact ha _ hn (Relation.TransGen.single hnd)
              · exact ha _ hn (Relation.TransGen.head hnd hr)
            · intro y hy hmy hdy
              rcases hP y hy hmy with e | hyn
              · subst e
                exact ha _ hy (Relation.TransGen.head hnd hdy)
              · exact ha _ hdb (hdy.trans (hyn.tail hnd))
          · refine ih d (t0, a.2.1, a.2.2) hdb ?_ m r hcb
            intro y hy hmy
            rcases hP y hy hmy with e | hyn
            · subst e
              exact Relation.TransGen.single hnd
            · exact hyn.tail hnd
      split at h
      · rw [Res.bind_eq_feedback] at h
        rcases h with h | ⟨⟨t1, k1, m1⟩, _, h⟩
        · exact hloop _ _ _ h
        · simp at h
      · rw [Res.bind_eq_feedback] at h
        rcases h with h | ⟨⟨t1, k1, m1⟩, _, h⟩
        · exact hloop _ _ _ h
        · simp at h
    | VISITING => exact ha n hn (hvis n hn hmn)
    | VISITED => rw [hmn] at h; simp at h

/-- The state between the calls of `compile_block` at the top level of
`compile_graph`: the working set holds blocks of the graph and no block is
being visited. -/
theorem topInv_seq (hg : Closed g) {fuel b : Nat} (hb : b ∈ g.blocks) (s s' : CState)
    (hs : TopInv g s) (h : compile_seq g fuel b s = .ok s') : TopInv g s' := by
  obtain ⟨t0, t1, hcb⟩ := compile_seq_ok g h
  refine ⟨compile_block_set g hg _ _ (t0, s.2.1, s.2.2) (t1, s'.2.1, s'.2.2) hb hs.1 hcb, ?_⟩
  intro y hy hmy
  rcases (compile_block_marks g _ _ _ _ hcb).1 y with e | ⟨_, e⟩
  · simp only at e
    rw [e] at hmy
    exact hs.2 y hy hmy
  · simp only at e
    rw [e] at hmy
    cases hmy

theorem compile_seq_feedback {fuel b : Nat} {s : CState} {n : Nat} {r : Option Nat}
    (h : compile_seq g fuel b s = .feedback n r) :
    ∃ t0 : Task, compile_block g fuel b (t0, s.2.1, s.2.2) = .feedback n r := by
  obtain ⟨task, k, marks⟩ := s
  unfold compile_seq at h
  rw [Res.bind_eq_feedback] at h
  rcases h with h | ⟨⟨t1, k1, m1⟩, _, h⟩
  · exact ⟨_, h⟩
  · simp at h

theorem compile_seq_acyclic (hg : Closed g) (ha : Acyclic g) {fuel b : Nat} (hb : b ∈ g.blocks)
    (s : CState) (hs : TopInv g s) : ∀ n r, compile_seq g fuel b s ≠ .feedback n r := by
  intro n r h
  obtain ⟨t0, hcb⟩ := compile_seq_feedback g h
  exact compile_block_acyclic g hg ha _ _ (t0, s.2.1, s.2.2) hb
    (fun y hy hmy => absurd hmy (hs.2 y hy)) n r hcb

theorem topInv_loop (hg : Closed g) {fuel : Nat} (xs : List Nat) (s s' : CState)
    (hxs : ∀ x ∈ xs, x ∈ g.blocks) (hs : TopInv g s)
    (h : forEach (compile_seq g fuel) xs s = .ok s') : TopInv g s' :=
  forEach_inv (TopInv g) _ _ _ _ hs (fun x hx a b ha hb => topInv_seq g hg (hxs x hx) a b ha hb) h

theorem compile_seq_loop_acyclic (hg : Closed g) (ha : Acyclic g) {fuel : Nat} (xs : List Nat)
    (s : CState) (hxs : ∀ x ∈ xs, x ∈ g.blocks) (hs : TopInv g s) :
    ∀ n r, forEach (compile_seq g fuel) xs s ≠ .feedback n r :=
  forEach_no_feedback (TopInv g) _ _ _ hs
    (fun x hx a b ha hb => topInv_seq g hg (hxs x hx) a b ha hb)
    (fun x hx a hP => compile_seq_acyclic g hg ha (hxs x hx) a hP)

theorem compile_waves_acyclic (hg : Closed g) (ha : Acyclic g) (fuel : Nat) :
    ∀ (w : Nat) (s s' : CState), TopInv g s →
      (∀ n r, compile_waves g fuel w s ≠ .feedback n r) ∧
      (compile_waves g fuel w s = .ok s' → TopInv g s') := by
  intro w
  induction w with
  | zero =>
    intro s s' hs
    obtain ⟨master, next, marks⟩ := s
    cases next with
    | nil =>
      rw [compile_waves_nil]
      refine ⟨by simp, ?_⟩
      intro h
      simp only [Res.ok.injEq] at h
      rw [← h]
      exact hs
    | cons x xs => simp [compile_waves]
  | succ w ih =>
    intro s s' hs
    obtain ⟨master, next, marks⟩ := s
    cases next with
    | nil =>
      rw [compile_waves_nil]
      refine ⟨by simp, ?_⟩
      intro h
      simp only [Res.ok.injEq] at h
      rw [← h]
      exact hs
    | cons x xs =>
      have hstart : TopInv g (Task.empty .PARALLEL, [], marks) := ⟨by simp, hs.2⟩
      rw [compile_waves_succ]
      constructor
      · intro n r h
        rw [Res.bind_eq_feedback] at h
        rcases h with h | ⟨⟨par, blocks, m1⟩, h1, h2⟩
        · exact compile_seq_loop_acyclic g hg ha _ _ hs.1 hstart n r h
        · have hinv := topInv_loop g hg _ _ (par, blocks, m1) hs.1 hstart h1
          exact (ih (master.push_back par, blocks, m1) s' ⟨hinv.1, hinv.2⟩).1 n r h2
      · intro h
        rw [Res.bind_eq_ok] at h
        obtain ⟨⟨par, blocks, m1⟩, h1, h2⟩ := h
        have hinv := topInv_loop g hg _ _ (par, blocks, m1) hs.1 hstart h1
        exact (ih (master.push_back par, blocks, m1) s' ⟨hinv.1, hinv.2⟩).2 h2

/-- On an acyclic graph `compile_graph` does not throw, before or in
`simplify`. -/
theorem compile_graph_raw_acyclic (hg : Closed g) (ha : Acyclic g) (marks : Marks) :
    ∀ n r, compile_graph_raw g marks ≠ .feedback n r := by
  intro n r h
  have hstart : TopInv g (Task.empty .PARALLEL, [], initial_marks g marks) :=
    ⟨by simp, fun y hy => by
      show initial_marks g marks y ≠ .VISITING
      rw [initial_marks_mem g hy]; simp⟩
  unfold compile_graph_raw at h
  rw [Res.bind_eq_feedback] at h
  rcases h with h | ⟨⟨start, next, m1⟩, h1, h⟩
  · exact compile_seq_loop_acyclic g hg ha _ _ (fun x hx => initial_set_subset g hx) hstart n r h
  have hinv := topInv_loop g hg _ _ (start, next, m1)
    (fun x hx => initial_set_subset g hx) hstart h1
  simp only at h
  rw [Res.bind_eq_feedback] at h
  rcases h with h | ⟨⟨master, next2, m2⟩, h2, h⟩
  · exact (compile_waves_acyclic g hg ha _ _
      ((Task.empty .SEQUENTIAL).push_back start, next, m1) (start, next, m1)
      ⟨hinv.1, hinv.2⟩).1 n r h
  have hinv2 := (compile_waves_acyclic g hg ha _ _
      ((Task.empty .SEQUENTIAL).push_back start, next, m1) (master, next2, m2)
      ⟨hinv.1, hinv.2⟩).2 h2
  simp only at h
  rw [Res.bind_eq_feedback] at h
  rcases h with h | ⟨⟨master3, next3, m3⟩, _, h⟩
  · unfold compile_unreached at h
    refine forEach_no_feedback (TopInv g) _ _ _ hinv2 ?_ ?_ n r h
    · intro b hb a c hP hx
      split at hx
      · refine ⟨compile_block_set g hg _ _ a c hb hP.1 hx, ?_⟩
        intro y hy hmy
        rcases (compile_block_marks g _ _ _ _ hx).1 y with e | ⟨_, e⟩
        · rw [e] at hmy
          exact hP.2 y hy hmy
        · rw [e] at hmy
          cases hmy
      · simp only [Res.ok.injEq] at hx
        rw [← hx]
        exact hP
    · intro b hb a hP n r hx
      split at hx
      · exact compile_block_acyclic g hg ha _ _ _ hb
          (fun y hy hmy => absurd hmy (hP.2 y hy)) n r hx
      · simp at hx
  · simp at h

end Acyclic

/-! ## Every block is compiled once -/

section Account

variable (g : GraphImpl)

theorem blocksList_append :
    ∀ (a b : List Task), Task.blocksList (a ++ b) = Task.blocksList a ++ Task.blocksList b
  | [], b => by simp [Task.blocksList]
  | t :: a, b => by
    rw [List.cons_append, Task.blocksList, Task.blocksList, blocksList_append a b,
      List.append_assoc]

theorem mode_push_back (t x : Task) : (t.push_back x).mode = t.mode := by
  cases t
  rfl

theorem blocks_push_back (t x : Task) (h : t.mode ≠ .SINGLE) :
    (t.push_back x).blocks = t.blocks ++ x.blocks := by
  obtain ⟨m, b, cs⟩ := t
  cases m with
  | SINGLE => exact absurd rfl h
  | SEQUENTIAL =>
    simp [Task.push_back, Task.blocks, blocksList_append, Task.blocksList]
  | PARALLEL =>
    simp [Task.push_back, Task.blocks, blocksList_append, Task.blocksList]

theorem blocks_empty (m : Mode) : (Task.empty m).blocks = [] := by
  cases m <;> simp [Task.empty, Task.blocks, Task.blocksList]

theorem blocks_single (n : Nat) : (Task.single n).blocks = [n] := by
  simp [Task.single, Task.blocks]

mutual
/-- The modelled `simplify` keeps the traversal of a task. -/
theorem simplify_blocks : ∀ t : Task, t.simplify.blocks = t.blocks
  | .mk .SINGLE b cs => by rw [Task.simplify]
  | .mk .SEQUENTIAL b cs => by
    have h := simplifyList_blocks .SEQUENTIAL (by decide) cs
    rw [Task.simplify]
    split
    · rename_i t ht
      rw [ht] at h
      simp only [Task.blocksList, List.append_nil] at h
      rw [h, Task.blocks]
    · rw [Task.blocks, h, Task.blocks]
  | .mk .PARALLEL b cs => by
    have h := simplifyList_blocks .PARALLEL (by decide) cs
    rw [Task.simplify]
    split
    · rename_i t ht
      rw [ht] at h
      simp only [Task.blocksList, List.append_nil] at h
      rw [h, Task.blocks]
    · rw [Task.blocks, h, Task.blocks]
theorem simplifyList_blocks (m : Mode) (hm : m ≠ .SINGLE) :
    ∀ cs : List Task, Task.blocksList (Task.simplifyList m cs) = Task.blocksList cs
  | [] => by rw [Task.simplifyList]
  | t :: ts => by
    have h1 := simplify_blocks t
    have h2 := simplifyList_blocks m hm ts
    rw [Task.simplifyList, blocksList_append, h2, Task.blocksList]
    congr 1
    split
    · rename_i hmode
      rw [← h1]
      generalize t.simplify = u at hmode
      obtain ⟨um, ub, ucs⟩ := u
      cases um with
      | SINGLE => exact absurd hmode.symm hm
      | SEQUENTIAL => simp [Task.children, Task.blocks]
      | PARALLEL => simp [Task.children, Task.blocks]
    · simp only [Task.blocksList, List.append_nil]
      exact h1
end

theorem compiled_nil (m : Marks) : Compiled m m [] :=
  ⟨List.nodup_nil, fun _ h => by simp at h, fun _ _ => rfl⟩

theorem compiled_append {m m' m'' : Marks} {l l' : List Nat} (h : Compiled m m' l)
    (h' : Compiled m' m'' l') : Compiled m m'' (l ++ l') := by
  obtain ⟨h1, h2, h3⟩ := h
  obtain ⟨h1', h2', h3'⟩ := h'
  have hdis : ∀ x, x ∈ l → x ∉ l' := by
    intro x hx hx'
    have a := (h2 x hx).2
    have b := (h2' x hx').1
    rw [a] at b
    cases b
  refine ⟨List.nodup_append.2 ⟨h1, h1', fun x hx hx' => hdis x hx hx'⟩, ?_, ?_⟩
  · intro x hx
    rcases List.mem_append.1 hx with hx | hx
    · exact ⟨(h2 x hx).1, by rw [h3' x (hdis x hx)]; exact (h2 x hx).2⟩
    · have hnl : x ∉ l := fun hl => hdis x hl hx
      exact ⟨by rw [← h3 x hnl]; exact (h2' x hx).1, (h2' x hx).2⟩
  · intro x hx
    rw [List.mem_append, not_or] at hx
    rw [h3' x hx.2, h3 x hx.1]

/-- The marks around the body of `compile_block`: the block itself was
unvisited and is visited at the end. -/
theorem compiled_visit {marks m1 : Marks} {n : Nat} {l : List Nat} (hn : marks n = .UNVISITED)
    (h : Compiled (set_mark marks n .VISITING) m1 l) :
    Compiled marks (set_mark m1 n .VISITED) (n :: l) := by
  obtain ⟨h1, h2, h3⟩ := h
  have hnl : n ∉ l := by
    intro hl
    have := (h2 n hl).1
    rw [set_mark_same] at this
    cases this
  refine ⟨List.nodup_cons.2 ⟨hnl, h1⟩, ?_, ?_⟩
  · intro x hx
    rcases List.mem_cons.1 hx with e | hx
    · subst e
      exact ⟨hn, set_mark_same _ _ _⟩
    · have e : x ≠ n := fun e => hnl (e ▸ hx)
      have := h2 x hx
      rw [set_mark_other _ _ e] at this
      exact ⟨this.1, by rw [set_mark_other _ _ e]; exact this.2⟩
  · intro x hx
    rw [List.mem_cons, not_or] at hx
    rw [set_mark_other _ _ hx.1, h3 x hx.2, set_mark_other _ _ hx.1]

theorem extends_refl (s : CState) : Extends s s :=
  ⟨rfl, [], by simp, compiled_nil _⟩

theorem extends_trans {a b c : CState} (h : Extends a b) (h' : Extends b c) : Extends a c := by
  obtain ⟨h1, l, h2, h3⟩ := h
  obtain ⟨h1', l', h2', h3'⟩ := h'
  exact ⟨h1'.trans h1, l ++ l', by rw [h2', h2, List.append_assoc], compiled_append h3 h3'⟩

/-- A child task compiled from an empty task and appended to `task`
continues the state. -/
theorem extends_push_child {task child : Task} {k k' : List Nat} {marks marks' : Marks}
    {m : Mode} (ht : task.mode ≠ .SINGLE)
    (h : Extends (Task.empty m, k, marks) (child, k', marks')) :
    Extends (task, k, marks) (task.push_back child, k', marks') := by
  obtain ⟨_, l, h2, h3⟩ := h
  simp only [blocks_empty, List.nil_append] at h2
  exact ⟨mode_push_back _ _, l, by simp only; rw [blocks_push_back _ _ ht, h2], h3⟩

theorem forEach_extends (body : Nat → CState → Res CState) (xs : List Nat) (s s' : CState)
    (hbody : ∀ x ∈ xs, ∀ a b, a.1.mode ≠ .SINGLE → body x a = .ok b → Extends a b)
    (hs : s.1.mode ≠ .SINGLE) (h : forEach body xs s = .ok s') : Extends s s' := by
  refine forEach_inv (fun a => Extends s a) body xs s s' (extends_refl s) ?_ h
  intro x hx a b ha hb
  exact extends_trans ha (hbody x hx a b (by rw [ha.1]; exact hs) hb)

theorem compile_dependant_extends {cb : Nat → CState → Res CState} {fuel root block : Nat}
    (ih : ∀ n s s', s.1.mode ≠ .SINGLE → cb n s = .ok s' → Extends s s')
    {s s' : CState} (hs : s.1.mode ≠ .SINGLE)
    (h : compile_dependant g cb fuel root block s = .ok s') : Extends s s' := by
  obtain ⟨task, k, marks⟩ := s
  unfold compile_dependant at h
  simp only [gt_iff_lt] at h
  split at h
  · rw [Res.bind_eq_ok] at h
    obtain ⟨m1, h1, he⟩ := h
    simp only [Res.ok.injEq] at he
    subst he
    have := check_feedback_ok_marks g _ _ _ _ _ h1
    subst this
    exact ⟨rfl, [], by simp, compiled_nil _⟩
  · split at h
    · rw [Res.bind_eq_ok] at h
      obtain ⟨⟨t1, k1, m1⟩, h1, he⟩ := h
      simp only [Res.ok.injEq] at he
      subst he
      exact extends_push_child hs (ih _ _ _ (by simp [Task.empty, Task.mode]) h1)
    · exact ih _ _ _ hs h

/-- A completed `compile_block` appends blocks to the traversal of its task;
these blocks are distinct, were unvisited and are visited, and no other mark
has changed. -/
theorem compile_block_extends :
    ∀ (fuel n : Nat) (s s' : CState), s.1.mode ≠ .SINGLE →
      compile_block g fuel n s = .ok s' → Extends s s' := by
  intro fuel
  induction fuel with
  | zero => intro n s s' _ h; simp [compile_block_zero] at h
  | succ fuel ih =>
    intro n s s' hs h
    obtain ⟨task, k, marks⟩ := s
    have hs' : task.mode ≠ .SINGLE := hs
    rw [compile_block_succ] at h
    cases hmn : marks n with
    | UNVISITED =>
      rw [hmn] at h
      simp only at h
      have hloop : ∀ (t0 : Task) (l : CState), t0.mode ≠ .SINGLE →
          forEach (compile_dependant g (compile_block g fuel) fuel n) (g.dependants n)
            (t0, k, set_mark marks n .VISITING) = .ok l →
          Extends (t0, k, set_mark marks n .VISITING) l := by
        intro t0 l ht0 hl
        exact forEach_extends _ _ _ _
          (fun d _ a b ha hb => compile_dependant_extends g (ih) ha hb) ht0 hl
      split at h
      · rw [Res.bind_eq_ok] at h
        obtain ⟨⟨t1, k1, m1⟩, h1, he⟩ := h
        simp only [Res.ok.injEq] at he
        subst he
        obtain ⟨e1, l, e2, e3⟩ := hloop _ _ (by rw [mode_push_back]; exact hs') h1
        simp only [mode_push_back] at e1
        simp only [blocks_push_back _ _ hs', blocks_single] at e2
        refine ⟨e1, n :: l, ?_, compiled_visit hmn e3⟩
        simp only
        rw [e2, List.append_assoc]
        rfl
      · rw [Res.bind_eq_ok] at h
        obtain ⟨⟨t1, k1, m1⟩, h1, he⟩ := h
        simp only [Res.ok.injEq] at he
        subst he
        obtain ⟨e1, l, e2, e3⟩ := hloop _ _ (by simp [Task.empty, Task.mode]) h1
        simp only [blocks_empty, List.nil_append] at e2
        refine ⟨?_, n :: l, ?_, compiled_visit hmn e3⟩
        · simp only [mode_push_back]
        · simp only
          rw [blocks_push_back _ _ (by rw [mode_push_back]; exact hs'),
            blocks_push_back _ _ hs', blocks_single, e2, List.append_assoc]
          rfl
    | VISITING => rw [hmn] at h; simp at h
    | VISITED =>
      rw [hmn] at h
      simp only [Res.ok.injEq] at h
      subst h
      exact extends_refl _

theorem compile_seq_extends {fuel b : Nat} {s s' : CState} (hs : s.1.mode ≠ .SINGLE)
    (h : compile_seq g fuel b s = .ok s') : Extends s s' := by
  obtain ⟨task, k, marks⟩ := s
  unfold compile_seq at h
  rw [Res.bind_eq_ok] at h
  obtain ⟨⟨t1, k1, m1⟩, h1, he⟩ := h
  simp only [Res.ok.injEq] at he
  subst he
  exact extends_push_child hs
    (compile_block_extends g _ _ _ _ (by simp [Task.empty, Task.mode]) h1)

theorem compile_seq_loop_extends {fuel : Nat} (xs : List Nat) {s s' : CState}
    (hs : s.1.mode ≠ .SINGLE) (h : forEach (compile_seq g fuel) xs s = .ok s') : Extends s s' :=
  forEach_extends _ _ _ _ (fun _ _ _ _ ha hb => compile_seq_extends g ha hb) hs h

theorem compile_waves_extends (fuel : Nat) :
    ∀ (w : Nat) (s s' : CState), s.1.mode ≠ .SINGLE →
      compile_waves g fuel w s = .ok s' → Extends s s' := by
  intro w
  induction w with
  | zero =>
    intro s s' _ h
    obtain ⟨master, next, marks⟩ := s
    cases next with
    | nil =>
      rw [compile_waves_nil] at h
      simp only [Res.ok.injEq] at h
      subst h
      exact extends_refl _
    | cons x xs => simp [compile_waves] at h
  | succ w ih =>
    intro s s' hs h
    obtain ⟨master, next, marks⟩ := s
    cases next with
    | nil =>
      rw [compile_waves_nil] at h
      simp only [Res.ok.injEq] at h
      subst h
      exact extends_refl _
    | cons x xs =>
      rw [compile_waves_succ, Res.bind_eq_ok] at h
      obtain ⟨⟨par, blocks, m1⟩, h1, h2⟩ := h
      have e := compile_seq_loop_extends g _ (by simp [Task.empty, Task.mode]) h1
      obtain ⟨_, l, e2, e3⟩ := e
      simp only [blocks_empty, List.nil_append] at e2
      have hstep : Extends (master, x :: xs, marks) (master.push_back par, blocks, m1) :=
        ⟨mode_push_back _ _, l, by simp only; rw [blocks_push_back _ _ hs, e2], e3⟩
      exact extends_trans hstep (ih _ _ (by rw [mode_push_back]; exact hs) h2)

/-- After the last loop of `compile_graph` no block of the graph is
unvisited. -/
theorem compile_unreached_none (fuel : Nat) :
    ∀ (xs : List Nat) (s s' : CState),
      forEach (fun b s => if s.2.2 b = .UNVISITED then compile_block g fuel b s else .ok s)
        xs s = .ok s' →
      MarksLe s.2.2 s'.2.2 ∧ ∀ b ∈ xs, s'.2.2 b ≠ .UNVISITED := by
  intro xs
  induction xs with
  | nil =>
    intro s s' h
    simp only [forEach_nil, Res.ok.injEq] at h
    subst h
    exact ⟨MarksLe.refl _, fun _ hb => by simp at hb⟩
  | cons b xs ih =>
    intro s s' h
    rw [forEach_cons, Res.bind_eq_ok] at h
    obtain ⟨a, h1, h2⟩ := h
    obtain ⟨hle, hxs⟩ := ih a s' h2
    have ha : MarksLe s.2.2 a.2.2 ∧ a.2.2 b ≠ .UNVISITED := by
      split at h1
      · have := compile_block_marks g _ _ _ _ h1
        exact ⟨this.1, by rw [this.2]; simp⟩
      · rename_i hb
        simp only [Res.ok.injEq] at h1
        subst h1
        exact ⟨MarksLe.refl _, hb⟩
    refine ⟨ha.1.trans hle, ?_⟩
    intro x hx
    rcases List.mem_cons.1 hx with e | hx
    · subst e
      exact fun hu => ha.2 (hle.unvisited x hu)
    · exact hxs x hx

theorem compile_unreached_extends (fuel : Nat) {s s' : CState} (hs : s.1.mode ≠ .SINGLE)
    (h : compile_unreached g fuel s = .ok s') : Extends s s' := by
  unfold compile_unreached at h
  refine forEach_extends _ _ _ _ ?_ hs h
  intro b _ a c ha hc
  simp only at hc
  split at hc
  · exact compile_block_extends g _ _ _ _ ha hc
  · simp only [Res.ok.injEq] at hc
    subst hc
    exact extends_refl _

/-- A completed `compile_graph`, before `simplify`: the traversal of the
master task has no repetition, holds every block of the graph, and every
block of the graph is visited. -/
theorem compile_graph_raw_account (marks : Marks) (master : Task) (marks' : Marks)
    (h : compile_graph_raw g marks = .ok (master, marks')) :
    master.blocks.Nodup ∧ ∀ b ∈ g.blocks, b ∈ master.blocks ∧ marks' b = .VISITED := by
  unfold compile_graph_raw at h
  rw [Res.bind_eq_ok] at h
  obtain ⟨⟨start, next, m1⟩, h1, h⟩ := h
  simp only at h
  rw [Res.bind_eq_ok] at h
  obtain ⟨⟨master2, next2, m2⟩, h2, h⟩ := h
  simp only at h
  rw [Res.bind_eq_ok] at h
  obtain ⟨⟨master3, next3, m3⟩, h3, h⟩ := h
  simp only [Res.ok.injEq, Prod.mk.injEq] at h
  obtain ⟨rfl, rfl⟩ := h
  have e1 := compile_seq_loop_extends g _ (by simp [Task.empty, Task.mode]) h1
  obtain ⟨_, l1, e12, e13⟩ := e1
  simp only [blocks_empty, List.nil_append] at e12
  have hm0 : ((Task.empty .SEQUENTIAL).push_back start).mode ≠ .SINGLE := by
    simp [Task.empty, Task.push_back, Task.mode]
  have e2 := compile_waves_extends g _ _ _ _ hm0 h2
  have e3 := compile_unreached_extends g _ (by rw [e2.1]; exact hm0) h3
  obtain ⟨_, l, e, hc⟩ := extends_trans e2 e3
  simp only [blocks_push_back _ _ (show (Task.empty .SEQUENTIAL).mode ≠ .SINGLE by
    simp [Task.empty, Task.mode]), blocks_empty, List.nil_append, e12] at e
  have hall := compiled_append e13 hc
  rw [← e] at hall
  obtain ⟨hn, hin, hout⟩ := hall
  refine ⟨hn, ?_⟩
  intro b hb
  have hnu := (compile_unreached_none g _ _ _ _ h3).2 b hb
  have hmem : b ∈ master3.blocks := by
    by_contra hnot
    have hm : m3 b = initial_marks g marks b := hout b hnot
    rw [initial_marks_mem g hb] at hm
    exact hnu hm
  exact ⟨hmem, (hin b hmem).2⟩

end Account

/-! ## Further claims about the graph compiler -/

section CompileClaimsMore

theorem compile_graph_ne_timeout (g : GraphImpl) (hg : Closed g) (marks : Marks) :
    compile_graph g marks ≠ .timeout := by
  unfold compile_graph
  intro h
  rw [Res.bind_eq_timeout] at h
  rcases h with h | ⟨⟨_, _⟩, _, h⟩
  · exact compile_graph_raw_no_timeout g hg marks h
  · simp at h

theorem compile_graph_feedback (g : GraphImpl) (marks : Marks) (n : Nat) (r : Option Nat)
    (h : compile_graph g marks = .feedback n r) : compile_graph_raw g marks = .feedback n r := by
  unfold compile_graph at h
  rw [Res.bind_eq_feedback] at h
  rcases h with h | ⟨⟨_, _⟩, _, h⟩
  · exact h
  · simp at h

theorem graph_late_provider_closed : Closed graph_late_provider := by
  unfold Closed
  decide

theorem graph_late_provider_arc {x y : Nat} (h : graph_late_provider.arc x y) : x < y := by
  unfold GraphImpl.arc graph_late_provider at h
  simp only at h
  split at h <;> simp at h <;> omega

theorem graph_late_provider_acyclic : Acyclic graph_late_provider := by
  intro a _ h
  have key : ∀ x y, Relation.TransGen graph_late_provider.arc x y → x < y := by
    intro x y hxy
    induction hxy with
    | single h => exact graph_late_provider_arc h
    | tail _ h ih => exact Nat.lt_trans ih (graph_late_provider_arc h)
  exact Nat.lt_irrefl _ (key a a h)

theorem graph_inner_cycle_reach (x : Nat) (h : Reachable graph_inner_cycle 2 x) :
    x = 2 ∨ x = 3 ∨ x = 4 := by
  induction h with
  | refl => exact Or.inl rfl
  | tail _ hbc ih =>
    unfold GraphImpl.arc graph_inner_cycle at hbc
    rcases ih with e | e | e <;> subst e <;> simp at hbc <;> omega

/-- C21: a graph with the one block `b` and no arcs compiles, from whatever
marks, to the task `SINGLE(b)`: the master task `SEQUENTIAL[PARALLEL[
SEQUENTIAL[SINGLE(b)]]]` collapses in `simplify`; the block is left
visited. -/
theorem C21_single_block (g : GraphImpl) (b : Nat) (marks : Marks) (hb : g.blocks = [b])
    (hp : g.providers b = []) (hd : g.dependants b = []) :
    (∃ marks', compile_graph_raw g marks =
        .ok (.mk .SEQUENTIAL none [.mk .PARALLEL none [.mk .SEQUENTIAL none [Task.single b]]],
          marks') ∧
      compile_graph g marks = .ok (Task.single b, marks') ∧ marks' b = .VISITED) := by
  have hm : initial_marks g marks b = .UNVISITED :=
    initial_marks_mem g (by rw [hb]; exact List.mem_singleton_self b) marks
  have hset : initial_set g = [b] := by
    unfold initial_set
    rw [hb]
    simp [hp, set_insert]
  have hblock : compile_block g (compile_fuel g) b
      (Task.empty .SEQUENTIAL, [], initial_marks g marks) =
      .ok (.mk .SEQUENTIAL none [Task.single b], [],
        set_mark (set_mark (initial_marks g marks) b .VISITING) b .VISITED) := by
    unfold compile_fuel
    rw [compile_block_succ, hm]
    simp only [hd, List.length_nil, Nat.ofNat_pos, if_true, forEach_nil, Res.bind_ok]
    rfl
  have hraw : compile_graph_raw g marks =
      .ok (.mk .SEQUENTIAL none [.mk .PARALLEL none [.mk .SEQUENTIAL none [Task.single b]]],
        set_mark (set_mark (initial_marks g marks) b .VISITING) b .VISITED) := by
    unfold compile_graph_raw compile_set
    rw [hset]
    simp only [forEach_cons, forEach_nil, compile_seq, hblock, Res.bind_ok]
    rw [show (Task.empty Mode.SEQUENTIAL).push_back ((Task.empty Mode.PARALLEL).push_back
        (Task.mk .SEQUENTIAL none [Task.single b])) =
      .mk .SEQUENTIAL none [.mk .PARALLEL none [.mk .SEQUENTIAL none [Task.single b]]] from rfl,
      compile_waves_nil]
    simp only [Res.bind_ok]
    unfold compile_unreached
    rw [hb]
    simp only [forEach_cons, forEach_nil, set_mark_same]
    simp
  refine ⟨_, hraw, ?_, set_mark_same _ _ _⟩
  unfold compile_graph
  rw [hraw]
  simp [Task.simplify, Task.simplifyList, Task.single, Task.mode, Task.children]

/-- An instance of C21: the graph of the one block at address 7 compiles to
`SINGLE(7)`. -/
theorem C21_single_block_witness :
    ∃ marks', compile_graph graph_one_block (fun _ => .VISITING) = .ok (Task.single 7, marks') :=
  have h := C21_single_block graph_one_block 7 (fun _ => .VISITING) rfl rfl rfl
  ⟨_, h.choose_spec.2.1⟩

set_option maxRecDepth 100000 in
/-- C24 (the code departs from the claim and from its own comment "Throw a
FeedbackException iff dependant has root as a dependency"): in the graph
with the arcs 0→2, 1→2, 2→3, 3→4, 4→3 the compilation starts at block 0,
marks it as being visited and calls `check_feedback(0, 2)` for its
dependant 2, which has two providers. The call throws
`FeedbackException(3, 0)`, since the traversal comes back to block 3, which
it has marked itself; block 0 is not reachable from block 2. -/
theorem C24_feedback_without_dependency :
    compile_dependant graph_inner_cycle (compile_block graph_inner_cycle 5) 5 0 2
        ((Task.empty .SEQUENTIAL).push_back (Task.single 0), [],
          set_mark (initial_marks graph_inner_cycle (fun _ => .VISITED)) 0 .VISITING) =
      .feedback 3 (some 0) ∧
    check_feedback graph_inner_cycle 5 0 2
        (set_mark (initial_marks graph_inner_cycle (fun _ => .VISITED)) 0 .VISITING) =
      .feedback 3 (some 0) ∧
    ¬ Reachable graph_inner_cycle 2 0 ∧
    compile_graph graph_inner_cycle (fun _ => .VISITED) = .feedback 3 (some 0) := by
  refine ⟨?_, ?_, ?_, ?_⟩
  · have e : ∀ r : Res CState, r = .feedback 3 (some 0) ↔
        (match r with | .feedback 3 (some 0) => true | _ => false) = true := by
      intro r
      cases r <;> simp
      split <;> simp_all
    rw [e]
    decide
  · have e : ∀ r : Res Marks, r = .feedback 3 (some 0) ↔
        (match r with | .feedback 3 (some 0) => true | _ => false) = true := by
      intro r
      cases r <;> simp
      split <;> simp_all
    rw [e]
    decide
  · intro h
    have := graph_inner_cycle_reach 0 h
    omega
  · have e : ∀ r : Res (Task × Marks), r = .feedback 3 (some 0) ↔
        (match r with | .feedback 3 (some 0) => true | _ => false) = true := by
      intro r
      cases r <;> simp
      split <;> simp_all
    rw [e]
    decide

/-- C25: on every graph whose dependency relation is acyclic (and whose
dependants are blocks of the graph) `compile_graph` completes: it returns a
master task and throws no `FeedbackException`, before `simplify` or after;
in particular no call of `compile_block` made at the top level, where no
block is being visited, throws. -/
theorem C25_acyclic_compiles (g : GraphImpl) (marks : Marks) (hg : Closed g) (ha : Acyclic g) :
    (∃ r, compile_graph g marks = .ok r) ∧
    (∀ n r, compile_graph g marks ≠ .feedback n r) ∧
    (∀ n r, compile_graph_raw g marks ≠ .feedback n r) ∧
    (∀ fuel b s, b ∈ g.blocks → (∀ y ∈ g.blocks, s.2.2 y ≠ .VISITING) →
      ∀ n r, compile_block g fuel b s ≠ .feedback n r) := by
  have hnf : ∀ n r, compile_graph g marks ≠ .feedback n r := fun n r h =>
    compile_graph_raw_acyclic g hg ha marks n r (compile_graph_feedback g marks n r h)
  refine ⟨?_, hnf, compile_graph_raw_acyclic g hg ha marks, ?_⟩
  · cases h : compile_graph g marks with
    | ok r => exact ⟨r, rfl⟩
    | feedback n r => exact absurd h (hnf n r)
    | timeout => exact absurd h (compile_graph_ne_timeout g hg marks)
  · intro fuel b s hb hs
    exact compile_block_acyclic g hg ha fuel b s hb (fun y hy hmy => absurd hmy (hs y hy))

/-- An instance of C25: the acyclic graph of six blocks
`graph_late_provider` compiles. -/
theorem C25_acyclic_compiles_witness :
    Closed graph_late_provider ∧ Acyclic graph_late_provider ∧
    ∃ r, compile_graph graph_late_provider (fun _ => .VISITING) = .ok r :=
  ⟨graph_late_provider_closed, graph_late_provider_acyclic,
    (C25_acyclic_compiles graph_late_provider (fun _ => .VISITING) graph_late_provider_closed
      graph_late_provider_acyclic).1⟩

/-- C26: whenever `compile_graph` throws no `FeedbackException` (on a graph
whose dependants are blocks of the graph) it returns a master task in whose
tree every block of the graph occurs exactly once as a `SINGLE` task, no
block occurs twice, and it leaves every block of the graph marked visited.
The same holds for the master task before `simplify`, which has the same
`SINGLE` tasks in the same order. -/
theorem C26_each_block_once (g : GraphImpl) (marks : Marks) (hg : Closed g)
    (hnf : ∀ n r, compile_graph g marks ≠ .feedback n r) :
    ∃ raw master marks', compile_graph_raw g marks = .ok (raw, marks') ∧
      compile_graph g marks = .ok (master, marks') ∧
      master.blocks = raw.blocks ∧ master.blocks.Nodup ∧
      (∀ b ∈ g.blocks, master.blocks.count b = 1) ∧ (∀ b ∈ g.blocks, marks' b = .VISITED) := by
  cases hraw : compile_graph_raw g marks with
  | ok r =>
    obtain ⟨raw, marks'⟩ := r
    have hc : compile_graph g marks = .ok (raw.simplify, marks') := by
      unfold compile_graph
      rw [hraw]
      rfl
    obtain ⟨hn, hall⟩ := compile_graph_raw_account g marks raw marks' hraw
    have hs := simplify_blocks raw
    refine ⟨raw, raw.simplify, marks', rfl, hc, hs, by rw [hs]; exact hn, ?_, ?_⟩
    · intro b hb
      rw [hs]
      exact List.count_eq_one_of_mem hn (hall b hb).1
    · exact fun b hb => (hall b hb).2
  | feedback n r =>
    have hc : compile_graph g marks = .feedback n r := by
      unfold compile_graph
      rw [hraw]
      rfl
    exact absurd hc (hnf n r)
  | timeout => exact absurd hraw (compile_graph_raw_no_timeout g hg marks)

/-- An instance of C26: the master task of `graph_late_provider` holds each
of the blocks 0 to 5 once. -/
theorem C26_each_block_once_witness :
    ∃ master marks', compile_graph graph_late_provider (fun _ => .VISITING) =
        .ok (master, marks') ∧
      (∀ b ∈ graph_late_provider.blocks, master.blocks.count b = 1) ∧
      (∀ b ∈ graph_late_provider.blocks, marks' b = .VISITED) :=
  have h := C26_each_block_once graph_late_provider (fun _ => .VISITING)
    graph_late_provider_closed
    (fun n r e => compile_graph_raw_acyclic graph_late_provider graph_late_provider_closed
      graph_late_provider_acyclic _ n r (compile_graph_feedback _ _ n r e))
  ⟨h.choose_spec.choose, h.choose_spec.choose_spec.choose,
    h.choose_spec.choose_spec.choose_spec.2.1,
    h.choose_spec.choose_spec.choose_spec.2.2.2.2.1,
    h.choose_spec.choose_spec.choose_spec.2.2.2.2.2⟩

/-- C27: on every finite graph (a list of blocks whose dependants are
blocks of the graph), cyclic or not, `compile_graph` terminates: it returns
or throws a `FeedbackException`, before `simplify` and after. The fuel of
the model is never the reason for the end: the recursion of
`compile_block` and `compile_dependant` and the recursion of
`check_feedback` end when they have more fuel than there are unvisited
blocks, and the loop over the waves ends within one round per unvisited
block. -/
theorem C27_compile_graph_terminates (g : GraphImpl) (marks : Marks) (hg : Closed g) :
    ((∃ r, compile_graph g marks = .ok r) ∨ ∃ n r, compile_graph g marks = .feedback n r) ∧
    compile_graph_raw g marks ≠ .timeout ∧
    (∀ fuel root x m, x ∈ g.blocks → unvisited_count g m < fuel →
      check_feedback g fuel root x m ≠ .timeout) ∧
    (∀ fuel n s, n ∈ g.blocks → unvisited_count g s.2.2 < fuel →
      compile_block g fuel n s ≠ .timeout) ∧
    (∀ w s, (∀ x ∈ s.2.1, x ∈ g.blocks) → unvisited_count g s.2.2 < w →
      compile_waves g (compile_fuel g) w s ≠ .timeout) := by
  refine ⟨?_, compile_graph_raw_no_timeout g hg marks, check_feedback_no_timeout g hg,
    compile_block_no_timeout g hg, ?_⟩
  · cases h : compile_graph g marks with
    | ok r => exact Or.inl ⟨r, rfl⟩
    | feedback n r => exact Or.inr ⟨n, r, rfl⟩
    | timeout => exact absurd h (compile_graph_ne_timeout g hg marks)
  · intro w s hs hw
    exact compile_waves_no_timeout g hg (by unfold compile_fuel; omega) w s hs (Or.inr hw)

/-- Instances of C27: the compilation of the two blocks that feed each
other ends (with a `FeedbackException`), and so does the compilation of the
graph with a cycle behind block 2. -/
theorem C27_compile_graph_terminates_witness :
    ((∃ r, compile_graph graph_two_cycle (fun _ => .VISITING) = .ok r) ∨
      ∃ n r, compile_graph graph_two_cycle (fun _ => .VISITING) = .feedback n r) ∧
    compile_graph_raw graph_inner_cycle (fun _ => .VISITING) ≠ .timeout :=
  ⟨(C27_compile_graph_terminates graph_two_cycle (fun _ => .VISITING)
      graph_two_cycle_closed).1,
    (C27_compile_graph_terminates graph_inner_cycle (fun _ => .VISITING)
      (by unfold Closed; decide)).2.1⟩

end CompileClaimsMore

/-! ## Refused appends -/

section RefusedAppend

/-- C30 (as amended): when `append_event` returns false, a buffer whose atom
is not a Chunk is exactly as it was before the call: storage, hence atom
type, atom size and events, and `_latest_event`. A Chunk, as left by
`prepare_output_write`, has been cleared by the call: the buffer is the one
left by `clear()`, and for a sequence buffer with storage its atom has the
type Sequence and the size of an empty sequence body, it holds no event,
and `_latest_event` is 0. -/
theorem C30_failed_append (u : URIs) (hu : u.Valid) (b : Buffer) (frames : Int)
    (size type : Nat) (data : List Nat)
    (h : (b.append_event u frames size type data).1 = false) :
    (b.atom_type ≠ u.atom_Chunk → (b.append_event u frames size type data).2 = b) ∧
    (b.atom_type = u.atom_Chunk →
      (b.append_event u frames size type data).2 = b.clear u ∧
      (b._type = u.atom_Sequence → b._buf.isSome = true →
        (b.append_event u frames size type data).2.atom_type = u.atom_Sequence ∧
        (b.append_event u frames size type data).2.atom_size = 8 ∧
        (b.append_event u frames size type data).2.events = [] ∧
        (b.append_event u frames size type data).2._latest_event = 0)) := by
  have hf := append_event_false u b frames size type data h
  constructor
  · intro hne
    rw [hf, unchunk_not_chunk u b hne]
  · intro hc
    have hun : b.unchunk u = b.clear u := by
      unfold Buffer.unchunk
      rw [if_pos hc]
    rw [hf, hun]
    refine ⟨rfl, ?_⟩
    intro hseq hbuf
    obtain ⟨m, hm⟩ := Option.isSome_iff_exists.mp hbuf
    obtain ⟨mK, hK, hKt, hKs⟩ := clear_sequence u hu b m hseq hm
    rw [hK]
    refine ⟨?_, ?_, ?_, rfl⟩
    · unfold Buffer.atom_type Buffer.mem
      simp only [Option.getD_some]
      exact hKt
    · unfold Buffer.atom_size Buffer.mem
      simp only [Option.getD_some]
      exact hKs
    · unfold Buffer.events Buffer.mem
      simp only [Option.getD_some]
      exact (walk_empty mK hKs).seq_events_eq

set_option maxRecDepth 100000 in
/-- C30 as stated fails: a sequence buffer of 48 bytes prepared by
`prepare_output_write` is a Chunk of size 40; an append of an event of 40
bytes returns false and leaves an atom of type Sequence and size 8. -/
theorem C30_failed_append_clears_chunk :
    (raw_sequence_buffer.prepare_output_write uris_example).atom_type =
      uris_example.atom_Chunk ∧
    (raw_sequence_buffer.prepare_output_write uris_example).atom_size = 40 ∧
    ((raw_sequence_buffer.prepare_output_write uris_example).append_call uris_example
      large_call).1 = false ∧
    ((raw_sequence_buffer.prepare_output_write uris_example).append_call uris_example
      large_call).2.atom_type = uris_example.atom_Sequence ∧
    ((raw_sequence_buffer.prepare_output_write uris_example).append_call uris_example
      large_call).2.atom_size = 8 := by
  decide

set_option maxRecDepth 100000 in
/-- Instances of C30: an event refused by an empty sequence of 16 bytes
leaves the buffer as it was; an event refused by a Chunk of 48 bytes leaves
the empty sequence. -/
theorem C30_failed_append_witness :
    ((sequence_buffer 16).append_event uris_example 10 3 5 [144, 60, 100]).2 =
      sequence_buffer 16 ∧
    ((raw_sequence_buffer.prepare_output_write uris_example).append_event uris_example 0 40 5
      (List.replicate 40 1)).2.events = [] :=
  ⟨(C30_failed_append uris_example (by decide) (sequence_buffer 16) 10 3 5 [144, 60, 100]
      (by decide)).1 (by decide),
    (((C30_failed_append uris_example (by decide)
      (raw_sequence_buffer.prepare_output_write uris_example) 0 40 5 (List.replicate 40 1)
      (by decide)).2 (by decide)).2 (by decide) (by decide)).2.2.1⟩

end RefusedAppend

end Ingen
